import Mathlib

/-!
Verification of the generalized heap library (gheap, C++11 header).

The development shallowly embeds the header's index arithmetic and
heap algorithms.  Machine `size_t` arithmetic is modelled on `ℕ`:
every subtraction below is written in the same association order as
the C expression, and on each reachable path (under the function's
`assert` preconditions) the C value never wraps, so truncated `ℕ`
subtraction coincides with the C `size_t` value.  The sole place where
a C intermediate can wrap (the slow-path child computation
`v + (u/page_size + 1)*page_leaves - page_size`) the final value is
mathematically in range, so the mod-2^64 result equals the `ℕ` value.

Sequences are modelled as total functions `ℕ → α` together with an
explicit length, matching random-access iterators.  Comparators are
boolean predicates as in C++.
-/

namespace Gheap

/-- `SIZE_MAX` for the 64-bit `size_t` used by the header. -/
def SIZE_MAX : ℕ := 2 ^ 64 - 1

/-- Functional update of a sequence at one position. -/
def upd {α : Type} (f : ℕ → α) (i : ℕ) (x : α) : ℕ → α :=
  fun j => if j = i then x else f j

@[simp] theorem upd_same {α : Type} (f : ℕ → α) (i : ℕ) (x : α) : upd f i x i = x := by
  simp [upd]

theorem upd_other {α : Type} (f : ℕ → α) (i j : ℕ) (x : α) (h : j ≠ i) :
    upd f i x j = f j := by
  simp [upd, h]

/-- Embeds `gheap<Fanout, PageChunks>::get_parent_index`.
Child index must be greater than 0 (`assert(u > 0)`). -/
def get_parent_index (F P u : ℕ) : ℕ :=
  let u1 := u - 1
  if P = 1 then u1 / F
  else if u1 < F then 0
  else
    let S := F * P
    let v := u1 % S
    if F ≤ v then u1 - v + v / F
    else
      let L := (F - 1) * P + 1
      let w := u1 / S - 1
      (w / L + 1) * S + w % L - L + 1

/-- Embeds `gheap<Fanout, PageChunks>::get_child_index`.
Parent index must be less than `SIZE_MAX`; returns `SIZE_MAX` on
child-index overflow. -/
def get_child_index (F P u : ℕ) : ℕ :=
  if P = 1 then
    if (SIZE_MAX - 1) / F < u then SIZE_MAX
    else u * F + 1
  else if u = 0 then 1
  else
    let S := F * P
    let u1 := u - 1
    let v := u1 % S + 1
    if v < S / F then
      let v2 := v * (F - 1)
      if SIZE_MAX - 2 - v2 < u1 then SIZE_MAX
      else u1 + v2 + 2
    else
      let L := (F - 1) * P + 1
      let v3 := v + (u1 / S + 1) * L - S
      if (SIZE_MAX - 1) / S < v3 then SIZE_MAX
      else v3 * S + 1

/-- The first-child index of `u` computed in unbounded arithmetic:
the same formulas as `get_child_index` with the overflow checks
removed.  This is the mathematical "true first-child index" of the
(Fanout, PageChunks) layout. -/
def childTrue (F P u : ℕ) : ℕ :=
  if P = 1 then u * F + 1
  else if u = 0 then 1
  else
    let S := F * P
    let u1 := u - 1
    let v := u1 % S + 1
    if v < S / F then u1 + v * (F - 1) + 2
    else
      let L := (F - 1) * P + 1
      (v + (u1 / S + 1) * L - S) * S + 1

/-! ### Arithmetic helpers for the index layer -/

theorem q_div {S g r : ℕ} (hS : 0 < S) (hr : r < S) : (g * S + r) / S = g := by
  rw [Nat.add_comm, Nat.add_mul_div_right _ _ hS, Nat.div_eq_of_lt hr, Nat.zero_add]

theorem q_mod {S g r : ℕ} (hr : r < S) : (g * S + r) % S = r := by
  rw [Nat.add_comm, Nat.add_mul_mod_self_right, Nat.mod_eq_of_lt hr]

/-- `get_parent_index` strictly decreases: needed for termination of the
sift loops.  Holds for arbitrary `F`, `P`. -/
theorem parent_lt (F P u : ℕ) (hu : 0 < u) : get_parent_index F P u < u := by
  unfold get_parent_index
  simp only []
  split
  · exact lt_of_le_of_lt (Nat.div_le_self _ _) (by omega)
  · split
    · omega
    · split
      · -- fast path: u1 - v + v / F with v = u1 % S ≤ u1
        have h1 : u - 1 - (u - 1) % (F * P) + (u - 1) % (F * P) / F ≤ u - 1 := by
          have hv : (u - 1) % (F * P) ≤ u - 1 := Nat.mod_le _ _
          have hvf : (u - 1) % (F * P) / F ≤ (u - 1) % (F * P) := Nat.div_le_self _ _
          omega
        omega
      · -- slow path
        rename_i hP1 hge hlt
        set u1 := u - 1 with hu1
        set S := F * P with hS
        set L := (F - 1) * P + 1 with hL
        set w := u1 / S - 1 with hw
        have hSpos : 0 < S := by
          rcases Nat.eq_zero_or_pos S with h | h
          · exfalso; rw [h] at hlt; simp [Nat.mod_zero] at hlt; omega
          · exact h
        have hu1S : S ≤ u1 := by
          by_contra hc
          push_neg at hc
          rw [Nat.mod_eq_of_lt hc] at hlt
          omega
        have hg : 1 ≤ u1 / S := (Nat.one_le_div_iff hSpos).mpr hu1S
        have hLpos : 0 < L := by omega
        have hwle : w / L + 1 ≤ u1 / S := by
          have : w / L ≤ w := Nat.div_le_self _ _
          omega
        have hA : (w / L + 1) * S ≤ u1 := by
          calc (w / L + 1) * S ≤ (u1 / S) * S := Nat.mul_le_mul_right _ hwle
            _ ≤ u1 := Nat.div_mul_le_self _ _
        have hm : w % L < L := Nat.mod_lt _ hLpos
        omega

/-! ### The paged layout: branch characterizations in page coordinates.

For the paged case (`P ≥ 2`) write every index `x ≥ 1` as
`x = g*S + ρ + 1` with `S = F*P`, `g` the page number and `ρ < S` the
offset; `L = (F-1)*P + 1` is the number of leaves per page. -/

section Paged

variable {F P : ℕ} (hF : 2 ≤ F) (hP : 2 ≤ P)

theorem S_div_F (hF : 2 ≤ F) : F * P / F = P :=
  Nat.mul_div_cancel_left _ (by omega)

theorem S_sub_L (hF : 2 ≤ F) (hP : 1 ≤ P) : (F - 1) * P + 1 + (P - 1) = F * P := by
  have h1 : (F - 1) * P + P = F * P := by
    have h2 : F - 1 + 1 = F := by omega
    calc (F - 1) * P + P = ((F - 1) + 1) * P := by ring
      _ = F * P := by rw [h2]
  omega

include hF hP in
/-- Parent, paged fast path: offset `ρ ≥ F` stays on page `g`. -/
theorem par_paged_fast (g ρ : ℕ) (hρ1 : F ≤ ρ) (hρ2 : ρ < F * P) :
    get_parent_index F P (g * (F * P) + ρ + 1) = g * (F * P) + ρ / F := by
  have hSpos : 0 < F * P := by positivity
  have hu1 : g * (F * P) + ρ + 1 - 1 = g * (F * P) + ρ := by omega
  have hmod : (g * (F * P) + ρ + 1 - 1) % (F * P) = ρ := by
    rw [hu1]; exact q_mod hρ2
  unfold get_parent_index
  simp only []
  rw [if_neg (show ¬ P = 1 by omega)]
  rw [if_neg (show ¬ g * (F * P) + ρ + 1 - 1 < F by
    have hle : ρ ≤ g * (F * P) + ρ := Nat.le_add_left _ _
    omega)]
  rw [hmod, if_pos hρ1, hu1]
  have hd : ρ / F ≤ ρ := Nat.div_le_self _ _
  set A := g * (F * P) with hA
  set d := ρ / F with hdd
  omega

include hF hP in
/-- Parent, paged slow path: offset `ρ < F` on page `g ≥ 1`; the parent
is a leaf of page `(g-1)/L` where `L = (F-1)*P + 1`. -/
theorem par_paged_slow (g ρ : ℕ) (hg : 1 ≤ g) (hρ : ρ < F) :
    get_parent_index F P (g * (F * P) + ρ + 1) =
      (g - 1) / ((F - 1) * P + 1) * (F * P) + (P - 1 + (g - 1) % ((F - 1) * P + 1)) + 1 := by
  have hSpos : 0 < F * P := by positivity
  have hρS : ρ < F * P := by
    have h2 : F ≤ F * P := Nat.le_mul_of_pos_right _ (by omega)
    omega
  have hgS : F * P ≤ g * (F * P) := Nat.le_mul_of_pos_left _ hg
  have hu1 : g * (F * P) + ρ + 1 - 1 = g * (F * P) + ρ := by omega
  have hmod : (g * (F * P) + ρ + 1 - 1) % (F * P) = ρ := by
    rw [hu1]; exact q_mod hρS
  have hdiv : (g * (F * P) + ρ + 1 - 1) / (F * P) = g := by
    rw [hu1]; exact q_div hSpos hρS
  unfold get_parent_index
  simp only []
  rw [if_neg (show ¬ P = 1 by omega)]
  rw [if_neg (show ¬ g * (F * P) + ρ + 1 - 1 < F by
    have h2 : F ≤ F * P := Nat.le_mul_of_pos_right _ (by omega)
    omega)]
  rw [hmod, if_neg (show ¬ F ≤ ρ by omega), hdiv]
  set L := (F - 1) * P + 1 with hL
  have hLS : L + (P - 1) = F * P := S_sub_L hF (by omega)
  have hLpos : 0 < L := by omega
  have hmL : (g - 1) % L < L := Nat.mod_lt _ hLpos
  have hexp : ((g - 1) / L + 1) * (F * P) = (g - 1) / L * (F * P) + F * P := by ring
  set B := (g - 1) / L * (F * P) with hB
  set m := (g - 1) % L with hm
  omega

include hP in
/-- Parent of the root block: indices with `x - 1 < F` have parent `0`. -/
theorem par_paged_root (x : ℕ) (hx2 : x - 1 < F) :
    get_parent_index F P x = 0 := by
  unfold get_parent_index
  simp only []
  rw [if_neg (show ¬ P = 1 by omega), if_pos hx2]

include hF hP in
/-- Child, paged fast path: node at offset `ρh` with `ρh + 1 < P` has its
children on the same page. -/
theorem chd_paged_fast (g ρh : ℕ) (hv : ρh + 1 < P) :
    childTrue F P (g * (F * P) + ρh + 1) = g * (F * P) + (ρh + 1) * F + 1 := by
  have hSpos : 0 < F * P := by positivity
  have hρS : ρh < F * P := by
    have h2 : P ≤ F * P := Nat.le_mul_of_pos_left _ (by omega)
    omega
  have hu1 : g * (F * P) + ρh + 1 - 1 = g * (F * P) + ρh := by omega
  have hmod : (g * (F * P) + ρh + 1 - 1) % (F * P) = ρh := by
    rw [hu1]; exact q_mod hρS
  have hexp : (ρh + 1) * (F - 1) + (ρh + 1) = (ρh + 1) * F := by
    have h1 : F - 1 + 1 = F := by omega
    calc (ρh + 1) * (F - 1) + (ρh + 1) = (ρh + 1) * ((F - 1) + 1) := by ring
      _ = (ρh + 1) * F := by rw [h1]
  unfold childTrue
  simp only []
  rw [if_neg (show ¬ P = 1 by omega)]
  rw [if_neg (show ¬ g * (F * P) + ρh + 1 = 0 by omega)]
  rw [hmod, S_div_F hF, if_pos hv, hu1]
  set A := g * (F * P) with hA
  set B := (ρh + 1) * (F - 1) with hB
  set C := (ρh + 1) * F with hC
  omega

include hF hP in
/-- Child, paged slow path: node at offset `ρh` with `ρh + 1 ≥ P` is a
leaf of page `g`; its children start a fresh page. -/
theorem chd_paged_slow (g ρh : ℕ) (hv : P ≤ ρh + 1) (hρS : ρh < F * P) :
    childTrue F P (g * (F * P) + ρh + 1) =
      (g * ((F - 1) * P + 1) + (ρh - (P - 1)) + 1) * (F * P) + 1 := by
  have hSpos : 0 < F * P := by positivity
  have hu1 : g * (F * P) + ρh + 1 - 1 = g * (F * P) + ρh := by omega
  have hmod : (g * (F * P) + ρh + 1 - 1) % (F * P) = ρh := by
    rw [hu1]; exact q_mod hρS
  have hdiv : (g * (F * P) + ρh + 1 - 1) / (F * P) = g := by
    rw [hu1]; exact q_div hSpos hρS
  unfold childTrue
  simp only []
  rw [if_neg (show ¬ P = 1 by omega)]
  rw [if_neg (show ¬ g * (F * P) + ρh + 1 = 0 by omega)]
  rw [hmod, S_div_F hF, if_neg (show ¬ ρh + 1 < P by omega), hdiv]
  have harg : ρh + 1 + (g + 1) * ((F - 1) * P + 1) - F * P =
      g * ((F - 1) * P + 1) + (ρh - (P - 1)) + 1 := by
    have hLS : ((F - 1) * P + 1) + (P - 1) = F * P := S_sub_L hF (by omega)
    have hexp : (g + 1) * ((F - 1) * P + 1) = g * ((F - 1) * P + 1) + ((F - 1) * P + 1) := by
      ring
    set B := g * ((F - 1) * P + 1) with hB
    set L := (F - 1) * P + 1 with hL
    omega
  rw [harg]

end Paged

/-! ### Flat layout (`PageChunks = 1`) -/

theorem par_flat (F u : ℕ) : get_parent_index F 1 u = (u - 1) / F := by
  unfold get_parent_index
  rw [if_pos rfl]

theorem chd_flat (F u : ℕ) : childTrue F 1 u = u * F + 1 := by
  unfold childTrue
  rw [if_pos rfl]

/-! ### Layout facts for arbitrary `Fanout ≥ 2`, `PageChunks ≥ 1` -/

section Layout

variable {F P : ℕ} (hF : 2 ≤ F) (hP : 1 ≤ P)

/-- Decomposition of an index `x ≥ 1` into page coordinates. -/
theorem coords (S x : ℕ) (hS : 0 < S) (hx : 0 < x) :
    x = (x - 1) / S * S + (x - 1) % S + 1 ∧ (x - 1) % S < S := by
  have h1 : (x - 1) / S * S + (x - 1) % S = x - 1 := Nat.div_add_mod' _ _
  exact ⟨by omega, Nat.mod_lt _ hS⟩

theorem chd_paged_zero (hP2 : 2 ≤ P) : childTrue F P 0 = 1 := by
  unfold childTrue
  rw [if_neg (by omega : ¬ P = 1), if_pos rfl]

include hF hP in
/-- The first child is strictly below its parent in index order. -/
theorem childTrue_gt (u : ℕ) : u < childTrue F P u := by
  rcases eq_or_lt_of_le hP with h1 | hP2
  · rw [← h1, chd_flat]
    have h2 : u ≤ u * F := Nat.le_mul_of_pos_right _ (by omega)
    omega
  · rcases Nat.eq_zero_or_pos u with h0 | hu
    · rw [h0, chd_paged_zero hP2]; omega
    · have hSpos : 0 < F * P := by positivity
      obtain ⟨hrep, hρ⟩ := coords (F * P) u hSpos hu
      set g := (u - 1) / (F * P) with hg
      set ρ := (u - 1) % (F * P) with hρdef
      by_cases hv : ρ + 1 < P
      · rw [hrep, chd_paged_fast hF hP2 g ρ hv]
        have h2 : ρ + 1 ≤ (ρ + 1) * F := Nat.le_mul_of_pos_right _ (by omega)
        set A := g * (F * P) with hA
        set B := (ρ + 1) * F with hB
        omega
      · rw [hrep, chd_paged_slow hF hP2 g ρ (by omega) hρ]
        have h2 : g * (F * P) ≤ g * ((F - 1) * P + 1) * (F * P) := by
          have h3 : g ≤ g * ((F - 1) * P + 1) := Nat.le_mul_of_pos_right _ (by positivity)
          exact Nat.mul_le_mul_right _ h3
        have h4 : (g * ((F - 1) * P + 1) + (ρ - (P - 1)) + 1) * (F * P) =
            g * ((F - 1) * P + 1) * (F * P) + (ρ - (P - 1)) * (F * P) + F * P := by ring
        have h5 : 0 ≤ (ρ - (P - 1)) * (F * P) := Nat.zero_le _
        set A := g * (F * P) with hA
        set B := g * ((F - 1) * P + 1) * (F * P) with hB
        set C := (ρ - (P - 1)) * (F * P) with hC
        omega

include hF hP in
/-- Every first-child index is congruent to 1 modulo the fanout. -/
theorem childTrue_mod (u : ℕ) : childTrue F P u % F = 1 := by
  have h1 : (1 : ℕ) < F := by omega
  rcases eq_or_lt_of_le hP with hp1 | hP2
  · rw [← hp1, chd_flat]; exact q_mod h1
  · rcases Nat.eq_zero_or_pos u with h0 | hu
    · rw [h0, chd_paged_zero hP2]; exact Nat.mod_eq_of_lt h1
    · have hSpos : 0 < F * P := by positivity
      obtain ⟨hrep, hρ⟩ := coords (F * P) u hSpos hu
      set g := (u - 1) / (F * P) with hg
      set ρ := (u - 1) % (F * P) with hρdef
      by_cases hv : ρ + 1 < P
      · rw [hrep, chd_paged_fast hF hP2 g ρ hv]
        have h2 : g * (F * P) + (ρ + 1) * F + 1 = (g * P + (ρ + 1)) * F + 1 := by ring
        rw [h2]; exact q_mod h1
      · rw [hrep, chd_paged_slow hF hP2 g ρ (by omega) hρ]
        have h2 : (g * ((F - 1) * P + 1) + (ρ - (P - 1)) + 1) * (F * P) + 1 =
            ((g * ((F - 1) * P + 1) + (ρ - (P - 1)) + 1) * P) * F + 1 := by ring
        rw [h2]; exact q_mod h1

include hF hP in
/-- Forward bijection: each member of the child group of `h` has parent `h`. -/
theorem par_child (h j : ℕ) (hj : j < F) :
    get_parent_index F P (childTrue F P h + j) = h := by
  rcases eq_or_lt_of_le hP with hp1 | hP2
  · rw [← hp1, chd_flat, par_flat]
    have h2 : h * F + 1 + j - 1 = h * F + j := by omega
    rw [h2]
    exact q_div (by omega) hj
  · have hSpos : 0 < F * P := by positivity
    rcases Nat.eq_zero_or_pos h with h0 | hh
    · rw [h0, chd_paged_zero hP2]
      exact par_paged_root (by omega) _ (by omega)
    · obtain ⟨hrep, hρ⟩ := coords (F * P) h hSpos hh
      set g := (h - 1) / (F * P) with hg
      set ρh := (h - 1) % (F * P) with hρdef
      by_cases hv : ρh + 1 < P
      · rw [hrep, chd_paged_fast hF hP2 g ρh hv]
        have hge : F ≤ (ρh + 1) * F := Nat.le_mul_of_pos_left _ (by omega)
        have hlt : (ρh + 1) * F + j < F * P := by
          have h3 : (ρh + 1) * F + F ≤ P * F := by
            have h4 : ρh + 1 + 1 ≤ P := hv
            calc (ρh + 1) * F + F = (ρh + 1 + 1) * F := by ring
              _ ≤ P * F := Nat.mul_le_mul_right _ h4
          have h5 : P * F = F * P := Nat.mul_comm _ _
          omega
        have harg : g * (F * P) + (ρh + 1) * F + 1 + j = g * (F * P) + ((ρh + 1) * F + j) + 1 := by
          omega
        rw [harg, par_paged_fast hF hP2 g _ (by omega) hlt]
        have hdd : ((ρh + 1) * F + j) / F = ρh + 1 := q_div (by omega) hj
        rw [hdd]
        omega
      · rw [hrep, chd_paged_slow hF hP2 g ρh (by omega) hρ]
        set L := (F - 1) * P + 1 with hL
        have hLpos : 0 < L := by omega
        have hLS : L + (P - 1) = F * P := S_sub_L hF hP
        set m := ρh - (P - 1) with hm
        have hmL : m < L := by omega
        have harg : (g * L + m + 1) * (F * P) + 1 + j = (g * L + m + 1) * (F * P) + j + 1 := by
          omega
        rw [harg, par_paged_slow hF hP2 _ _ (by omega) hj]
        have h2 : g * L + m + 1 - 1 = g * L + m := by omega
        rw [h2, q_div hLpos hmL, q_mod hmL]
        omega

include hF hP in
/-- Coverage: every positive index lies in the child group of its parent. -/
theorem child_cover (x : ℕ) (hx : 0 < x) :
    childTrue F P (get_parent_index F P x) ≤ x ∧
      x < childTrue F P (get_parent_index F P x) + F := by
  rcases eq_or_lt_of_le hP with hp1 | hP2
  · rw [← hp1, par_flat, chd_flat]
    have h1 : (x - 1) / F * F ≤ x - 1 := Nat.div_mul_le_self _ _
    have h2 : x - 1 < (x - 1) / F * F + F := by
      have h3 := Nat.div_add_mod' (x - 1) F
      have h4 : (x - 1) % F < F := Nat.mod_lt _ (by omega)
      omega
    set A := (x - 1) / F * F with hA
    omega
  · have hSpos : 0 < F * P := by positivity
    by_cases hroot : x - 1 < F
    · rw [par_paged_root (by omega) x hroot, chd_paged_zero hP2]
      omega
    · obtain ⟨hrep, hρ⟩ := coords (F * P) x hSpos hx
      set g := (x - 1) / (F * P) with hg
      set ρ := (x - 1) % (F * P) with hρdef
      by_cases hfast : F ≤ ρ
      · -- parent on the same page
        have hpar : get_parent_index F P x = g * (F * P) + ρ / F := by
          rw [hrep]; exact par_paged_fast hF hP2 g ρ hfast hρ
        have hdF1 : 1 ≤ ρ / F := (Nat.one_le_div_iff (by omega)).mpr hfast
        have hdFP : ρ / F < P := by
          have h1 : ρ ≤ F * P - 1 := by omega
          have h2 : ρ / F ≤ (F * P - 1) / F := Nat.div_le_div_right h1
          have h3 : (F * P - 1) / F = P - 1 := by
            have h4 : (P - 1) * F + (F - 1) = F * P - 1 := by
              have h5 : (P - 1) * F + F = P * F := by
                have h6 : P - 1 + 1 = P := by omega
                calc (P - 1) * F + F = (P - 1 + 1) * F := by ring
                  _ = P * F := by rw [h6]
              have h7 : P * F = F * P := Nat.mul_comm _ _
              omega
            rw [← h4]
            exact q_div (by omega) (by omega)
          omega
        have hparrep : g * (F * P) + ρ / F = g * (F * P) + (ρ / F - 1) + 1 := by omega
        have hvP : ρ / F - 1 + 1 < P := by omega
        have hchd : childTrue F P (get_parent_index F P x) =
            g * (F * P) + (ρ / F - 1 + 1) * F + 1 := by
          rw [hpar, hparrep]
          exact chd_paged_fast hF hP2 g _ hvP
        rw [hchd]
        have h8 : ρ / F - 1 + 1 = ρ / F := by omega
        rw [h8]
        have h9 : ρ / F * F ≤ ρ := Nat.div_mul_le_self _ _
        have h10 : ρ < ρ / F * F + F := by
          have h11 := Nat.div_add_mod' ρ F
          have h12 : ρ % F < F := Nat.mod_lt _ (by omega)
          omega
        set A := g * (F * P) with hA
        set B := ρ / F * F with hB
        omega
      · -- parent is a leaf of an earlier page
        have hgpos : 1 ≤ g := by
          rcases Nat.eq_zero_or_pos g with h0 | h1
          · exfalso
            rw [h0] at hrep
            simp at hrep
            omega
          · exact h1
        have hpar : get_parent_index F P x =
            (g - 1) / ((F - 1) * P + 1) * (F * P) + (P - 1 + (g - 1) % ((F - 1) * P + 1)) + 1 := by
          rw [hrep]; exact par_paged_slow hF hP2 g ρ hgpos (by omega)
        set L := (F - 1) * P + 1 with hL
        have hLpos : 0 < L := by omega
        have hLS : L + (P - 1) = F * P := S_sub_L hF hP
        set p := (g - 1) / L with hp
        set m := (g - 1) % L with hm
        have hmL : m < L := Nat.mod_lt _ hLpos
        have hchd : childTrue F P (get_parent_index F P x) = g * (F * P) + 1 := by
          rw [hpar]
          rw [chd_paged_slow hF hP2 p (P - 1 + m) (by omega) (by omega)]
          have h2 : P - 1 + m - (P - 1) = m := by omega
          rw [h2]
          have h3 : p * L + m = g - 1 := Nat.div_add_mod' _ _
          have h4 : p * L + m + 1 = g := by omega
          rw [h4]
        rw [hchd]
        omega

include hF hP in
/-- The index bijection: `x` (positive) has parent `h` exactly when `x`
lies in the `F`-element child group starting at `childTrue h`. -/
theorem child_par (h x : ℕ) (hx : 0 < x) :
    get_parent_index F P x = h ↔ childTrue F P h ≤ x ∧ x < childTrue F P h + F := by
  constructor
  · intro hpar
    have h1 := child_cover hF hP x hx
    rw [hpar] at h1
    exact h1
  · intro ⟨h1, h2⟩
    have h3 : x = childTrue F P h + (x - childTrue F P h) := by omega
    rw [h3]
    exact par_child hF hP h _ (by omega)

include hF hP in
/-- Exactness of the overflow check: `get_child_index` returns the
sentinel `SIZE_MAX` precisely when the true first-child index is at
least `SIZE_MAX`, and the true index otherwise. -/
theorem get_child_eq (u : ℕ) (hu : u < SIZE_MAX) (hFP : F * P ≤ SIZE_MAX) :
    get_child_index F P u =
      if SIZE_MAX ≤ childTrue F P u then SIZE_MAX else childTrue F P u := by
  have hN : 4 ≤ SIZE_MAX := by norm_num [SIZE_MAX]
  rcases eq_or_lt_of_le hP with hp1 | hP2
  · -- flat layout
    rw [← hp1, chd_flat]
    unfold get_child_index
    rw [if_pos rfl]
    have hc : u ≤ (SIZE_MAX - 1) / F ↔ u * F ≤ SIZE_MAX - 1 :=
      Nat.le_div_iff_mul_le (by omega)
    have hA : (SIZE_MAX - 1) / F < u → SIZE_MAX ≤ u * F := by
      intro h
      by_contra hc2
      push_neg at hc2
      exact absurd (hc.mpr (by omega)) (by omega)
    have hB : ¬ ((SIZE_MAX - 1) / F < u) → u * F + 1 ≤ SIZE_MAX := by
      intro h
      have h2 := hc.mp (by omega)
      omega
    split_ifs with h1 h2 h3 <;> first
      | rfl
      | (exact absurd (hA h1) (by omega))
      | (have hq := hB h1; omega)
  · -- paged layout
    rcases Nat.eq_zero_or_pos u with h0 | hupos
    · rw [h0, chd_paged_zero hP2]
      unfold get_child_index
      rw [if_neg (by omega : ¬ P = 1), if_pos rfl, if_neg (by omega : ¬ SIZE_MAX ≤ 1)]
    · have hSpos : 0 < F * P := by positivity
      obtain ⟨hrep, hρ⟩ := coords (F * P) u hSpos hupos
      set g := (u - 1) / (F * P) with hg
      set ρh := (u - 1) % (F * P) with hρdef
      have hu1 : g * (F * P) + ρh + 1 - 1 = g * (F * P) + ρh := by omega
      have hmod : (g * (F * P) + ρh + 1 - 1) % (F * P) = ρh := by
        rw [hu1]; exact q_mod hρ
      have hdiv : (g * (F * P) + ρh + 1 - 1) / (F * P) = g := by
        rw [hu1]; exact q_div hSpos hρ
      by_cases hv : ρh + 1 < P
      · -- fast path
        have hchd : childTrue F P u = g * (F * P) + (ρh + 1) * F + 1 := by
          rw [hrep]; exact chd_paged_fast hF hP2 g ρh hv
        have hexp : (ρh + 1) * (F - 1) + (ρh + 1) = (ρh + 1) * F := by
          have h1 : F - 1 + 1 = F := by omega
          calc (ρh + 1) * (F - 1) + (ρh + 1) = (ρh + 1) * ((F - 1) + 1) := by ring
            _ = (ρh + 1) * F := by rw [h1]
        have hv2b : (ρh + 1) * (F - 1) + F + P ≤ F * P + 1 := by
          have h1 : (ρh + 1) * (F - 1) ≤ (P - 1) * (F - 1) :=
            Nat.mul_le_mul_right _ (by omega)
          have h2 : (P - 1) * (F - 1) + 1 * (F - 1) = P * (F - 1) := by
            have h3 : P - 1 + 1 = P := by omega
            calc (P - 1) * (F - 1) + 1 * (F - 1) = (P - 1 + 1) * (F - 1) := by ring
              _ = P * (F - 1) := by rw [h3]
          have h4 : P * (F - 1) + P * 1 = P * F := by
            have h5 : F - 1 + 1 = F := by omega
            calc P * (F - 1) + P * 1 = P * ((F - 1) + 1) := by ring
              _ = P * F := by rw [h5]
          have h6 : P * F = F * P := Nat.mul_comm _ _
          omega
        rw [hchd, hrep]
        unfold get_child_index
        simp only []
        rw [if_neg (by omega : ¬ P = 1)]
        rw [if_neg (show ¬ g * (F * P) + ρh + 1 = 0 by omega)]
        rw [hmod, S_div_F hF, if_pos hv, hu1]
        rw [hrep] at hu
        set A := g * (F * P) with hA
        set B := (ρh + 1) * (F - 1) with hB
        set C := (ρh + 1) * F with hC
        split_ifs with h1 h2 h3 <;> omega
      · -- slow path
        set L := (F - 1) * P + 1 with hL
        have hLS : L + (P - 1) = F * P := S_sub_L hF hP
        have harg : ρh + 1 + (g + 1) * L - F * P = g * L + (ρh - (P - 1)) + 1 := by
          have hexp : (g + 1) * L = g * L + L := by ring
          set B := g * L with hBs
          omega
        have hchd : childTrue F P u = (ρh + 1 + (g + 1) * L - F * P) * (F * P) + 1 := by
          rw [hrep, chd_paged_slow hF hP2 g ρh (by omega) hρ, harg]
        rw [hchd, hrep]
        unfold get_child_index
        simp only []
        rw [if_neg (by omega : ¬ P = 1)]
        rw [if_neg (show ¬ g * (F * P) + ρh + 1 = 0 by omega)]
        rw [hmod, S_div_F hF, if_neg (show ¬ ρh + 1 < P by omega), hdiv]
        set V3 := ρh + 1 + (g + 1) * L - F * P with hV3
        have hcv : V3 ≤ (SIZE_MAX - 1) / (F * P) ↔ V3 * (F * P) ≤ SIZE_MAX - 1 :=
          Nat.le_div_iff_mul_le hSpos
        have hA : (SIZE_MAX - 1) / (F * P) < V3 → SIZE_MAX ≤ V3 * (F * P) := by
          intro h
          by_contra hc2
          push_neg at hc2
          exact absurd (hcv.mpr (by omega)) (by omega)
        have hB : ¬ ((SIZE_MAX - 1) / (F * P) < V3) → V3 * (F * P) + 1 ≤ SIZE_MAX := by
          intro h
          have h2 := hcv.mp (by omega)
          omega
        split_ifs with h1 h2 h3 <;> first
          | rfl
          | (exact absurd (hA h1) (by omega))
          | (have hq := hB h1; omega)

include hF in
/-- Child-group alignment: an index `≡ 1 (mod F)` that lies in the last
partial group `[n - (n-1) % F, n)` must be exactly its start. -/
theorem chd_align (n c : ℕ) (hn : 0 < n) (hc1 : c % F = 1)
    (hge : n - (n - 1) % F ≤ c) (hlt : c < n) : c = n - (n - 1) % F := by
  obtain ⟨q, r, hqr, hrF⟩ : ∃ q r, q * F + r = n - 1 ∧ r < F :=
    ⟨(n - 1) / F, (n - 1) % F, Nat.div_add_mod' _ _, Nat.mod_lt _ (by omega)⟩
  have hmodeq : (n - 1) % F = r := by rw [← hqr]; exact q_mod hrF
  rw [hmodeq] at hge ⊢
  obtain ⟨t, hts⟩ : ∃ t, t * F + 1 = c :=
    ⟨c / F, by have h2 := Nat.div_add_mod' c F; omega⟩
  have htq' : t * F < (q + 1) * F := by
    have h4 : (q + 1) * F = q * F + F := by ring
    omega
  have htq : t < q + 1 := lt_of_mul_lt_mul_right htq' (Nat.zero_le F)
  have hqt' : q * F ≤ t * F := by omega
  have hqt : q ≤ t := Nat.le_of_mul_le_mul_right hqt' (show 0 < F by omega)
  have h5 : t = q := by omega
  subst h5
  omega

include hF hP in
/-- Nodes in the last partial group have no children inside the heap. -/
theorem no_child_in_tail (n u : ℕ) (hn : 0 < n)
    (hnr : n - (n - 1) % F ≤ u) (hun : u < n) : n ≤ childTrue F P u := by
  by_contra hc
  push_neg at hc
  have h1 : u < childTrue F P u := childTrue_gt hF hP u
  have h2 : childTrue F P u % F = 1 := childTrue_mod hF hP u
  have h3 : childTrue F P u = n - (n - 1) % F :=
    chd_align hF n _ hn h2 (by omega) hc
  omega

end Layout

/-! ### The sift engine and the heap algorithms.

A random-access range `[first, first + n)` is a total function
`f : ℕ → α` with explicit length `n`; `upd` is a store.  The comparer
is a boolean predicate, as in C++. -/

/-- Embeds `gheap::_sift_up`: walk the hole up the parent chain while
the parent compares less than the held-out item, then drop the item. -/
def _sift_up {α : Type} (less : α → α → Bool) (F P : ℕ) (root : ℕ)
    (hole : ℕ) (item : α) (f : ℕ → α) : ℕ → α :=
  if h : root < hole then
    let p := get_parent_index F P hole
    if less (f p) item then _sift_up less F P root p item (upd f hole (f p))
    else upd f hole item
  else upd f hole item
termination_by hole
decreasing_by exact parent_lt F P hole (by omega)

/-- The scan of `gheap::_move_up_max_child`: `steps` iterations left,
`i` the current candidate offset, `j` the incumbent maximum's offset.
The incumbent is replaced whenever the candidate is not less than it. -/
def _mumc_go {α : Type} (less : α → α → Bool) (f : ℕ → α) (c : ℕ) :
    ℕ → ℕ → ℕ → ℕ
  | 0, _, j => j
  | steps + 1, i, j =>
    _mumc_go less f c steps (i + 1) (if less (f (c + i)) (f (c + j)) then j else i)

/-- Offset of the maximum child chosen by `gheap::_move_up_max_child`. -/
def _mumc_j {α : Type} (less : α → α → Bool) (f : ℕ → α) (c count : ℕ) : ℕ :=
  _mumc_go less f c (count - 1) 1 0

/-- Embeds `gheap::_move_up_max_child`: move the max child of the group
`[c, c + count)` into the hole; return the new sequence and new hole. -/
def _move_up_max_child {α : Type} (less : α → α → Bool) (f : ℕ → α)
    (count hole c : ℕ) : (ℕ → α) × ℕ :=
  let j := _mumc_j less f c count
  (upd f hole (f (c + j)), c + j)

/-- The descent loop of `gheap::_sift_down` (fueled; under the
algorithm's preconditions `fuel = heap_size` never runs out because the
hole index strictly increases and stays below `heap_size`). -/
def _sdLoop {α : Type} (less : α → α → Bool) (F P n r : ℕ) :
    ℕ → (ℕ → α) → ℕ → ((ℕ → α) × ℕ)
  | 0, f, hole => (f, hole)
  | fuel + 1, f, hole =>
    let c := get_child_index F P hole
    if n - r ≤ c then
      if c < n then _move_up_max_child less f r hole c else (f, hole)
    else
      let fm := _move_up_max_child less f F hole c
      _sdLoop less F P n r fuel fm.1 fm.2

/-- Embeds `gheap::_sift_down`: descend moving max children up, then
sift the held-out item back up from the final hole toward the original
hole (`root_index`). -/
def _sift_down {α : Type} (less : α → α → Bool) (F P : ℕ) (n hole : ℕ)
    (item : α) (f : ℕ → α) : ℕ → α :=
  let r := (n - 1) % F
  let fh := _sdLoop less F P n r n f hole
  _sift_up less F P hole fh.2 item fh.1

/-- Embeds `gheap::_pop_heap`: move last to a temporary, root to last,
and sift the temporary down the shrunk heap from the root. -/
def _pop_heap {α : Type} (less : α → α → Bool) (F P : ℕ) (n : ℕ)
    (f : ℕ → α) : ℕ → α :=
  let item := f (n - 1)
  let f1 := upd f (n - 1) (f 0)
  _sift_down less F P (n - 1) 0 item f1

/-- The scan of `gheap::is_heap_until` from index `u` (fueled). -/
def _ihuGo {α : Type} (less : α → α → Bool) (F P n : ℕ) (f : ℕ → α) :
    ℕ → ℕ → ℕ
  | 0, _ => n
  | fuel + 1, u =>
    if u < n then
      if less (f (get_parent_index F P u)) (f u) then u
      else _ihuGo less F P n f fuel (u + 1)
    else n

/-- Embeds `gheap::is_heap_until`: index of the first non-heap item in
`[0, n)`, or `n` if the range is a valid max heap. -/
def is_heap_until {α : Type} (less : α → α → Bool) (F P n : ℕ)
    (f : ℕ → α) : ℕ :=
  _ihuGo less F P n f n 1

/-- Embeds `gheap::is_heap`. -/
def is_heap {α : Type} (less : α → α → Bool) (F P n : ℕ) (f : ℕ → α) : Bool :=
  is_heap_until less F P n f == n

/-- The descending do-while loop of `gheap::make_heap`. -/
def _mhLoop {α : Type} (less : α → α → Bool) (F P n : ℕ) :
    ℕ → (ℕ → α) → (ℕ → α)
  | 0, f => _sift_down less F P n 0 (f 0) f
  | i + 1, f => _mhLoop less F P n i (_sift_down less F P n (i + 1) (f (i + 1)) f)

/-- Embeds `gheap::make_heap`: bottom-up construction, starting from
`(n-2)/Fanout` for the flat layout and from `n-2` for paged layouts. -/
def make_heap {α : Type} (less : α → α → Bool) (F P n : ℕ)
    (f : ℕ → α) : ℕ → α :=
  if 1 < n then _mhLoop less F P n (if P = 1 then (n - 2) / F else n - 2) f
  else f

/-- Embeds `gheap::push_heap`: sift the trailing item up. -/
def push_heap {α : Type} (less : α → α → Bool) (F P n : ℕ)
    (f : ℕ → α) : ℕ → α :=
  if 1 < n then _sift_up less F P 0 (n - 1) (f (n - 1)) f
  else f

/-- Embeds `gheap::pop_heap`. -/
def pop_heap {α : Type} (less : α → α → Bool) (F P n : ℕ)
    (f : ℕ → α) : ℕ → α :=
  if 1 < n then _pop_heap less F P n f
  else f

/-- The descending loop of `gheap::sort_heap`: pop prefixes `[0, i)`
for `i = n` down to `2`. -/
def _shLoop {α : Type} (less : α → α → Bool) (F P : ℕ) :
    ℕ → (ℕ → α) → (ℕ → α)
  | 0, f => f
  | 1, f => f
  | i + 2, f => _shLoop less F P (i + 1) (_pop_heap less F P (i + 2) f)

/-- Embeds `gheap::sort_heap`. -/
def sort_heap {α : Type} (less : α → α → Bool) (F P n : ℕ)
    (f : ℕ → α) : ℕ → α :=
  _shLoop less F P n f

/-- Embeds `gheap::restore_heap_after_item_increase`; `item` is the
index of the increased element. -/
def restore_heap_after_item_increase {α : Type} (less : α → α → Bool)
    (F P : ℕ) (item : ℕ) (f : ℕ → α) : ℕ → α :=
  if 0 < item then _sift_up less F P 0 item (f item) f
  else f

/-- Embeds `gheap::restore_heap_after_item_decrease`; the range is
`[0, n)` and `item` is the index of the decreased element. -/
def restore_heap_after_item_decrease {α : Type} (less : α → α → Bool)
    (F P : ℕ) (n item : ℕ) (f : ℕ → α) : ℕ → α :=
  _sift_down less F P n item (f item) f

/-- Embeds `gheap::remove_from_heap`: relocate the last element into a
temporary, the removed value into the last slot, then sift the
temporary down or up depending on how it compares with the value now
at the tail slot. -/
def remove_from_heap {α : Type} (less : α → α → Bool) (F P : ℕ)
    (n item : ℕ) (f : ℕ → α) : ℕ → α :=
  let nhs := n - 1
  if item < nhs then
    let tmp := f nhs
    let f1 := upd f nhs (f item)
    if less tmp (f1 nhs) then _sift_down less F P nhs item tmp f1
    else _sift_up less F P 0 item tmp f1
  else f

/-- Embeds `gheap::_nway_merge_less_comparer`: range `a` compares less
than range `b` iff `b`'s front element is less than `a`'s front. -/
def _nway_merge_less_comparer {α : Type} [Inhabited α]
    (less : α → α → Bool) (a b : List α) : Bool :=
  less b.headI a.headI

/-- The merge loop of `gheap::nway_merge` over `k` live ranges held in
`f` (fueled by the total number of unconsumed elements). -/
def _nwLoop {α : Type} [Inhabited α] (lessR : List α → List α → Bool) (F P : ℕ) :
    ℕ → ℕ → (ℕ → List α) → List α → List α
  | 0, _, _, acc => acc
  | fuel + 1, k, f, acc =>
    let rng := f 0
    let out := acc ++ [rng.headI]
    let rng1 := rng.tail
    let f1 := upd f 0 rng1
    if rng1.isEmpty then
      let k1 := k - 1
      if k1 = 0 then out
      else
        let f2 := upd (upd f1 0 (f1 k1)) k1 (f1 0)
        _nwLoop lessR F P fuel k1 (restore_heap_after_item_decrease lessR F P k1 0 f2) out
    else
      _nwLoop lessR F P fuel k (restore_heap_after_item_decrease lessR F P k 0 f1) out

/-- Embeds `gheap::nway_merge`: build a heap of ranges under the
inverted comparer, then repeatedly emit the root range's front. -/
def nway_merge {α : Type} [Inhabited α] (less : α → α → Bool) (F P : ℕ)
    (rs : List (List α)) : List α :=
  _nwLoop (_nway_merge_less_comparer less) F P ((rs.map List.length).sum) rs.length
    (make_heap (_nway_merge_less_comparer less) F P rs.length (fun i => rs.getD i [])) []

/-! ### Strict weak order interface and heap predicate -/

/-- A strict weak ordering, stated on the boolean comparer exactly as
the C++ standard requires: irreflexivity, transitivity, and
transitivity of incomparability. -/
structure IsSWO {α : Type} (less : α → α → Bool) : Prop where
  irrefl : ∀ a, less a a = false
  trans : ∀ a b c, less a b = true → less b c = true → less a c = true
  negtrans : ∀ a b c, less a b = false → less b c = false → less a c = false

theorem IsSWO.asymm {α : Type} {less : α → α → Bool} (h : IsSWO less)
    {a b : α} (hab : less a b = true) : less b a = false := by
  by_contra hc
  have h2 : less b a = true := by
    cases h3 : less b a
    · exact absurd h3 hc
    · rfl
  have h4 := h.trans _ _ _ hab h2
  rw [h.irrefl] at h4
  exact Bool.false_ne_true h4

/-- The max-heap property over `[0, n)`: no parent compares less than
its child.  This is exactly what `is_heap_until` scans for. -/
def IsHeap {α : Type} (less : α → α → Bool) (F P n : ℕ) (f : ℕ → α) : Prop :=
  ∀ u, 0 < u → u < n → less (f (get_parent_index F P u)) (f u) = false

theorem ihuGo_spec {α : Type} (less : α → α → Bool) (F P n : ℕ) (f : ℕ → α) :
    ∀ fuel u, n ≤ u + fuel →
      (_ihuGo less F P n f fuel u = n ↔
        ∀ w, u ≤ w → w < n → less (f (get_parent_index F P w)) (f w) = false) := by
  intro fuel
  induction fuel with
  | zero =>
    intro u hu
    unfold _ihuGo
    constructor
    · intro _ w hw1 hw2
      omega
    · intro _
      rfl
  | succ fuel ih =>
    intro u hu
    unfold _ihuGo
    by_cases h1 : u < n
    · rw [if_pos h1]
      by_cases h2 : less (f (get_parent_index F P u)) (f u) = true
      · rw [if_pos h2]
        constructor
        · intro h3
          omega
        · intro h3
          have h4 := h3 u (le_refl u) h1
          rw [h2] at h4
          simp at h4
      · rw [if_neg h2]
        rw [ih (u + 1) (by omega)]
        constructor
        · intro h3 w hw1 hw2
          rcases eq_or_lt_of_le hw1 with he | hlt
          · rw [← he]
            cases h4 : less (f (get_parent_index F P u)) (f u)
            · rfl
            · exact absurd h4 h2
          · exact h3 w (by omega) hw2
        · intro h3 w hw1 hw2
          exact h3 w (by omega) hw2
    · rw [if_neg h1]
      constructor
      · intro _ w hw1 hw2
        omega
      · intro _
        rfl

/-- `is_heap` decides exactly the heap property. -/
theorem is_heap_iff {α : Type} (less : α → α → Bool) (F P n : ℕ) (f : ℕ → α) :
    is_heap less F P n f = true ↔ IsHeap less F P n f := by
  unfold is_heap is_heap_until IsHeap
  rw [beq_iff_eq, ihuGo_spec less F P n f n 1 (by omega)]
  constructor
  · intro h u hu1 hu2
    exact h u hu1 hu2
  · intro h w hw1 hw2
    exact h w hw1 hw2

/-! ### Subtree membership via iterated parents -/

/-- `k`-fold iterated parent. -/
def parIter (F P : ℕ) : ℕ → ℕ → ℕ
  | 0, u => u
  | k + 1, u => parIter F P k (get_parent_index F P u)

/-- `u` lies in the subtree rooted at `r` (the parent chain from `u`
reaches `r`). -/
def inSub (F P r u : ℕ) : Prop := ∃ k, parIter F P k u = r

theorem par_zero (F P : ℕ) : get_parent_index F P 0 = 0 := by
  unfold get_parent_index
  simp only []
  split
  · simp
  · split
    · rfl
    · split
      · simp
      · rename_i h1 h2 h3
        simp only [Nat.zero_sub, Nat.zero_mod] at h2 h3
        omega

theorem par_le (F P u : ℕ) : get_parent_index F P u ≤ u := by
  rcases Nat.eq_zero_or_pos u with h | h
  · rw [h, par_zero]
  · exact le_of_lt (parent_lt F P u h)

theorem inSub_refl (F P r : ℕ) : inSub F P r r := ⟨0, rfl⟩

theorem parIter_le (F P : ℕ) : ∀ k u, parIter F P k u ≤ u := by
  intro k
  induction k with
  | zero => intro u; exact le_refl u
  | succ k ih =>
    intro u
    calc parIter F P (k + 1) u = parIter F P k (get_parent_index F P u) := rfl
      _ ≤ get_parent_index F P u := ih _
      _ ≤ u := par_le F P u

theorem inSub_le {F P r u : ℕ} (h : inSub F P r u) : r ≤ u := by
  obtain ⟨k, hk⟩ := h
  rw [← hk]
  exact parIter_le F P k u

theorem inSub_child {F P r h u : ℕ} (hh : inSub F P r h)
    (hu : get_parent_index F P u = h) : inSub F P r u := by
  obtain ⟨k, hk⟩ := hh
  exact ⟨k + 1, by rw [show parIter F P (k + 1) u = parIter F P k (get_parent_index F P u) from rfl, hu, hk]⟩

theorem inSub_parent {F P r u : ℕ} (h : inSub F P r u) (hne : u ≠ r) :
    inSub F P r (get_parent_index F P u) := by
  obtain ⟨k, hk⟩ := h
  cases k with
  | zero => exact absurd hk hne
  | succ k => exact ⟨k, hk⟩

theorem inSub_zero (F P : ℕ) : ∀ u, inSub F P 0 u := by
  intro u
  induction u using Nat.strong_induction_on with
  | _ u ih =>
    rcases Nat.eq_zero_or_pos u with h | h
    · rw [h]; exact inSub_refl F P 0
    · exact inSub_child (ih _ (parent_lt F P u h)) rfl

/-! ### Correctness of `_sift_up`, relativized to the subtree of the
sift's root index.

`hU1` says every heap pair inside the subtree not touching the hole
holds; `hU2a` says the held-out item dominates the hole's children;
`hU2b` says the hole's parent's value dominates the hole's children.
The conclusion: all subtree pairs hold afterwards (`c1`), positions
outside the subtree (or outside the range) are untouched (`c2`), and
every subtree position afterwards holds either an old subtree value or
the item (`c3`, provenance). -/
theorem sift_up_master {α : Type} (less : α → α → Bool) (F P : ℕ)
    (hsw : IsSWO less) (n r0 : ℕ) :
    ∀ hole : ℕ, ∀ (f : ℕ → α) (x : α),
    inSub F P r0 hole → hole < n →
    (∀ u, 0 < u → u < n → inSub F P r0 u → u ≠ r0 → u ≠ hole →
        get_parent_index F P u ≠ hole →
        less (f (get_parent_index F P u)) (f u) = false) →
    (∀ u, 0 < u → u < n → get_parent_index F P u = hole →
        less x (f u) = false) →
    (∀ u, 0 < u → u < n → get_parent_index F P u = hole → hole ≠ r0 →
        less (f (get_parent_index F P hole)) (f u) = false) →
    (∀ u, 0 < u → u < n → inSub F P r0 u → u ≠ r0 →
        less ((_sift_up less F P r0 hole x f) (get_parent_index F P u))
          ((_sift_up less F P r0 hole x f) u) = false) ∧
    (∀ u, ¬ (inSub F P r0 u ∧ u < n) → _sift_up less F P r0 hole x f u = f u) ∧
    (∀ u, inSub F P r0 u → u < n →
        (∃ w, inSub F P r0 w ∧ w < n ∧ _sift_up less F P r0 hole x f u = f w) ∨
          _sift_up less F P r0 hole x f u = x) := by
  intro hole
  induction hole using Nat.strong_induction_on with
  | _ hole IH =>
    intro f x hsub hn hU1 hU2a hU2b
    by_cases hrh : r0 < hole
    · have hh0 : 0 < hole := by omega
      have hner : hole ≠ r0 := by omega
      have hplt : get_parent_index F P hole < hole := parent_lt F P hole hh0
      by_cases hless : less (f (get_parent_index F P hole)) x = true
      · -- loop step: move the parent down, recurse at the parent
        have heq : _sift_up less F P r0 hole x f =
            _sift_up less F P r0 (get_parent_index F P hole) x
              (upd f hole (f (get_parent_index F P hole))) := by
          rw [_sift_up]
          simp only [dif_pos hrh, hless, if_true]
        rw [heq]
        set p := get_parent_index F P hole with hp
        set f1 := upd f hole (f p) with hf1
        have hf1hole : f1 hole = f p := upd_same _ _ _
        have hf1other : ∀ v, v ≠ hole → f1 v = f v := fun v hv => upd_other _ _ _ _ hv
        have hpsub : inSub F P r0 p := inSub_parent hsub hner
        have hpn : p < n := by omega
        have hpr0 : r0 ≤ p := inSub_le hpsub
        -- hU1 for the moved configuration
        have hU1' : ∀ u, 0 < u → u < n → inSub F P r0 u → u ≠ r0 → u ≠ p →
            get_parent_index F P u ≠ p →
            less (f1 (get_parent_index F P u)) (f1 u) = false := by
          intro u hu0 hun hus hur hup hupp
          have hunh : u ≠ hole := by
            intro he
            rw [he] at hupp
            exact hupp rfl
          by_cases hpu : get_parent_index F P u = hole
          · rw [hpu, hf1hole, hf1other u hunh]
            exact hU2b u hu0 hun hpu hner
          · rw [hf1other _ hpu, hf1other u hunh]
            exact hU1 u hu0 hun hus hur hunh hpu
        -- children of p are dominated by x
        have hchildx : ∀ u, 0 < u → u < n → get_parent_index F P u = p →
            less x (f1 u) = false := by
          intro u hu0 hun hpu
          by_cases huh : u = hole
          · rw [huh, hf1hole]
            exact hsw.asymm hless
          · rw [hf1other u huh]
            have hune : u ≠ r0 := by
              have h2 : p < u := by
                rw [← hpu]
                exact parent_lt F P u hu0
              omega
            have hus : inSub F P r0 u := inSub_child hpsub hpu
            have hpph : get_parent_index F P u ≠ hole := by
              rw [hpu]; omega
            have h3 : less (f p) (f u) = false := by
              have := hU1 u hu0 hun hus hune huh hpph
              rw [← hpu]; exact this
            by_contra hc
            have h4 : less x (f u) = true := by
              cases h5 : less x (f u)
              · exact absurd h5 hc
              · rfl
            have h6 := hsw.trans _ _ _ hless h4
            rw [h3] at h6
            simp at h6
        -- children of p are dominated by p's parent's value
        have hchildpp : ∀ u, 0 < u → u < n → get_parent_index F P u = p → p ≠ r0 →
            less (f1 (get_parent_index F P p)) (f1 u) = false := by
          intro u hu0 hun hpu hpner
          have hp0 : 0 < p := by
            have := inSub_le hpsub
            omega
          have hppn : get_parent_index F P p < p := parent_lt F P p hp0
          have hppne : get_parent_index F P p ≠ hole := by omega
          rw [hf1other _ hppne]
          have hfp : less (f (get_parent_index F P p)) (f p) = false :=
            hU1 p hp0 hpn hpsub hpner (by omega) (by omega)
          by_cases huh : u = hole
          · rw [huh, hf1hole]
            exact hfp
          · rw [hf1other u huh]
            have hune : u ≠ r0 := by
              have h2 : p < u := by
                rw [← hpu]
                exact parent_lt F P u hu0
              omega
            have hus : inSub F P r0 u := inSub_child hpsub hpu
            have h3 : less (f p) (f u) = false := by
              have := hU1 u hu0 hun hus hune huh (by rw [hpu]; omega)
              rw [← hpu]; exact this
            exact hsw.negtrans _ _ _ hfp h3
        obtain ⟨c1, c2, c3⟩ := IH p hplt f1 x hpsub hpn hU1' hchildx hchildpp
        refine ⟨c1, ?_, ?_⟩
        · intro u hu
          rw [c2 u hu, hf1other]
          intro he
          rw [he] at hu
          exact hu ⟨hsub, hn⟩
        · intro u hus hun
          rcases c3 u hus hun with ⟨w, hws, hwn, hweq⟩ | hx
          · by_cases hwh : w = hole
            · left
              exact ⟨p, hpsub, hpn, by rw [hweq, hwh, hf1hole]⟩
            · left
              exact ⟨w, hws, hwn, by rw [hweq, hf1other w hwh]⟩
          · right
            exact hx
      · -- exit by comparison: place the item at the hole
        have heq : _sift_up less F P r0 hole x f = upd f hole x := by
          rw [_sift_up]
          simp only [dif_pos hrh]
          rw [if_neg (by simp [hless])]
        rw [heq]
        refine ⟨?_, ?_, ?_⟩
        · intro u hu0 hun hus hur
          by_cases huh : u = hole
          · rw [huh, upd_same, upd_other _ _ _ _ (show get_parent_index F P hole ≠ hole by omega)]
            cases h2 : less (f (get_parent_index F P hole)) x
            · rfl
            · exact absurd h2 hless
          · rw [upd_other _ _ _ _ huh]
            by_cases hpu : get_parent_index F P u = hole
            · rw [hpu, upd_same]
              exact hU2a u hu0 hun hpu
            · rw [upd_other _ _ _ _ hpu]
              exact hU1 u hu0 hun hus hur huh hpu
        · intro u hu
          refine upd_other _ _ _ _ ?_
          intro he
          rw [he] at hu
          exact hu ⟨hsub, hn⟩
        · intro u hus hun
          by_cases huh : u = hole
          · right; rw [huh, upd_same]
          · left; exact ⟨u, hus, hun, upd_other _ _ _ _ huh⟩
    · -- the hole is the root: place the item
      have hhr : hole = r0 := by
        have := inSub_le hsub
        omega
      have heq : _sift_up less F P r0 hole x f = upd f hole x := by
        rw [_sift_up]
        simp only [dif_neg hrh]
      rw [heq]
      refine ⟨?_, ?_, ?_⟩
      · intro u hu0 hun hus hur
        have huh : u ≠ hole := by omega
        rw [upd_other _ _ _ _ huh]
        by_cases hpu : get_parent_index F P u = hole
        · rw [hpu, upd_same]
          exact hU2a u hu0 hun hpu
        · rw [upd_other _ _ _ _ hpu]
          exact hU1 u hu0 hun hus hur huh hpu
      · intro u hu
        refine upd_other _ _ _ _ ?_
        intro he
        rw [he] at hu
        exact hu ⟨hsub, hn⟩
      · intro u hus hun
        by_cases huh : u = hole
        · right; rw [huh, upd_same]
        · left; exact ⟨u, hus, hun, upd_other _ _ _ _ huh⟩

/-! ### The max-child scan -/

/-- Invariant of the `_move_up_max_child` scan: the incumbent is not
less than anything seen, and everything after it is strictly less. -/
theorem mumc_go_spec {α : Type} (less : α → α → Bool) (hsw : IsSWO less)
    (f : ℕ → α) (c : ℕ) :
    ∀ steps i j, j < i →
    (∀ t, t < i → less (f (c + j)) (f (c + t)) = false) →
    (∀ t, j < t → t < i → less (f (c + t)) (f (c + j)) = true) →
    _mumc_go less f c steps i j < i + steps ∧
    (∀ t, t < i + steps →
        less (f (c + _mumc_go less f c steps i j)) (f (c + t)) = false) ∧
    (∀ t, _mumc_go less f c steps i j < t → t < i + steps →
        less (f (c + t)) (f (c + _mumc_go less f c steps i j)) = true) := by
  intro steps
  induction steps with
  | zero =>
    intro i j hji hmax hstrict
    unfold _mumc_go
    exact ⟨by omega, fun t ht => hmax t (by omega), fun t ht1 ht2 => hstrict t ht1 (by omega)⟩
  | succ steps ih =>
    intro i j hji hmax hstrict
    show _mumc_go less f c (steps + 1) i j < i + (steps + 1) ∧ _ ∧ _
    have hgo : _mumc_go less f c (steps + 1) i j =
        _mumc_go less f c steps (i + 1) (if less (f (c + i)) (f (c + j)) then j else i) := rfl
    by_cases hcond : less (f (c + i)) (f (c + j)) = true
    · rw [hgo, if_pos hcond]
      have h1 := ih (i + 1) j (by omega)
        (fun t ht => by
          rcases Nat.lt_succ_iff_lt_or_eq.mp ht with h | h
          · exact hmax t h
          · rw [h]; exact hsw.asymm hcond)
        (fun t ht1 ht2 => by
          rcases Nat.lt_succ_iff_lt_or_eq.mp ht2 with h | h
          · exact hstrict t ht1 h
          · rw [h]; exact hcond)
      refine ⟨by omega, fun t ht => h1.2.1 t (by omega), fun t ht1 ht2 => h1.2.2 t ht1 (by omega)⟩
    · have hcf : less (f (c + i)) (f (c + j)) = false := by
        cases h2 : less (f (c + i)) (f (c + j))
        · rfl
        · exact absurd h2 hcond
      rw [hgo, if_neg (by simp [hcf])]
      have h1 := ih (i + 1) i (by omega)
        (fun t ht => by
          rcases Nat.lt_succ_iff_lt_or_eq.mp ht with h | h
          · exact hsw.negtrans _ _ _ hcf (hmax t h)
          · rw [h]; exact hsw.irrefl _)
        (fun t ht1 ht2 => by omega)
      refine ⟨by omega, fun t ht => h1.2.1 t (by omega), fun t ht1 ht2 => h1.2.2 t ht1 (by omega)⟩

/-- The chosen child offset is in range, attains the maximum, and
everything after it in the group is strictly smaller. -/
theorem mumc_j_spec {α : Type} (less : α → α → Bool) (hsw : IsSWO less)
    (f : ℕ → α) (c count : ℕ) (hc : 1 ≤ count) :
    _mumc_j less f c count < count ∧
    (∀ t, t < count → less (f (c + _mumc_j less f c count)) (f (c + t)) = false) ∧
    (∀ t, _mumc_j less f c count < t → t < count →
        less (f (c + t)) (f (c + _mumc_j less f c count)) = true) := by
  have h1 := mumc_go_spec less hsw f c (count - 1) 1 0 (by omega)
    (fun t ht => by
      have h2 : t = 0 := by omega
      rw [h2]; exact hsw.irrefl _)
    (fun t ht1 ht2 => by omega)
  unfold _mumc_j
  have h2 : 1 + (count - 1) = count := by omega
  rw [h2] at h1
  exact h1

/-! ### Child index within a bounded heap -/

section ChildBounds

variable {F P : ℕ} (hF : 2 ≤ F) (hP : 1 ≤ P)

include hF hP in
/-- When the computed child index is below the heap size (and the heap
fits `size_t`), it equals the true child index. -/
theorem chd_code_eq {n : ℕ} (hnN : n ≤ SIZE_MAX) (hFP : F * P ≤ SIZE_MAX)
    (hole : ℕ) (hhn : hole < n) (hlt : get_child_index F P hole < n) :
    get_child_index F P hole = childTrue F P hole := by
  have h1 := get_child_eq hF hP hole (by omega) hFP
  by_cases h2 : SIZE_MAX ≤ childTrue F P hole
  · rw [if_pos h2] at h1
    omega
  · rw [if_neg h2] at h1
    exact h1

include hF hP in
/-- When the computed child index is at least the heap size, so is the
true child index. -/
theorem chd_code_ge {n : ℕ} (hnN : n ≤ SIZE_MAX) (hFP : F * P ≤ SIZE_MAX)
    (hole : ℕ) (hhn : hole < n) (hge : n ≤ get_child_index F P hole) :
    n ≤ childTrue F P hole := by
  have h1 := get_child_eq hF hP hole (by omega) hFP
  by_cases h2 : SIZE_MAX ≤ childTrue F P hole
  · omega
  · rw [if_neg h2] at h1
    omega

include hF in
/-- A full child group starting strictly before the last partial group
fits entirely below it. -/
theorem chd_step_fits (n c : ℕ) (hn : 0 < n) (hc1 : c % F = 1)
    (hlt : c < n - (n - 1) % F) : c + F ≤ n - (n - 1) % F := by
  obtain ⟨q, r, hqr, hrF⟩ : ∃ q r, q * F + r = n - 1 ∧ r < F :=
    ⟨(n - 1) / F, (n - 1) % F, Nat.div_add_mod' _ _, Nat.mod_lt _ (by omega)⟩
  have hmodeq : (n - 1) % F = r := by rw [← hqr]; exact q_mod hrF
  rw [hmodeq] at hlt ⊢
  obtain ⟨t, hts⟩ : ∃ t, t * F + 1 = c :=
    ⟨c / F, by have h2 := Nat.div_add_mod' c F; omega⟩
  have htq : t < q := by
    have h3 : t * F < q * F := by omega
    by_contra hcon
    push_neg at hcon
    have h4 : q * F ≤ t * F := Nat.mul_le_mul_right _ hcon
    omega
  have h5 : (t + 1) * F ≤ q * F := Nat.mul_le_mul_right _ (by omega)
  have h6 : (t + 1) * F = t * F + F := by ring
  omega

end ChildBounds

/-! ### Correctness of the `_sift_down` descent loop.

The loop moves max children up along a chain.  On exit the final hole
has no children inside the heap, all subtree pairs away from the hole
hold, positions outside the subtree are untouched, and every subtree
position holds an old subtree value. -/
theorem sdLoop_master {α : Type} (less : α → α → Bool) (F P : ℕ)
    (hsw : IsSWO less) (hF : 2 ≤ F) (hP : 1 ≤ P)
    (hFP : F * P ≤ SIZE_MAX) (n : ℕ) (hnN : n ≤ SIZE_MAX) (r0 : ℕ) :
    ∀ fuel : ℕ, ∀ (f : ℕ → α) (hole : ℕ),
    inSub F P r0 hole → hole < n → n ≤ fuel + hole →
    (∀ u, 0 < u → u < n → inSub F P r0 u → u ≠ r0 → u ≠ hole →
        get_parent_index F P u ≠ hole →
        less (f (get_parent_index F P u)) (f u) = false) →
    (∀ u, 0 < u → u < n → get_parent_index F P u = hole → hole ≠ r0 →
        less (f (get_parent_index F P hole)) (f u) = false) →
    inSub F P r0 (_sdLoop less F P n ((n - 1) % F) fuel f hole).2 ∧
    (_sdLoop less F P n ((n - 1) % F) fuel f hole).2 < n ∧
    (∀ u, 0 < u → u < n →
        get_parent_index F P u ≠ (_sdLoop less F P n ((n - 1) % F) fuel f hole).2) ∧
    (∀ u, 0 < u → u < n → inSub F P r0 u → u ≠ r0 →
        u ≠ (_sdLoop less F P n ((n - 1) % F) fuel f hole).2 →
        get_parent_index F P u ≠ (_sdLoop less F P n ((n - 1) % F) fuel f hole).2 →
        less ((_sdLoop less F P n ((n - 1) % F) fuel f hole).1 (get_parent_index F P u))
          ((_sdLoop less F P n ((n - 1) % F) fuel f hole).1 u) = false) ∧
    (∀ u, ¬ (inSub F P r0 u ∧ u < n) →
        (_sdLoop less F P n ((n - 1) % F) fuel f hole).1 u = f u) ∧
    (∀ u, inSub F P r0 u → u < n →
        ∃ w, inSub F P r0 w ∧ w < n ∧
          (_sdLoop less F P n ((n - 1) % F) fuel f hole).1 u = f w) := by
  intro fuel
  induction fuel with
  | zero =>
    intro f hole hsub hhn hfuel
    omega
  | succ fuel IH =>
    intro f hole hsub hhn hfuel hG1 hG2
    have hn0 : 0 < n := by omega
    have hrF : (n - 1) % F < F := Nat.mod_lt _ (by omega)
    have hloop : _sdLoop less F P n ((n - 1) % F) (fuel + 1) f hole =
        (let c := get_child_index F P hole
         if n - (n - 1) % F ≤ c then
           if c < n then _move_up_max_child less f ((n - 1) % F) hole c else (f, hole)
         else
           let fm := _move_up_max_child less f F hole c
           _sdLoop less F P n ((n - 1) % F) fuel fm.1 fm.2) := rfl
    rw [hloop]
    simp only []
    set c := get_child_index F P hole with hc
    -- facts shared by the cases where the child group is inside the heap
    have hkey : c < n →
        c = childTrue F P hole ∧ c % F = 1 ∧ hole < c ∧
        (∀ j, j < F → get_parent_index F P (c + j) = hole) ∧
        (∀ u, 0 < u → get_parent_index F P u = hole → c ≤ u ∧ u < c + F) := by
      intro hcn
      have he : c = childTrue F P hole := chd_code_eq hF hP hnN hFP hole hhn hcn
      refine ⟨he, ?_, ?_, ?_, ?_⟩
      · rw [he]; exact childTrue_mod hF hP hole
      · rw [he]; exact childTrue_gt hF hP hole
      · intro j hj
        rw [he]; exact par_child hF hP hole j hj
      · intro u hu0 hpu
        have h2 := (child_par hF hP hole u hu0).mp hpu
        rw [he]
        exact h2
    by_cases hbnd : n - (n - 1) % F ≤ c
    · rw [if_pos hbnd]
      by_cases hcn : c < n
      · -- boundary group: the assert `heap_size - child_index == remaining_items`
        rw [if_pos hcn]
        obtain ⟨he, hmod1, hcgt, hfwd, hcov⟩ := hkey hcn
        have hr1 : 1 ≤ (n - 1) % F := by omega
        have halign : c = n - (n - 1) % F := chd_align hF n c hn0 hmod1 hbnd hcn
        obtain ⟨hj, hmax, hstrict⟩ :=
          mumc_j_spec less hsw f c ((n - 1) % F) hr1
        set j := _mumc_j less f c ((n - 1) % F) with hjdef
        have hmumc : _move_up_max_child less f ((n - 1) % F) hole c =
            (upd f hole (f (c + j)), c + j) := rfl
        rw [hmumc]
        simp only []
        set m := c + j with hm
        have hmn : m < n := by omega
        have hparm : get_parent_index F P m = hole := hfwd j (by omega)
        have hmsub : inSub F P r0 m := inSub_child hsub hparm
        have hm0 : 0 < m := by
          have := childTrue_gt hF hP hole
          omega
        have hmhole : hole < m := by omega
        refine ⟨hmsub, hmn, ?_, ?_, ?_, ?_⟩
        · -- the new hole has no children in range
          intro u hu0 hun hpum
          have h3 : n ≤ childTrue F P m :=
            no_child_in_tail hF hP n m hn0 (by omega) hmn
          have h4 := (child_par hF hP m u hu0).mp hpum
          omega
        · -- heap pairs away from the new hole
          intro u hu0 hun hus hur hum hpum
          by_cases huh : u = hole
          · have hh0 : 0 < hole := by omega
            have hhr0 : hole ≠ r0 := by
              intro he2
              rw [← huh] at he2
              exact hur he2
            have hph : get_parent_index F P hole < hole := parent_lt F P hole hh0
            rw [huh, upd_other _ _ _ _ (show get_parent_index F P hole ≠ hole by omega),
              upd_same]
            exact hG2 m hm0 hmn hparm hhr0
          · rw [upd_other _ _ _ _ huh]
            by_cases hpu : get_parent_index F P u = hole
            · rw [hpu, upd_same]
              have h4 := hcov u hu0 hpu
              have h5 : u = c + (u - c) := by omega
              rw [h5]
              exact hmax (u - c) (by omega)
            · rw [upd_other _ _ _ _ hpu]
              exact hG1 u hu0 hun hus hur huh hpu
        · intro u hu
          refine upd_other _ _ _ _ ?_
          intro he2
          rw [he2] at hu
          exact hu ⟨hsub, hhn⟩
        · intro u hus hun
          by_cases huh : u = hole
          · exact ⟨m, hmsub, hmn, by rw [huh, upd_same]⟩
          · exact ⟨u, hus, hun, upd_other _ _ _ _ huh⟩
      · -- no children at all: the loop exits with the hole unchanged
        rw [if_neg hcn]
        refine ⟨hsub, hhn, ?_, ?_, fun u _ => rfl, fun u hus hun => ⟨u, hus, hun, rfl⟩⟩
        · intro u hu0 hun hpu
          have h3 : n ≤ childTrue F P hole :=
            chd_code_ge hF hP hnN hFP hole hhn (by omega)
          have h4 := (child_par hF hP hole u hu0).mp hpu
          omega
        · intro u hu0 hun hus hur huh hpu
          exact hG1 u hu0 hun hus hur huh hpu
    · -- full group: move the max child up and continue
      rw [if_neg hbnd]
      have hcn : c < n := by omega
      obtain ⟨he, hmod1, hcgt, hfwd, hcov⟩ := hkey hcn
      have hfit : c + F ≤ n - (n - 1) % F :=
        chd_step_fits hF n c hn0 hmod1 (by omega)
      obtain ⟨hj, hmax, hstrict⟩ := mumc_j_spec less hsw f c F (by omega)
      set j := _mumc_j less f c F with hjdef
      have hmumc : _move_up_max_child less f F hole c = (upd f hole (f (c + j)), c + j) := rfl
      rw [hmumc]
      simp only []
      set m := c + j with hm
      have hmn : m < n := by omega
      have hparm : get_parent_index F P m = hole := hfwd j hj
      have hmsub : inSub F P r0 m := inSub_child hsub hparm
      have hm0 : 0 < m := by
        have := childTrue_gt hF hP hole
        omega
      have hmhole : hole < m := by omega
      have hG1' : ∀ u, 0 < u → u < n → inSub F P r0 u → u ≠ r0 → u ≠ m →
          get_parent_index F P u ≠ m →
          less ((upd f hole (f m)) (get_parent_index F P u)) ((upd f hole (f m)) u) = false := by
        intro u hu0 hun hus hur hum hpum
        by_cases huh : u = hole
        · have hh0 : 0 < hole := by omega
          have hhr0 : hole ≠ r0 := by
            intro he2
            rw [← huh] at he2
            exact hur he2
          have hph : get_parent_index F P hole < hole := parent_lt F P hole hh0
          rw [huh, upd_other _ _ _ _ (show get_parent_index F P hole ≠ hole by omega),
            upd_same]
          exact hG2 m hm0 hmn hparm hhr0
        · rw [upd_other _ _ _ _ huh]
          by_cases hpu : get_parent_index F P u = hole
          · rw [hpu, upd_same]
            have h4 := hcov u hu0 hpu
            have h5 : u = c + (u - c) := by omega
            rw [h5]
            exact hmax (u - c) (by omega)
          · rw [upd_other _ _ _ _ hpu]
            exact hG1 u hu0 hun hus hur huh hpu
      have hG2' : ∀ u, 0 < u → u < n → get_parent_index F P u = m → m ≠ r0 →
          less ((upd f hole (f m)) (get_parent_index F P m)) ((upd f hole (f m)) u) = false := by
        intro u hu0 hun hpum _
        rw [hparm, upd_same]
        have humlt : m < u := by
          have := parent_lt F P u hu0
          omega
        have huh : u ≠ hole := by omega
        rw [upd_other _ _ _ _ huh]
        have hus : inSub F P r0 u := inSub_child hmsub hpum
        have hur : u ≠ r0 := by
          have := inSub_le hsub
          omega
        have h4 := hG1 u hu0 hun hus hur huh (by omega)
        rw [hpum] at h4
        exact h4
      obtain ⟨d0, d1, d2, d3, d4, d5⟩ := IH (upd f hole (f m)) m hmsub hmn (by omega) hG1' hG2'
      refine ⟨d0, d1, d2, d3, ?_, ?_⟩
      · intro u hu
        rw [d4 u hu]
        refine upd_other _ _ _ _ ?_
        intro he2
        rw [he2] at hu
        exact hu ⟨hsub, hhn⟩
      · intro u hus hun
        obtain ⟨w, hws, hwn, hweq⟩ := d5 u hus hun
        by_cases hwh : w = hole
        · exact ⟨m, hmsub, hmn, by rw [hweq, hwh, upd_same]⟩
        · exact ⟨w, hws, hwn, by rw [hweq, upd_other _ _ _ _ hwh]⟩

/-- Master correctness of `_sift_down` at root `r0` (which is both the
initial hole and the `root_index` of the final sift-up, as in the
source).  Subtree pairs hold afterwards; positions outside the subtree
(or the range) are untouched; subtree positions hold old subtree
values or the item. -/
theorem sift_down_master {α : Type} (less : α → α → Bool) (F P : ℕ)
    (hsw : IsSWO less) (hF : 2 ≤ F) (hP : 1 ≤ P)
    (hFP : F * P ≤ SIZE_MAX) (n : ℕ) (hnN : n ≤ SIZE_MAX)
    (r0 : ℕ) (f : ℕ → α) (x : α) (hr0 : r0 < n)
    (hG1 : ∀ u, 0 < u → u < n → inSub F P r0 u → u ≠ r0 →
        get_parent_index F P u ≠ r0 →
        less (f (get_parent_index F P u)) (f u) = false) :
    (∀ u, 0 < u → u < n → inSub F P r0 u → u ≠ r0 →
        less ((_sift_down less F P n r0 x f) (get_parent_index F P u))
          ((_sift_down less F P n r0 x f) u) = false) ∧
    (∀ u, ¬ (inSub F P r0 u ∧ u < n) → _sift_down less F P n r0 x f u = f u) ∧
    (∀ u, inSub F P r0 u → u < n →
        (∃ w, inSub F P r0 w ∧ w < n ∧ _sift_down less F P n r0 x f u = f w) ∨
          _sift_down less F P n r0 x f u = x) := by
  have hG1' : ∀ u, 0 < u → u < n → inSub F P r0 u → u ≠ r0 → u ≠ r0 →
      get_parent_index F P u ≠ r0 →
      less (f (get_parent_index F P u)) (f u) = false :=
    fun u h1 h2 h3 h4 _ h6 => hG1 u h1 h2 h3 h4 h6
  have hG2' : ∀ u, 0 < u → u < n → get_parent_index F P u = r0 → r0 ≠ r0 →
      less (f (get_parent_index F P r0)) (f u) = false :=
    fun u _ _ _ h => absurd rfl h
  obtain ⟨d0, d1, d2, d3, d4, d5⟩ :=
    sdLoop_master less F P hsw hF hP hFP n hnN r0 n f r0
      (inSub_refl F P r0) hr0 (by omega) hG1' hG2'
  have hsd : _sift_down less F P n r0 x f =
      _sift_up less F P r0 (_sdLoop less F P n ((n - 1) % F) n f r0).2 x
        (_sdLoop less F P n ((n - 1) % F) n f r0).1 := rfl
  rw [hsd]
  obtain ⟨c1, c2, c3⟩ :=
    sift_up_master less F P hsw n r0 (_sdLoop less F P n ((n - 1) % F) n f r0).2
      (_sdLoop less F P n ((n - 1) % F) n f r0).1 x d0 d1 d3
      (fun u hu0 hun hpu => absurd hpu (d2 u hu0 hun))
      (fun u hu0 hun hpu _ => absurd hpu (d2 u hu0 hun))
  refine ⟨c1, ?_, ?_⟩
  · intro u hu
    rw [c2 u hu, d4 u hu]
  · intro u hus hun
    rcases c3 u hus hun with ⟨w, hws, hwn, hweq⟩ | hx
    · obtain ⟨w2, hw2s, hw2n, hw2eq⟩ := d5 w hws hwn
      exact Or.inl ⟨w2, hw2s, hw2n, by rw [hweq, hw2eq]⟩
    · exact Or.inr hx

/-! ### Dominance in a heap -/

/-- In a heap, every ancestor's value dominates its descendants'. -/
theorem heap_sub_dom {α : Type} {less : α → α → Bool} {F P n : ℕ}
    {f : ℕ → α} (hsw : IsSWO less) (hheap : IsHeap less F P n f) :
    ∀ k u, u < n → less (f (parIter F P k u)) (f u) = false := by
  intro k
  induction k with
  | zero => intro u _; exact hsw.irrefl _
  | succ k ih =>
    intro u hun
    have hstep : parIter F P (k + 1) u = parIter F P k (get_parent_index F P u) := rfl
    rcases Nat.eq_zero_or_pos u with h0 | hu0
    · have hall : ∀ j, parIter F P j 0 = 0 := by
        intro j
        induction j with
        | zero => rfl
        | succ j ihj =>
          have : parIter F P (j + 1) 0 = parIter F P j (get_parent_index F P 0) := rfl
          rw [this, par_zero]
          exact ihj
      rw [h0, hall]
      exact hsw.irrefl _
    · have hp : get_parent_index F P u < u := parent_lt F P u hu0
      have h1 := ih (get_parent_index F P u) (by omega)
      have h2 := hheap u hu0 hun
      rw [hstep]
      exact hsw.negtrans _ _ _ h1 h2

/-- In a heap, the subtree root's value dominates the subtree. -/
theorem heap_dom_of_inSub {α : Type} {less : α → α → Bool} {F P n : ℕ}
    {f : ℕ → α} (hsw : IsSWO less) (hheap : IsHeap less F P n f)
    {r w : ℕ} (hsub : inSub F P r w) (hwn : w < n) :
    less (f r) (f w) = false := by
  obtain ⟨k, hk⟩ := hsub
  have := heap_sub_dom hsw hheap k w hwn
  rw [hk] at this
  exact this

/-- In a heap, the root holds a maximum element. -/
theorem heap_root_max {α : Type} {less : α → α → Bool} {F P n : ℕ}
    {f : ℕ → α} (hsw : IsSWO less) (hheap : IsHeap less F P n f) :
    ∀ u, u < n → less (f 0) (f u) = false := by
  intro u hun
  exact heap_dom_of_inSub hsw hheap (inSub_zero F P u) hun

/-! ### Heap invariants of the public operations -/

section Ops

variable {α : Type} {less : α → α → Bool} {F P : ℕ}
variable (hsw : IsSWO less) (hF : 2 ≤ F) (hP : 1 ≤ P) (hFP : F * P ≤ SIZE_MAX)

include hsw hF hP hFP in
/-- The `make_heap` loop: if all pairs whose parent is above `i` hold,
then after sifting down at `i, i-1, ..., 0` the range is a heap. -/
theorem mhLoop_Q {n : ℕ} (hnN : n ≤ SIZE_MAX) :
    ∀ i : ℕ, ∀ f : ℕ → α, i < n →
    (∀ u, 0 < u → u < n → i + 1 ≤ get_parent_index F P u →
        less (f (get_parent_index F P u)) (f u) = false) →
    IsHeap less F P n (_mhLoop less F P n i f) := by
  intro i
  induction i with
  | zero =>
    intro f hin hQ
    have h1 : _mhLoop less F P n 0 f = _sift_down less F P n 0 (f 0) f := rfl
    rw [h1]
    obtain ⟨e1, e2, e3⟩ := sift_down_master less F P hsw hF hP hFP n hnN 0 f (f 0) hin
      (fun u hu0 hun _ _ hpu => hQ u hu0 hun (by omega))
    intro u hu0 hun
    exact e1 u hu0 hun (inSub_zero F P u) (by omega)
  | succ i ih =>
    intro f hin hQ
    have h1 : _mhLoop less F P n (i + 1) f =
        _mhLoop less F P n i (_sift_down less F P n (i + 1) (f (i + 1)) f) := rfl
    rw [h1]
    obtain ⟨e1, e2, e3⟩ := sift_down_master less F P hsw hF hP hFP n hnN (i + 1) f
      (f (i + 1)) hin
      (fun u hu0 hun hus hur hpu => by
        have h2 : i + 1 ≤ get_parent_index F P u := inSub_le (inSub_parent hus hur)
        exact hQ u hu0 hun (by omega))
    refine ih _ (by omega) ?_
    intro u hu0 hun hpar
    by_cases hus : inSub F P (i + 1) u
    · have hune : u ≠ i + 1 := by
        intro he
        have h2 : get_parent_index F P u < u := parent_lt F P u hu0
        omega
      exact e1 u hu0 hun hus hune
    · have hpus : ¬ inSub F P (i + 1) (get_parent_index F P u) := by
        intro hc
        exact hus (inSub_child hc rfl)
      have hpne : get_parent_index F P u ≠ i + 1 := by
        intro he
        rw [he] at hpus
        exact hpus (inSub_refl F P (i + 1))
      rw [e2 u (fun hc => hus hc.1),
        e2 (get_parent_index F P u) (fun hc => hpus hc.1)]
      exact hQ u hu0 hun (by omega)

include hsw hF hP hFP in
/-- `make_heap` establishes the heap property (claim source:
`make_heap` + its trailing `assert(is_heap(...))`). -/
theorem make_heap_IsHeap {n : ℕ} (hnN : n ≤ SIZE_MAX) (f : ℕ → α) :
    IsHeap less F P n (make_heap less F P n f) := by
  unfold make_heap
  by_cases h1 : 1 < n
  · rw [if_pos h1]
    refine mhLoop_Q hsw hF hP hFP hnN _ f ?_ ?_
    · by_cases hp : P = 1
      · rw [if_pos hp]
        have := Nat.div_le_self (n - 2) F
        omega
      · rw [if_neg hp]; omega
    · intro u hu0 hun hpar
      exfalso
      have hplt : get_parent_index F P u < u := parent_lt F P u hu0
      by_cases hp : P = 1
      · rw [if_pos hp] at hpar
        rw [hp, par_flat] at hpar hplt
        have h2 : (u - 1) / F ≤ (n - 2) / F := Nat.div_le_div_right (by omega)
        omega
      · rw [if_neg hp] at hpar
        omega
  · rw [if_neg h1]
    intro u hu0 hun
    omega

include hsw in
/-- `push_heap` restores the heap property, assuming the range minus
the last element is a heap. -/
theorem push_heap_IsHeap {n : ℕ} (f : ℕ → α)
    (hpre : IsHeap less F P (n - 1) f) :
    IsHeap less F P n (push_heap less F P n f) := by
  unfold push_heap
  by_cases h1 : 1 < n
  · rw [if_pos h1]
    obtain ⟨c1, c2, c3⟩ := sift_up_master less F P hsw n 0 (n - 1) f (f (n - 1))
      (inSub_zero F P (n - 1)) (by omega)
      (fun u hu0 hun _ _ hune hpne => hpre u hu0 (by omega))
      (fun u hu0 hun hpu => by
        have := parent_lt F P u hu0
        omega)
      (fun u hu0 hun hpu _ => by
        have := parent_lt F P u hu0
        omega)
    intro u hu0 hun
    exact c1 u hu0 hun (inSub_zero F P u) (by omega)
  · rw [if_neg h1]
    intro u hu0 hun
    omega

include hsw in
/-- `restore_heap_after_item_increase` extends the heap property from
the prefix `[0, item)` to `[0, item]`. -/
theorem restore_inc_IsHeap (h : ℕ) (f : ℕ → α)
    (hpre : IsHeap less F P h f) :
    IsHeap less F P (h + 1) (restore_heap_after_item_increase less F P h f) := by
  unfold restore_heap_after_item_increase
  by_cases h1 : 0 < h
  · rw [if_pos h1]
    obtain ⟨c1, c2, c3⟩ := sift_up_master less F P hsw (h + 1) 0 h f (f h)
      (inSub_zero F P h) (by omega)
      (fun u hu0 hun _ _ hune hpne => hpre u hu0 (by omega))
      (fun u hu0 hun hpu => by
        have := parent_lt F P u hu0
        omega)
      (fun u hu0 hun hpu _ => by
        have := parent_lt F P u hu0
        omega)
    intro u hu0 hun
    exact c1 u hu0 hun (inSub_zero F P u) (by omega)
  · rw [if_neg h1]
    intro u hu0 hun
    omega

include hsw hF hP hFP in
/-- `restore_heap_after_item_decrease` restores the heap property over
the full range, given that the range was a heap before `item`'s value
was replaced by a smaller one. -/
theorem restore_dec_IsHeap {n : ℕ} (hnN : n ≤ SIZE_MAX) (h : ℕ) (f : ℕ → α)
    (hn : h < n) (o : α) (hpre : IsHeap less F P n (upd f h o))
    (hdec : less (f h) o = true) :
    IsHeap less F P n (restore_heap_after_item_decrease less F P n h f) := by
  unfold restore_heap_after_item_decrease
  obtain ⟨e1, e2, e3⟩ := sift_down_master less F P hsw hF hP hFP n hnN h f (f h) hn
    (fun u hu0 hun hus hur hpu => by
      have h2 := hpre u hu0 hun
      rw [upd_other _ _ _ _ hpu, upd_other _ _ _ _ hur] at h2
      exact h2)
  intro u hu0 hun
  by_cases hus : inSub F P h u
  · by_cases huh : u = h
    · -- the interface pair (parent of the sift root, the sift root)
      rw [huh] at hu0 hun ⊢
      have hph : get_parent_index F P h < h := parent_lt F P h hu0
      have hpns : ¬ inSub F P h (get_parent_index F P h) := by
        intro hc
        have := inSub_le hc
        omega
      rw [e2 (get_parent_index F P h) (fun hc => hpns hc.1)]
      have hparo : less (f (get_parent_index F P h)) o = false := by
        have h2 := hpre h hu0 hun
        rw [upd_other _ _ _ _ (show get_parent_index F P h ≠ h by omega), upd_same] at h2
        exact h2
      rcases e3 h (inSub_refl F P h) hun with ⟨w, hws, hwn, hweq⟩ | hx
      · rw [hweq]
        by_cases hwh : w = h
        · rw [hwh]
          by_contra hc
          have h3 : less (f (get_parent_index F P h)) (f h) = true := by
            cases h4 : less (f (get_parent_index F P h)) (f h)
            · exact absurd h4 hc
            · rfl
          have h5 := hsw.trans _ _ _ h3 hdec
          rw [hparo] at h5
          simp at h5
        · have hdomw : less o (f w) = false := by
            have h2 := heap_dom_of_inSub hsw hpre hws hwn
            rw [upd_same, upd_other _ _ _ _ hwh] at h2
            exact h2
          exact hsw.negtrans _ _ _ hparo hdomw
      · rw [hx]
        by_contra hc
        have h3 : less (f (get_parent_index F P h)) (f h) = true := by
          cases h4 : less (f (get_parent_index F P h)) (f h)
          · exact absurd h4 hc
          · rfl
        have h5 := hsw.trans _ _ _ h3 hdec
        rw [hparo] at h5
        simp at h5
    · exact e1 u hu0 hun hus huh
  · have hpus : ¬ inSub F P h (get_parent_index F P u) := by
      intro hc
      exact hus (inSub_child hc rfl)
    have huh : u ≠ h := by
      intro he
      rw [he] at hus
      exact hus (inSub_refl F P h)
    have hpuh : get_parent_index F P u ≠ h := by
      intro he
      rw [he] at hpus
      exact hpus (inSub_refl F P h)
    rw [e2 u (fun hc => hus hc.1), e2 (get_parent_index F P u) (fun hc => hpus hc.1)]
    have h2 := hpre u hu0 hun
    rw [upd_other _ _ _ _ hpuh, upd_other _ _ _ _ huh] at h2
    exact h2

include hsw hF hP hFP in
/-- Weak-decrease variant: `restore_heap_after_item_decrease` restores
the heap property when `item`'s old value `o` is not less than the new
one (the value did not increase). -/
theorem restore_dec_IsHeap_weak {n : ℕ} (hnN : n ≤ SIZE_MAX) (h : ℕ) (f : ℕ → α)
    (hn : h < n) (o : α) (hpre : IsHeap less F P n (upd f h o))
    (hdec : less o (f h) = false) :
    IsHeap less F P n (restore_heap_after_item_decrease less F P n h f) := by
  unfold restore_heap_after_item_decrease
  obtain ⟨e1, e2, e3⟩ := sift_down_master less F P hsw hF hP hFP n hnN h f (f h) hn
    (fun u hu0 hun hus hur hpu => by
      have h2 := hpre u hu0 hun
      rw [upd_other _ _ _ _ hpu, upd_other _ _ _ _ hur] at h2
      exact h2)
  intro u hu0 hun
  by_cases hus : inSub F P h u
  · by_cases huh : u = h
    · rw [huh] at hu0 hun ⊢
      have hph : get_parent_index F P h < h := parent_lt F P h hu0
      have hpns : ¬ inSub F P h (get_parent_index F P h) := by
        intro hc
        have := inSub_le hc
        omega
      rw [e2 (get_parent_index F P h) (fun hc => hpns hc.1)]
      have hparo : less (f (get_parent_index F P h)) o = false := by
        have h2 := hpre h hu0 hun
        rw [upd_other _ _ _ _ (show get_parent_index F P h ≠ h by omega), upd_same] at h2
        exact h2
      rcases e3 h (inSub_refl F P h) hun with ⟨w, hws, hwn, hweq⟩ | hx
      · rw [hweq]
        by_cases hwh : w = h
        · rw [hwh]
          exact hsw.negtrans _ _ _ hparo hdec
        · have hdomw : less o (f w) = false := by
            have h2 := heap_dom_of_inSub hsw hpre hws hwn
            rw [upd_same, upd_other _ _ _ _ hwh] at h2
            exact h2
          exact hsw.negtrans _ _ _ hparo hdomw
      · rw [hx]
        exact hsw.negtrans _ _ _ hparo hdec
    · exact e1 u hu0 hun hus huh
  · have hpus : ¬ inSub F P h (get_parent_index F P u) := by
      intro hc
      exact hus (inSub_child hc rfl)
    have huh : u ≠ h := by
      intro he
      rw [he] at hus
      exact hus (inSub_refl F P h)
    have hpuh : get_parent_index F P u ≠ h := by
      intro he
      rw [he] at hpus
      exact hpus (inSub_refl F P h)
    rw [e2 u (fun hc => hus hc.1), e2 (get_parent_index F P u) (fun hc => hpus hc.1)]
    have h2 := hpre u hu0 hun
    rw [upd_other _ _ _ _ hpuh, upd_other _ _ _ _ huh] at h2
    exact h2

include hsw hF hP hFP in
/-- `_pop_heap` on a heap of size `n > 1`: the shrunk range is a heap,
the last slot receives the old root, and nothing above `n-1` moves. -/
theorem pop_core {n : ℕ} (hnN : n ≤ SIZE_MAX) (f : ℕ → α) (h1 : 1 < n)
    (hheap : IsHeap less F P n f) :
    IsHeap less F P (n - 1) (_pop_heap less F P n f) ∧
    _pop_heap less F P n f (n - 1) = f 0 ∧
    (∀ u, n - 1 < u → _pop_heap less F P n f u = f u) := by
  have hpop : _pop_heap less F P n f =
      _sift_down less F P (n - 1) 0 (f (n - 1)) (upd f (n - 1) (f 0)) := rfl
  rw [hpop]
  obtain ⟨e1, e2, e3⟩ := sift_down_master less F P hsw hF hP hFP (n - 1) (by omega) 0
    (upd f (n - 1) (f 0)) (f (n - 1)) (by omega)
    (fun u hu0 hun hus hur hpu => by
      have hplt : get_parent_index F P u < u := parent_lt F P u hu0
      rw [upd_other _ _ _ _ (show u ≠ n - 1 by omega),
        upd_other _ _ _ _ (show get_parent_index F P u ≠ n - 1 by omega)]
      exact hheap u hu0 (by omega))
  refine ⟨?_, ?_, ?_⟩
  · intro u hu0 hun
    exact e1 u hu0 hun (inSub_zero F P u) (by omega)
  · rw [e2 (n - 1) (fun hc => absurd hc.2 (by omega)), upd_same]
  · intro u hu
    rw [e2 u (fun hc => absurd hc.2 (by omega)),
      upd_other _ _ _ _ (show u ≠ n - 1 by omega)]

include hsw hF hP hFP in
/-- `pop_heap` on a heap: heap property on the shrunk range, the old
maximum lands in the last slot. -/
theorem pop_heap_correct {n : ℕ} (hnN : n ≤ SIZE_MAX) (f : ℕ → α)
    (hheap : IsHeap less F P n f) :
    IsHeap less F P (n - 1) (pop_heap less F P n f) ∧
    (1 < n → pop_heap less F P n f (n - 1) = f 0 ∧
      ∀ u, u < n → less (f 0) (f u) = false) := by
  unfold pop_heap
  by_cases h1 : 1 < n
  · rw [if_pos h1]
    obtain ⟨hh, hl, _⟩ := pop_core hsw hF hP hFP hnN f h1 hheap
    exact ⟨hh, fun _ => ⟨hl, heap_root_max hsw hheap⟩⟩
  · rw [if_neg h1]
    exact ⟨fun u hu0 hun => by omega, fun h2 => absurd h2 h1⟩

include hsw hF hP hFP in
/-- `remove_from_heap` on a heap: the shrunk range is a heap and the
removed value is relocated to the last slot. -/
theorem remove_correct {n : ℕ} (hnN : n ≤ SIZE_MAX) (idx : ℕ) (f : ℕ → α)
    (hidx : idx < n) (hheap : IsHeap less F P n f) :
    IsHeap less F P (n - 1) (remove_from_heap less F P n idx f) ∧
    (idx < n - 1 → remove_from_heap less F P n idx f (n - 1) = f idx) := by
  unfold remove_from_heap
  simp only []
  by_cases h1 : idx < n - 1
  · rw [if_pos h1]
    have hup : upd f (n - 1) (f idx) (n - 1) = f idx := upd_same _ _ _
    rw [hup]
    by_cases h2 : less (f (n - 1)) (f idx) = true
    · rw [if_pos h2]
      obtain ⟨e1, e2, e3⟩ := sift_down_master less F P hsw hF hP hFP (n - 1) (by omega)
        idx (upd f (n - 1) (f idx)) (f (n - 1)) h1
        (fun u hu0 hun hus hur hpu => by
          have hplt : get_parent_index F P u < u := parent_lt F P u hu0
          rw [upd_other _ _ _ _ (show u ≠ n - 1 by omega),
            upd_other _ _ _ _ (show get_parent_index F P u ≠ n - 1 by omega)]
          exact hheap u hu0 (by omega))
      constructor
      · intro u hu0 hun
        by_cases hus : inSub F P idx u
        · by_cases huh : u = idx
          · -- interface pair
            rw [huh] at hu0 hun ⊢
            have hph : get_parent_index F P idx < idx := parent_lt F P idx hu0
            have hpns : ¬ inSub F P idx (get_parent_index F P idx) := by
              intro hc
              have := inSub_le hc
              omega
            rw [e2 (get_parent_index F P idx) (fun hc => hpns hc.1),
              upd_other _ _ _ _ (show get_parent_index F P idx ≠ n - 1 by omega)]
            have hpr : less (f (get_parent_index F P idx)) (f idx) = false :=
              hheap idx hu0 (by omega)
            rcases e3 idx (inSub_refl F P idx) hun with ⟨w, hws, hwn, hweq⟩ | hx
            · rw [hweq, upd_other _ _ _ _ (show w ≠ n - 1 by omega)]
              have hdomw : less (f idx) (f w) = false :=
                heap_dom_of_inSub hsw hheap hws (by omega)
              exact hsw.negtrans _ _ _ hpr hdomw
            · rw [hx]
              by_contra hc
              have h3 : less (f (get_parent_index F P idx)) (f (n - 1)) = true := by
                cases h4 : less (f (get_parent_index F P idx)) (f (n - 1))
                · exact absurd h4 hc
                · rfl
              have h5 := hsw.trans _ _ _ h3 h2
              rw [hpr] at h5
              simp at h5
          · exact e1 u hu0 hun hus huh
        · have hpus : ¬ inSub F P idx (get_parent_index F P u) := by
            intro hc
            exact hus (inSub_child hc rfl)
          rw [e2 u (fun hc => hus hc.1),
            e2 (get_parent_index F P u) (fun hc => hpus hc.1),
            upd_other _ _ _ _ (show u ≠ n - 1 by omega)]
          have hplt : get_parent_index F P u < u := parent_lt F P u hu0
          rw [upd_other _ _ _ _ (show get_parent_index F P u ≠ n - 1 by omega)]
          exact hheap u hu0 (by omega)
      · intro _
        rw [e2 (n - 1) (fun hc => absurd hc.2 (by omega)), upd_same]
    · have h2f : less (f (n - 1)) (f idx) = false := by
        cases h3 : less (f (n - 1)) (f idx)
        · rfl
        · exact absurd h3 h2
      rw [if_neg (by simp [h2f])]
      obtain ⟨c1, c2, c3⟩ := sift_up_master less F P hsw (n - 1) 0 idx
        (upd f (n - 1) (f idx)) (f (n - 1)) (inSub_zero F P idx) h1
        (fun u hu0 hun _ _ hune hpne => by
          have hplt : get_parent_index F P u < u := parent_lt F P u hu0
          rw [upd_other _ _ _ _ (show u ≠ n - 1 by omega),
            upd_other _ _ _ _ (show get_parent_index F P u ≠ n - 1 by omega)]
          exact hheap u hu0 (by omega))
        (fun u hu0 hun hpu => by
          rw [upd_other _ _ _ _ (show u ≠ n - 1 by omega)]
          have hchild : less (f idx) (f u) = false := by
            have h4 := hheap u hu0 (by omega)
            rw [hpu] at h4
            exact h4
          exact hsw.negtrans _ _ _ h2f hchild)
        (fun u hu0 hun hpu hner => by
          have hplt : get_parent_index F P idx < idx := by
            refine parent_lt F P idx ?_
            rcases Nat.eq_zero_or_pos idx with h0 | hpos
            · exfalso
              rw [h0] at hpu
              have := parent_lt F P u hu0
              omega
            · exact hpos
          rw [upd_other _ _ _ _ (show u ≠ n - 1 by omega),
            upd_other _ _ _ _ (show get_parent_index F P idx ≠ n - 1 by omega)]
          have hp1 : less (f (get_parent_index F P idx)) (f idx) = false := by
            refine hheap idx ?_ (by omega)
            rcases Nat.eq_zero_or_pos idx with h0 | hpos
            · exfalso
              rw [h0] at hpu
              have := parent_lt F P u hu0
              omega
            · exact hpos
          have hp2 : less (f idx) (f u) = false := by
            have h4 := hheap u hu0 (by omega)
            rw [hpu] at h4
            exact h4
          exact hsw.negtrans _ _ _ hp1 hp2)
      constructor
      · intro u hu0 hun
        exact c1 u hu0 hun (inSub_zero F P u) (by omega)
      · intro _
        rw [c2 (n - 1) (fun hc => absurd hc.2 (by omega)), upd_same]
  · rw [if_neg h1]
    exact ⟨fun u hu0 hun => hheap u hu0 (by omega), fun hc => absurd hc h1⟩

end Ops

/-! ### Multiset (permutation) bookkeeping -/

/-- The contents of the range `[0, n)` of a sequence, as a list. -/
def asList {α : Type} (n : ℕ) (f : ℕ → α) : List α :=
  (List.range n).map f

/-- The contents of the range `[0, n)` of a sequence, as a multiset. -/
def msetR {α : Type} (n : ℕ) (f : ℕ → α) : Multiset α :=
  Multiset.map f (Multiset.range n)

theorem msetR_congr {α : Type} {n : ℕ} {f g : ℕ → α}
    (h : ∀ u, u < n → f u = g u) : msetR n f = msetR n g := by
  unfold msetR
  refine Multiset.map_congr rfl ?_
  intro u hu
  exact h u (Multiset.mem_range.mp hu)

theorem msetR_succ {α : Type} (n : ℕ) (f : ℕ → α) :
    msetR (n + 1) f = f n ::ₘ msetR n f := by
  unfold msetR
  rw [Multiset.range_succ, Multiset.map_cons]

theorem mset_upd {α : Type} {n i : ℕ} (hi : i < n) (f : ℕ → α) (x : α) :
    msetR n (upd f i x) = x ::ₘ Multiset.map f ((Multiset.range n).erase i) := by
  unfold msetR
  have h1 : Multiset.range n = i ::ₘ (Multiset.range n).erase i :=
    (Multiset.cons_erase (Multiset.mem_range.mpr hi)).symm
  conv_lhs => rw [h1]
  rw [Multiset.map_cons, upd_same]
  congr 1
  refine Multiset.map_congr rfl ?_
  intro a ha
  have h2 : a ≠ i := by
    intro he
    rw [he] at ha
    exact (Multiset.Nodup.not_mem_erase (Multiset.nodup_range n)) ha
  exact upd_other _ _ _ _ h2

theorem mset_id {α : Type} {n i : ℕ} (hi : i < n) (f : ℕ → α) :
    msetR n f = f i ::ₘ Multiset.map f ((Multiset.range n).erase i) := by
  unfold msetR
  have h1 : Multiset.range n = i ::ₘ (Multiset.range n).erase i :=
    (Multiset.cons_erase (Multiset.mem_range.mpr hi)).symm
  conv_lhs => rw [h1]
  rw [Multiset.map_cons]

/-- Updating a slot with its own value is the identity. -/
theorem upd_self {α : Type} (f : ℕ → α) (i : ℕ) : upd f i (f i) = f := by
  funext j
  by_cases h : j = i
  · rw [h, upd_same]
  · exact upd_other _ _ _ _ h

/-- The key exchange law: moving `f p` into the hole and then storing
`x` at `p` has the same contents as storing `x` at the hole. -/
theorem mset_swap_key {α : Type} {n hole p : ℕ} (f : ℕ → α) (x : α)
    (hh : hole < n) (hp : p < n) (hne : p ≠ hole) :
    msetR n (upd (upd f hole (f p)) p x) = msetR n (upd f hole x) := by
  rw [mset_upd hp, mset_upd hh]
  have h1 : ((Multiset.range n).erase p).erase hole =
      ((Multiset.range n).erase hole).erase p := Multiset.erase_comm _ _ _
  have hmemh : hole ∈ (Multiset.range n).erase p := by
    rw [Multiset.Nodup.mem_erase_iff (Multiset.nodup_range n)]
    exact ⟨fun he => hne he.symm, Multiset.mem_range.mpr hh⟩
  have hmemp : p ∈ (Multiset.range n).erase hole := by
    rw [Multiset.Nodup.mem_erase_iff (Multiset.nodup_range n)]
    exact ⟨hne, Multiset.mem_range.mpr hp⟩
  have h2 : (Multiset.range n).erase p = hole ::ₘ ((Multiset.range n).erase p).erase hole :=
    (Multiset.cons_erase hmemh).symm
  have h3 : (Multiset.range n).erase hole = p ::ₘ ((Multiset.range n).erase hole).erase p :=
    (Multiset.cons_erase hmemp).symm
  rw [h2, h3, Multiset.map_cons, Multiset.map_cons]
  have h4 : upd f hole (f p) hole = f p := upd_same _ _ _
  rw [h4, h1]
  congr 1
  congr 1
  refine Multiset.map_congr rfl ?_
  intro a ha
  have hnd : Multiset.Nodup ((Multiset.range n).erase hole) :=
    Multiset.Nodup.erase _ (Multiset.nodup_range n)
  have ha2 : a ∈ (Multiset.range n).erase hole := Multiset.erase_subset _ _ ha
  have hah : a ≠ hole := by
    rw [Multiset.Nodup.mem_erase_iff (Multiset.nodup_range n)] at ha2
    exact ha2.1
  exact upd_other _ _ _ _ hah

/-- `_sift_up` permutes: its result has the same contents as directly
storing the item at the hole; positions at or above `n` never move. -/
theorem sift_up_mset {α : Type} (less : α → α → Bool) (F P r0 : ℕ) (n : ℕ) :
    ∀ hole, ∀ (f : ℕ → α) (x : α), hole < n →
    msetR n (_sift_up less F P r0 hole x f) = msetR n (upd f hole x) ∧
    (∀ u, n ≤ u → _sift_up less F P r0 hole x f u = f u) := by
  intro hole
  induction hole using Nat.strong_induction_on with
  | _ hole IH =>
    intro f x hh
    by_cases hrh : r0 < hole
    · by_cases hless : less (f (get_parent_index F P hole)) x = true
      · have heq : _sift_up less F P r0 hole x f =
            _sift_up less F P r0 (get_parent_index F P hole) x
              (upd f hole (f (get_parent_index F P hole))) := by
          rw [_sift_up]
          simp only [dif_pos hrh, hless, if_true]
        have hplt : get_parent_index F P hole < hole := parent_lt F P hole (by omega)
        obtain ⟨ih1, ih2⟩ := IH (get_parent_index F P hole) hplt
          (upd f hole (f (get_parent_index F P hole))) x (by omega)
        constructor
        · rw [heq, ih1]
          exact mset_swap_key f x hh (by omega) (by omega)
        · intro u hu
          rw [heq, ih2 u hu, upd_other _ _ _ _ (show u ≠ hole by omega)]
      · have heq : _sift_up less F P r0 hole x f = upd f hole x := by
          rw [_sift_up]
          simp only [dif_pos hrh]
          rw [if_neg (by simp [hless])]
        rw [heq]
        exact ⟨rfl, fun u hu => upd_other _ _ _ _ (by omega)⟩
    · have heq : _sift_up less F P r0 hole x f = upd f hole x := by
        rw [_sift_up]
        simp only [dif_neg hrh]
      rw [heq]
      exact ⟨rfl, fun u hu => upd_other _ _ _ _ (by omega)⟩

/-- Range bound for the max-child scan, independent of the comparer. -/
theorem mumc_go_lt {α : Type} (less : α → α → Bool) (f : ℕ → α) (c : ℕ) :
    ∀ steps i j, j < i → _mumc_go less f c steps i j < i + steps := by
  intro steps
  induction steps with
  | zero => intro i j hji; unfold _mumc_go; omega
  | succ steps ih =>
    intro i j hji
    have hgo : _mumc_go less f c (steps + 1) i j =
        _mumc_go less f c steps (i + 1) (if less (f (c + i)) (f (c + j)) then j else i) := rfl
    rw [hgo]
    have h1 := ih (i + 1) (if less (f (c + i)) (f (c + j)) then j else i)
      (by split <;> omega)
    omega

theorem mumc_j_lt {α : Type} (less : α → α → Bool) (f : ℕ → α) (c count : ℕ)
    (hc : 1 ≤ count) : _mumc_j less f c count < count := by
  have h1 := mumc_go_lt less f c (count - 1) 1 0 (by omega)
  unfold _mumc_j
  omega

/-- The `_sift_down` descent loop permutes: storing any value at the
final hole has the same contents as storing it at the initial hole;
positions at or above `n` never move. -/
theorem sdLoop_mset {α : Type} (less : α → α → Bool) {F P : ℕ}
    (hF : 2 ≤ F) (hP : 1 ≤ P) (hFP : F * P ≤ SIZE_MAX)
    {n : ℕ} (hnN : n ≤ SIZE_MAX) :
    ∀ fuel : ℕ, ∀ (f : ℕ → α) (hole : ℕ), hole < n → n ≤ fuel + hole →
    (_sdLoop less F P n ((n - 1) % F) fuel f hole).2 < n ∧
    (∀ x, msetR n (upd (_sdLoop less F P n ((n - 1) % F) fuel f hole).1
        (_sdLoop less F P n ((n - 1) % F) fuel f hole).2 x) =
      msetR n (upd f hole x)) ∧
    (∀ u, n ≤ u → (_sdLoop less F P n ((n - 1) % F) fuel f hole).1 u = f u) := by
  intro fuel
  induction fuel with
  | zero =>
    intro f hole hh hfuel
    omega
  | succ fuel IH =>
    intro f hole hh hfuel
    have hn0 : 0 < n := by omega
    have hrF : (n - 1) % F < F := Nat.mod_lt _ (by omega)
    have hloop : _sdLoop less F P n ((n - 1) % F) (fuel + 1) f hole =
        (let c := get_child_index F P hole
         if n - (n - 1) % F ≤ c then
           if c < n then _move_up_max_child less f ((n - 1) % F) hole c else (f, hole)
         else
           let fm := _move_up_max_child less f F hole c
           _sdLoop less F P n ((n - 1) % F) fuel fm.1 fm.2) := rfl
    rw [hloop]
    simp only []
    set c := get_child_index F P hole with hc
    have hkey : c < n → c = childTrue F P hole ∧ c % F = 1 ∧ hole < c := by
      intro hcn
      have he : c = childTrue F P hole := chd_code_eq hF hP hnN hFP hole hh hcn
      exact ⟨he, by rw [he]; exact childTrue_mod hF hP hole,
        by rw [he]; exact childTrue_gt hF hP hole⟩
    by_cases hbnd : n - (n - 1) % F ≤ c
    · rw [if_pos hbnd]
      by_cases hcn : c < n
      · rw [if_pos hcn]
        obtain ⟨he, hmod1, hcgt⟩ := hkey hcn
        have halign : c = n - (n - 1) % F := chd_align hF n c hn0 hmod1 hbnd hcn
        have hj : _mumc_j less f c ((n - 1) % F) < (n - 1) % F :=
          mumc_j_lt less f c _ (by omega)
        have hmumc : _move_up_max_child less f ((n - 1) % F) hole c =
            (upd f hole (f (c + _mumc_j less f c ((n - 1) % F))),
              c + _mumc_j less f c ((n - 1) % F)) := rfl
        rw [hmumc]
        simp only []
        refine ⟨by omega, ?_, ?_⟩
        · intro x
          exact mset_swap_key f x hh (by omega) (by omega)
        · intro u hu
          exact upd_other _ _ _ _ (by omega)
      · rw [if_neg hcn]
        exact ⟨hh, fun x => rfl, fun u hu => rfl⟩
    · rw [if_neg hbnd]
      have hcn : c < n := by omega
      obtain ⟨he, hmod1, hcgt⟩ := hkey hcn
      have hfit : c + F ≤ n - (n - 1) % F :=
        chd_step_fits hF n c hn0 hmod1 (by omega)
      have hj : _mumc_j less f c F < F := mumc_j_lt less f c F (by omega)
      have hmumc : _move_up_max_child less f F hole c =
          (upd f hole (f (c + _mumc_j less f c F)), c + _mumc_j less f c F) := rfl
      rw [hmumc]
      simp only []
      obtain ⟨ih1, ih2, ih3⟩ := IH (upd f hole (f (c + _mumc_j less f c F)))
        (c + _mumc_j less f c F) (by omega) (by omega)
      refine ⟨ih1, ?_, ?_⟩
      · intro x
        rw [ih2 x]
        exact mset_swap_key f x hh (by omega) (by omega)
      · intro u hu
        rw [ih3 u hu]
        exact upd_other _ _ _ _ (by omega)

/-- `_sift_down` permutes: same contents as storing the item directly
at the hole; positions at or above `n` never move. -/
theorem sift_down_mset {α : Type} (less : α → α → Bool) {F P : ℕ}
    (hF : 2 ≤ F) (hP : 1 ≤ P) (hFP : F * P ≤ SIZE_MAX)
    {n : ℕ} (hnN : n ≤ SIZE_MAX) (hole : ℕ) (x : α) (f : ℕ → α)
    (hh : hole < n) :
    msetR n (_sift_down less F P n hole x f) = msetR n (upd f hole x) ∧
    (∀ u, n ≤ u → _sift_down less F P n hole x f u = f u) := by
  have hsd : _sift_down less F P n hole x f =
      _sift_up less F P hole (_sdLoop less F P n ((n - 1) % F) n f hole).2 x
        (_sdLoop less F P n ((n - 1) % F) n f hole).1 := rfl
  obtain ⟨d1, d2, d3⟩ := sdLoop_mset less hF hP hFP hnN n f hole hh (by omega)
  obtain ⟨s1, s2⟩ := sift_up_mset less F P hole n
    (_sdLoop less F P n ((n - 1) % F) n f hole).2
    (_sdLoop less F P n ((n - 1) % F) n f hole).1 x d1
  constructor
  · rw [hsd, s1, d2 x]
  · intro u hu
    rw [hsd, s2 u hu, d3 u hu]

/-- Contents agree on `[0, n)` when they agree on `[m, n)` positions
and as multisets on `[0, m)`. -/
theorem mset_extend {α : Type} {m n : ℕ} {f g : ℕ → α} (hmn : m ≤ n)
    (hout : ∀ u, m ≤ u → g u = f u) (hin : msetR m g = msetR m f) :
    msetR n g = msetR n f := by
  obtain ⟨d, hd⟩ : ∃ d, n = m + d := ⟨n - m, by omega⟩
  subst hd
  induction d with
  | zero => exact hin
  | succ d ih =>
    have h1 : m + (d + 1) = (m + d) + 1 := by omega
    rw [h1, msetR_succ, msetR_succ, ih (by omega), hout (m + d) (by omega)]

section OpsMset

variable {α : Type} (less : α → α → Bool) {F P : ℕ}
variable (hF : 2 ≤ F) (hP : 1 ≤ P) (hFP : F * P ≤ SIZE_MAX)

include hF hP hFP in
/-- `_pop_heap` permutes `[0, i)` and leaves `[i, ∞)` unchanged. -/
theorem pop_core_mset {i : ℕ} (hiN : i ≤ SIZE_MAX) (hi2 : 2 ≤ i) (f : ℕ → α) :
    msetR i (_pop_heap less F P i f) = msetR i f ∧
    (∀ u, i ≤ u → _pop_heap less F P i f u = f u) := by
  have hpop : _pop_heap less F P i f =
      _sift_down less F P (i - 1) 0 (f (i - 1)) (upd f (i - 1) (f 0)) := rfl
  obtain ⟨m1, m2⟩ := sift_down_mset less hF hP hFP (show i - 1 ≤ SIZE_MAX by omega)
    0 (f (i - 1)) (upd f (i - 1) (f 0)) (by omega)
  constructor
  · obtain ⟨j, hj⟩ : ∃ j, i = j + 1 := ⟨i - 1, by omega⟩
    subst hj
    simp only [Nat.add_sub_cancel] at hpop m1 m2
    rw [hpop, msetR_succ, msetR_succ, m2 j (le_refl _), upd_same, m1]
    have hcongr : msetR j (upd (upd f j (f 0)) 0 (f j)) =
        msetR j (upd f 0 (f j)) := by
      refine msetR_congr ?_
      intro u hu
      by_cases h0 : u = 0
      · rw [h0, upd_same, upd_same]
      · rw [upd_other _ _ _ _ h0, upd_other _ _ _ _ h0,
          upd_other _ _ _ _ (show u ≠ j by omega)]
    rw [hcongr, mset_upd (show 0 < j by omega), mset_id (show 0 < j by omega) f,
      Multiset.cons_swap]
  · intro u hu
    rw [hpop, m2 u (by omega), upd_other _ _ _ _ (show u ≠ i - 1 by omega)]

include hF hP hFP in
/-- `pop_heap` permutes its range. -/
theorem pop_heap_mset {n : ℕ} (hnN : n ≤ SIZE_MAX) (f : ℕ → α) :
    msetR n (pop_heap less F P n f) = msetR n f := by
  unfold pop_heap
  by_cases h1 : 1 < n
  · rw [if_pos h1]
    exact (pop_core_mset less hF hP hFP hnN (by omega) f).1
  · rw [if_neg h1]

include hF hP hFP in
/-- `make_heap` permutes its range. -/
theorem make_heap_mset {n : ℕ} (hnN : n ≤ SIZE_MAX) (f : ℕ → α) :
    msetR n (make_heap less F P n f) = msetR n f := by
  unfold make_heap
  by_cases h1 : 1 < n
  · rw [if_pos h1]
    have hloop : ∀ i, ∀ g : ℕ → α, i < n → msetR n (_mhLoop less F P n i g) = msetR n g := by
      intro i
      induction i with
      | zero =>
        intro g hin
        have he : _mhLoop less F P n 0 g = _sift_down less F P n 0 (g 0) g := rfl
        rw [he, (sift_down_mset less hF hP hFP hnN 0 (g 0) g (by omega)).1, upd_self]
      | succ i ih =>
        intro g hin
        have he : _mhLoop less F P n (i + 1) g =
            _mhLoop less F P n i (_sift_down less F P n (i + 1) (g (i + 1)) g) := rfl
        rw [he, ih _ (by omega),
          (sift_down_mset less hF hP hFP hnN (i + 1) (g (i + 1)) g hin).1, upd_self]
    refine hloop _ f ?_
    by_cases hp : P = 1
    · rw [if_pos hp]
      have := Nat.div_le_self (n - 2) F
      omega
    · rw [if_neg hp]
      omega
  · rw [if_neg h1]

theorem push_heap_mset {n : ℕ} (f : ℕ → α) :
    msetR n (push_heap less F P n f) = msetR n f := by
  unfold push_heap
  by_cases h1 : 1 < n
  · rw [if_pos h1,
      (sift_up_mset less F P 0 n (n - 1) f (f (n - 1)) (by omega)).1, upd_self]
  · rw [if_neg h1]

include hF hP hFP in
/-- `sort_heap` permutes its range. -/
theorem sort_heap_mset {n : ℕ} (hnN : n ≤ SIZE_MAX) (f : ℕ → α) :
    msetR n (sort_heap less F P n f) = msetR n f := by
  unfold sort_heap
  have hloop : ∀ i, ∀ g : ℕ → α, i ≤ n → msetR n (_shLoop less F P i g) = msetR n g := by
    intro i
    induction i using Nat.strong_induction_on with
    | _ i ih =>
      intro g hin
      match i with
      | 0 => rfl
      | 1 => rfl
      | (i + 2) =>
        have he : _shLoop less F P (i + 2) g =
            _shLoop less F P (i + 1) (_pop_heap less F P (i + 2) g) := rfl
        rw [he, ih (i + 1) (by omega) _ (by omega)]
        obtain ⟨p1, p2⟩ := pop_core_mset less hF hP hFP
          (show i + 2 ≤ SIZE_MAX by omega) (by omega) g
        exact mset_extend (show i + 2 ≤ n by omega) p2 p1
  exact hloop n f (le_refl n)

theorem restore_inc_mset (h : ℕ) (f : ℕ → α) :
    msetR (h + 1) (restore_heap_after_item_increase less F P h f) = msetR (h + 1) f := by
  unfold restore_heap_after_item_increase
  by_cases h1 : 0 < h
  · rw [if_pos h1,
      (sift_up_mset less F P 0 (h + 1) h f (f h) (by omega)).1, upd_self]
  · rw [if_neg h1]

include hF hP hFP in
theorem restore_dec_mset {n : ℕ} (hnN : n ≤ SIZE_MAX) (h : ℕ) (hn : h < n) (f : ℕ → α) :
    msetR n (restore_heap_after_item_decrease less F P n h f) = msetR n f := by
  unfold restore_heap_after_item_decrease
  rw [(sift_down_mset less hF hP hFP hnN h (f h) f hn).1, upd_self]

include hF hP hFP in
/-- `remove_from_heap` permutes its range. -/
theorem remove_mset {n : ℕ} (hnN : n ≤ SIZE_MAX) (idx : ℕ) (f : ℕ → α) :
    msetR n (remove_from_heap less F P n idx f) = msetR n f := by
  unfold remove_from_heap
  simp only []
  by_cases h1 : idx < n - 1
  · rw [if_pos h1]
    have hsplit : n = (n - 1) + 1 := by omega
    have hup : upd f (n - 1) (f idx) (n - 1) = f idx := upd_same _ _ _
    have hcongr : ∀ z : α, msetR (n - 1) (upd (upd f (n - 1) (f idx)) idx z) =
        msetR (n - 1) (upd f idx z) := by
      intro z
      refine msetR_congr ?_
      intro u hu
      by_cases h0 : u = idx
      · rw [h0, upd_same, upd_same]
      · rw [upd_other _ _ _ _ h0, upd_other _ _ _ _ h0,
          upd_other _ _ _ _ (show u ≠ n - 1 by omega)]
    have hfin : ∀ g : ℕ → α, (∀ u, n - 1 ≤ u → g u = upd f (n - 1) (f idx) u) →
        msetR (n - 1) g = msetR (n - 1) (upd f idx (f (n - 1))) →
        msetR n g = msetR n f := by
      intro g hout hin
      rw [hsplit, msetR_succ, msetR_succ, hin,
        hout (n - 1) (le_refl _), hup,
        mset_upd (show idx < n - 1 from h1), mset_id (show idx < n - 1 from h1) f,
        Multiset.cons_swap]
    rw [hup]
    by_cases h2 : less (f (n - 1)) (f idx) = true
    · rw [if_pos h2]
      obtain ⟨m1, m2⟩ := sift_down_mset less hF hP hFP
        (show n - 1 ≤ SIZE_MAX by omega) idx (f (n - 1)) (upd f (n - 1) (f idx)) h1
      refine hfin _ m2 ?_
      rw [m1, hcongr]
    · rw [if_neg h2]
      obtain ⟨m1, m2⟩ := sift_up_mset less F P 0 (n - 1) idx
        (upd f (n - 1) (f idx)) (f (n - 1)) h1
      refine hfin _ m2 ?_
      rw [m1, hcongr]
  · rw [if_neg h1]

end OpsMset

/-! ### Sortedness of `sort_heap` -/

theorem bool_not_true {b : Bool} (h : ¬ b = true) : b = false := by
  cases he : b
  · rfl
  · exact absurd he h

theorem mem_msetR {α : Type} {n u : ℕ} (f : ℕ → α) (hu : u < n) :
    f u ∈ msetR n f := by
  unfold msetR
  exact Multiset.mem_map.mpr ⟨u, Multiset.mem_range.mpr hu, rfl⟩

theorem msetR_mem {α : Type} {n : ℕ} {f : ℕ → α} {x : α}
    (h : x ∈ msetR n f) : ∃ w, w < n ∧ f w = x := by
  unfold msetR at h
  obtain ⟨w, hw, he⟩ := Multiset.mem_map.mp h
  exact ⟨w, Multiset.mem_range.mp hw, he⟩

section SortCorrect

variable {α : Type} {less : α → α → Bool} {F P : ℕ}
variable (hsw : IsSWO less) (hF : 2 ≤ F) (hP : 1 ≤ P) (hFP : F * P ≤ SIZE_MAX)

include hsw hF hP hFP in
/-- The `sort_heap` loop invariant: a heap prefix dominated by an already
sorted suffix yields a fully sorted range. -/
theorem shLoop_sorted {n : ℕ} (hnN : n ≤ SIZE_MAX) :
    ∀ i, ∀ g : ℕ → α, i ≤ n →
    IsHeap less F P i g →
    (∀ u v, u < i → i ≤ v → v < n → less (g v) (g u) = false) →
    (∀ v, i ≤ v → v + 1 < n → less (g (v + 1)) (g v) = false) →
    ∀ v, v + 1 < n →
      less (_shLoop less F P i g (v + 1)) (_shLoop less F P i g v) = false := by
  intro i
  induction i using Nat.strong_induction_on with
  | _ i ih =>
    intro g hin hheap hdom hsuf
    match i with
    | 0 =>
      intro v hv
      exact hsuf v (by omega) hv
    | 1 =>
      intro v hv
      match v with
      | 0 => exact hdom 0 1 (by omega) (by omega) hv
      | (v + 1) => exact hsuf (v + 1) (by omega) hv
    | (i + 2) =>
      have he : _shLoop less F P (i + 2) g =
          _shLoop less F P (i + 1) (_pop_heap less F P (i + 2) g) := rfl
      rw [he]
      obtain ⟨q1, q2, q3⟩ := pop_core hsw hF hP hFP
        (show i + 2 ≤ SIZE_MAX by omega) g (by omega) hheap
      have h21 : i + 2 - 1 = i + 1 := rfl
      rw [h21] at q1 q2 q3
      obtain ⟨m1, _⟩ := pop_core_mset less hF hP hFP
        (show i + 2 ≤ SIZE_MAX by omega) (by omega) g
      have hprev : ∀ u, u < i + 1 →
          ∃ w, w < i + 2 ∧ g w = _pop_heap less F P (i + 2) g u := by
        intro u hu
        refine msetR_mem ?_
        rw [← m1]
        exact mem_msetR _ (by omega)
      refine ih (i + 1) (by omega) _ (by omega) q1 ?_ ?_
      · intro u v hu hv hvn
        obtain ⟨w, hw, hgw⟩ := hprev u hu
        rw [← hgw]
        by_cases hvi : v = i + 1
        · rw [hvi, q2]
          exact heap_root_max hsw hheap w hw
        · rw [q3 v (by omega)]
          exact hdom w v hw (by omega) hvn
      · intro v hv hvn
        by_cases hvi : v = i + 1
        · rw [hvi, q2, q3 (i + 2) (by omega)]
          exact hdom 0 (i + 2) (by omega) (by omega) (by omega)
        · rw [q3 v (by omega), q3 (v + 1) (by omega)]
          exact hsuf v (by omega) hvn

include hsw hF hP hFP in
/-- `sort_heap` on a heap sorts the range ascending (adjacent form). -/
theorem sort_heap_sorted {n : ℕ} (hnN : n ≤ SIZE_MAX) (f : ℕ → α)
    (hheap : IsHeap less F P n f) :
    ∀ v, v + 1 < n →
      less (sort_heap less F P n f (v + 1)) (sort_heap less F P n f v) = false :=
  shLoop_sorted hsw hF hP hFP hnN n f (le_refl n) hheap
    (fun _ v _ hv hvn => absurd hvn (by omega))
    (fun v hv hvn => absurd hvn (by omega))

end SortCorrect

/-! ### Reference sort (insertion sort) and sortedness of lists -/

/-- Ascending under `less`: no later element is less than an earlier one. -/
def SortedAsc {α : Type} (less : α → α → Bool) (l : List α) : Prop :=
  List.Pairwise (fun a b => less b a = false) l

/-- Insert `x` into a list assumed ascending under `less`. -/
def insertSorted {α : Type} (less : α → α → Bool) (x : α) : List α → List α
  | [] => [x]
  | y :: ys => if less x y then x :: y :: ys else y :: insertSorted less x ys

/-- Reference full sort: insertion sort under `less`. -/
def insertionSort {α : Type} (less : α → α → Bool) : List α → List α
  | [] => []
  | x :: xs => insertSorted less x (insertionSort less xs)

theorem insertSorted_perm {α : Type} (less : α → α → Bool) (x : α) :
    ∀ l : List α, List.Perm (insertSorted less x l) (x :: l)
  | [] => List.Perm.refl _
  | y :: ys => by
    unfold insertSorted
    by_cases h : less x y = true
    · rw [if_pos h]
    · rw [if_neg h]
      exact ((insertSorted_perm less x ys).cons y).trans (List.Perm.swap x y ys)

theorem insertionSort_perm {α : Type} (less : α → α → Bool) :
    ∀ l : List α, List.Perm (insertionSort less l) l
  | [] => List.Perm.refl _
  | x :: xs =>
    (insertSorted_perm less x (insertionSort less xs)).trans
      ((insertionSort_perm less xs).cons x)

theorem insertSorted_sorted {α : Type} {less : α → α → Bool} (hsw : IsSWO less)
    (x : α) : ∀ l : List α, SortedAsc less l → SortedAsc less (insertSorted less x l)
  | [], _ => List.pairwise_singleton _ _
  | y :: ys, h => by
    unfold insertSorted
    unfold SortedAsc at h ⊢
    obtain ⟨hy, hys⟩ := List.pairwise_cons.mp h
    by_cases hxy : less x y = true
    · rw [if_pos hxy]
      refine List.pairwise_cons.mpr ⟨?_, h⟩
      intro b hb
      rcases List.mem_cons.mp hb with h1 | h1
      · rw [h1]
        exact hsw.asymm hxy
      · by_contra hc
        have hbx : less b x = true := by
          cases he : less b x
          · exact absurd he hc
          · rfl
        have h2 : less b y = true := hsw.trans _ _ _ hbx hxy
        rw [hy b h1] at h2
        exact Bool.false_ne_true h2
    · rw [if_neg hxy]
      refine List.pairwise_cons.mpr ⟨?_, insertSorted_sorted hsw x ys hys⟩
      intro b hb
      have hb' : b ∈ x :: ys := (insertSorted_perm less x ys).mem_iff.mp hb
      rcases List.mem_cons.mp hb' with h1 | h1
      · rw [h1]
        exact bool_not_true hxy
      · exact hy b h1

theorem insertionSort_sorted {α : Type} {less : α → α → Bool} (hsw : IsSWO less) :
    ∀ l : List α, SortedAsc less (insertionSort less l)
  | [] => List.Pairwise.nil
  | x :: xs => insertSorted_sorted hsw x _ (insertionSort_sorted hsw xs)

/-! ### Two sorted permutations of each other are pointwise equivalent -/

theorem countP_le_of_tail_false {α : Type} (p : α → Bool) :
    ∀ (l : List α) (i : ℕ),
    (∀ j (hj : j < l.length), i ≤ j → p (l.get ⟨j, hj⟩) = false) →
    l.countP p ≤ i := by
  intro l
  induction l with
  | nil =>
    intro i _
    simp [List.countP_nil]
  | cons a l ihl =>
    intro i h
    match i with
    | 0 =>
      have ha : p a = false := h 0 (by simp) (by omega)
      have hl : l.countP p ≤ 0 := ihl 0 (fun j hj hij =>
        h (j + 1) (by simpa using Nat.succ_lt_succ hj) (by omega))
      rw [List.countP_cons, ha]
      simpa using hl
    | (i + 1) =>
      have hl : l.countP p ≤ i := ihl i (fun j hj hij =>
        h (j + 1) (by simpa using Nat.succ_lt_succ hj) (by omega))
      rw [List.countP_cons]
      by_cases hpa : p a = true
      · simp [hpa]
        omega
      · simp [bool_not_true hpa]
        omega

theorem le_countP_of_head_true {α : Type} (p : α → Bool) :
    ∀ (l : List α) (i : ℕ), i ≤ l.length →
    (∀ j (hj : j < l.length), j < i → p (l.get ⟨j, hj⟩) = true) →
    i ≤ l.countP p := by
  intro l
  induction l with
  | nil =>
    intro i hi _
    simp at hi
    omega
  | cons a l ihl =>
    intro i hil h
    match i with
    | 0 => omega
    | (i + 1) =>
      have ha : p a = true := h 0 (by simp) (by omega)
      have hl : i ≤ l.countP p := ihl i (by simpa using hil) (fun j hj hij =>
        h (j + 1) (by simpa using Nat.succ_lt_succ hj) (by omega))
      rw [List.countP_cons]
      simp [ha]
      omega

theorem sorted_pairwise_get {α : Type} {less : α → α → Bool} {l : List α}
    (h : SortedAsc less l) : ∀ (i j : Fin l.length), i < j →
      less (l.get j) (l.get i) = false := by
  unfold SortedAsc at h
  exact List.pairwise_iff_get.mp h

theorem sorted_perm_pointwise_le {α : Type} {less : α → α → Bool} (hsw : IsSWO less)
    {l1 l2 : List α} (hperm : List.Perm l1 l2)
    (h1 : SortedAsc less l1) (h2 : SortedAsc less l2)
    (i : ℕ) (hi1 : i < l1.length) (hi2 : i < l2.length) :
    less (l1.get ⟨i, hi1⟩) (l2.get ⟨i, hi2⟩) = false := by
  by_contra hc
  have hlt : less (l1.get ⟨i, hi1⟩) (l2.get ⟨i, hi2⟩) = true := by
    cases he : less (l1.get ⟨i, hi1⟩) (l2.get ⟨i, hi2⟩)
    · exact absurd he hc
    · rfl
  have hcount2 : l2.countP (fun e => less e (l2.get ⟨i, hi2⟩)) ≤ i := by
    refine countP_le_of_tail_false _ l2 i ?_
    intro j hj hij
    by_cases hji : j = i
    · subst hji
      exact hsw.irrefl _
    · exact sorted_pairwise_get h2 ⟨i, hi2⟩ ⟨j, hj⟩ (Fin.mk_lt_mk.mpr (by omega))
  have hcount1 : i + 1 ≤ l1.countP (fun e => less e (l2.get ⟨i, hi2⟩)) := by
    refine le_countP_of_head_true _ l1 (i + 1) (by omega) ?_
    intro j hj hij
    by_cases hji : j = i
    · subst hji
      exact hlt
    · have hjx : less (l1.get ⟨i, hi1⟩) (l1.get ⟨j, hj⟩) = false :=
        sorted_pairwise_get h1 ⟨j, hj⟩ ⟨i, hi1⟩ (Fin.mk_lt_mk.mpr (by omega))
      by_contra hc2
      have hjy : less (l1.get ⟨j, hj⟩) (l2.get ⟨i, hi2⟩) = false := bool_not_true hc2
      have h3 := hsw.negtrans _ _ _ hjx hjy
      rw [hlt] at h3
      simp at h3
  have heq := hperm.countP_eq (fun e => less e (l2.get ⟨i, hi2⟩))
  omega

theorem sorted_perm_pointwise {α : Type} {less : α → α → Bool} (hsw : IsSWO less)
    {l1 l2 : List α} (hperm : List.Perm l1 l2)
    (h1 : SortedAsc less l1) (h2 : SortedAsc less l2)
    (i : ℕ) (hi1 : i < l1.length) (hi2 : i < l2.length) :
    less (l1.get ⟨i, hi1⟩) (l2.get ⟨i, hi2⟩) = false ∧
    less (l2.get ⟨i, hi2⟩) (l1.get ⟨i, hi1⟩) = false :=
  ⟨sorted_perm_pointwise_le hsw hperm h1 h2 i hi1 hi2,
   sorted_perm_pointwise_le hsw hperm.symm h2 h1 i hi2 hi1⟩

/-! ### Lists of ranges -/

theorem asList_length {α : Type} (n : ℕ) (f : ℕ → α) : (asList n f).length = n := by
  unfold asList
  simp

theorem asList_get {α : Type} {n i : ℕ} (f : ℕ → α) (h : i < (asList n f).length) :
    (asList n f).get ⟨i, h⟩ = f i := by
  unfold asList at h ⊢
  simp

theorem msetR_coe {α : Type} (n : ℕ) (f : ℕ → α) :
    ((asList n f : List α) : Multiset α) = msetR n f := by
  unfold asList msetR
  rfl

theorem perm_of_msetR_eq {α : Type} {n m : ℕ} {f g : ℕ → α}
    (h : msetR n f = msetR m g) : List.Perm (asList n f) (asList m g) := by
  rw [← Multiset.coe_eq_coe, msetR_coe, msetR_coe]
  exact h

theorem sortedAsc_of_adjacent {α : Type} {less : α → α → Bool} (hsw : IsSWO less)
    {n : ℕ} {g : ℕ → α} (h : ∀ v, v + 1 < n → less (g (v + 1)) (g v) = false) :
    SortedAsc less (asList n g) := by
  have key : ∀ d i, i + d < n → less (g (i + d)) (g i) = false := by
    intro d
    induction d with
    | zero =>
      intro i _
      exact hsw.irrefl _
    | succ d ihd =>
      intro i hi
      have h1 : less (g (i + d + 1)) (g (i + d)) = false := h (i + d) (by omega)
      have h2 : less (g (i + d)) (g i) = false := ihd i (by omega)
      have h3 := hsw.negtrans _ _ _ h1 h2
      have he : i + (d + 1) = i + d + 1 := by omega
      rw [he]
      exact h3
  unfold SortedAsc
  rw [List.pairwise_iff_get]
  intro i j hij
  obtain ⟨iv, hiv⟩ := i
  obtain ⟨jv, hjv⟩ := j
  have hij' : iv < jv := Fin.mk_lt_mk.mp hij
  rw [asList_get, asList_get]
  have hjn : jv < n := by
    have h4 := hjv
    rwa [asList_length] at h4
  have he : jv = iv + (jv - iv) := by omega
  rw [he]
  exact key _ _ (by omega)

/-! ### N-way merge: helpers -/

theorem IsHeap_mono {α : Type} {less : α → α → Bool} {F P m n : ℕ} {f : ℕ → α}
    (hmn : m ≤ n) (h : IsHeap less F P n f) : IsHeap less F P m f :=
  fun u hu0 hum => h u hu0 (by omega)

theorem IsHeap_congr {α : Type} {less : α → α → Bool} {F P n : ℕ} {f g : ℕ → α}
    (hfg : ∀ u, u < n → f u = g u) (h : IsHeap less F P n f) :
    IsHeap less F P n g := by
  intro u hu0 hun
  rw [← hfg u hun, ← hfg (get_parent_index F P u)
    (by have := parent_lt F P u hu0; omega)]
  exact h u hu0 hun

theorem upd_upd_same {α : Type} (f : ℕ → α) (i : ℕ) (a b : α) :
    upd (upd f i a) i b = upd f i b := by
  funext j
  by_cases h : j = i
  · rw [h, upd_same, upd_same]
  · rw [upd_other _ _ _ _ h, upd_other _ _ _ _ h, upd_other _ _ _ _ h]

/-- The inverted range comparer is a strict weak order whenever the
element comparer is. -/
theorem nway_lessR_SWO {α : Type} [Inhabited α] {less : α → α → Bool}
    (hsw : IsSWO less) : IsSWO (_nway_merge_less_comparer less) := by
  constructor
  · intro a
    exact hsw.irrefl _
  · intro a b c hab hbc
    exact hsw.trans _ _ _ hbc hab
  · intro a b c hab hbc
    exact hsw.negtrans _ _ _ hbc hab

theorem headI_cons_tail {α : Type} [Inhabited α] : ∀ {l : List α}, l ≠ [] →
    l.headI :: l.tail = l
  | [], h => absurd rfl h
  | _ :: _, _ => rfl

theorem sorted_head_min {α : Type} [Inhabited α] {less : α → α → Bool}
    (hsw : IsSWO less) {l : List α} (hs : SortedAsc less l) :
    ∀ b, b ∈ l → less b l.headI = false := by
  match l with
  | [] => intro b hb; exact absurd hb (List.not_mem_nil b)
  | a :: t =>
    intro b hb
    rcases List.mem_cons.mp hb with h1 | h1
    · rw [h1]
      exact hsw.irrefl _
    · exact (List.pairwise_cons.mp hs).1 b h1

theorem sortedAsc_tail {α : Type} {less : α → α → Bool} {l : List α}
    (hs : SortedAsc less l) : SortedAsc less l.tail := by
  match l with
  | [] => exact hs
  | a :: t => exact (List.pairwise_cons.mp hs).2

theorem sortedAsc_append_single {α : Type} {less : α → α → Bool} {acc : List α}
    {m : α} (hacc : SortedAsc less acc)
    (hm : ∀ a, a ∈ acc → less m a = false) :
    SortedAsc less (acc ++ [m]) := by
  unfold SortedAsc at hacc ⊢
  refine List.pairwise_append.mpr ⟨hacc, List.pairwise_singleton _ _, ?_⟩
  intro a ha b hb
  rw [List.mem_singleton.mp hb]
  exact hm a ha

/-- The multiset of all elements remaining in the live ranges `[0, k)`. -/
def remM {α : Type} (k : ℕ) (f : ℕ → List α) : Multiset α :=
  ((Multiset.range k).map (fun i => ((f i) : Multiset α))).sum

theorem remM_congr {α : Type} {k : ℕ} {f g : ℕ → List α}
    (h : ∀ i, i < k → f i = g i) : remM k f = remM k g := by
  unfold remM
  congr 1
  refine Multiset.map_congr rfl ?_
  intro i hi
  rw [h i (Multiset.mem_range.mp hi)]

theorem remM_succ {α : Type} (k : ℕ) (f : ℕ → List α) :
    remM (k + 1) f = ((f k) : Multiset α) + remM k f := by
  unfold remM
  rw [Multiset.range_succ, Multiset.map_cons, Multiset.sum_cons]

theorem remM_upd {α : Type} {k i : ℕ} (hi : i < k) (f : ℕ → List α) (l : List α) :
    remM k (upd f i l) + ((f i) : Multiset α) = remM k f + (l : Multiset α) := by
  induction k with
  | zero => omega
  | succ k ihk =>
    by_cases hik : i = k
    · subst hik
      rw [remM_succ, remM_succ, upd_same,
        remM_congr (fun j hj => upd_other _ _ _ _ (show j ≠ i by omega))]
      abel
    · rw [remM_succ, remM_succ, upd_other _ _ _ _ (Ne.symm hik)]
      have h2 := ihk (by omega)
      rw [add_assoc, h2, ← add_assoc]

theorem remM_eq_of_msetR {α : Type} {k : ℕ} {f g : ℕ → List α}
    (h : msetR k f = msetR k g) : remM k f = remM k g := by
  unfold remM
  unfold msetR at h
  have h1 := congrArg
    (fun s => (Multiset.map (fun l : List α => (l : Multiset α)) s).sum) h
  simp only [Multiset.map_map, Function.comp] at h1
  exact h1

theorem remM_shift {α : Type} : ∀ (k : ℕ) (f : ℕ → List α),
    remM (k + 1) f = ((f 0) : Multiset α) + remM k (fun i => f (i + 1)) := by
  intro k
  induction k with
  | zero =>
    intro f
    rw [remM_succ]
    rfl
  | succ k ihk =>
    intro f
    rw [remM_succ (k + 1) f, ihk f, remM_succ k (fun i => f (i + 1))]
    abel

theorem remM_ranges {α : Type} : ∀ (rs : List (List α)),
    remM rs.length (fun i => rs.getD i []) = ((rs.join : List α) : Multiset α)
  | [] => rfl
  | a :: l => by
    have h1 : (a :: l).length = l.length + 1 := rfl
    rw [h1, remM_shift]
    have h2 : (fun i => (a :: l).getD (i + 1) []) = (fun i => l.getD i []) := rfl
    rw [h2, remM_ranges l]
    have h3 : (a :: l).getD 0 [] = a := rfl
    rw [h3]
    have h4 : (a :: l).join = a ++ l.join := rfl
    rw [h4]
    rfl

theorem headI_mem_self {α : Type} [Inhabited α] : ∀ {l : List α}, l ≠ [] → l.headI ∈ l
  | [], h => absurd rfl h
  | a :: t, _ => List.mem_cons_self a t

theorem isEmpty_false_of_ne {α : Type} : ∀ {l : List α}, l ≠ [] → l.isEmpty = false
  | [], h => absurd rfl h
  | _ :: _, _ => rfl

section Nway

variable {α : Type} [Inhabited α] {less : α → α → Bool} {F P : ℕ}
variable (hsw : IsSWO less) (hF : 2 ≤ F) (hP : 1 ≤ P) (hFP : F * P ≤ SIZE_MAX)

include hsw hF hP hFP in
/-- Master invariant of the `nway_merge` loop: the live ranges are
nonempty, sorted and form a heap under the inverted comparer; the
accumulator is sorted and dominated by every remaining element; the fuel
counts the remaining elements exactly.  The loop returns a sorted list
holding the accumulator plus every remaining element. -/
theorem nwLoop_master :
    ∀ (fuel k : ℕ) (f : ℕ → List α) (acc : List α),
    1 ≤ k → k ≤ SIZE_MAX →
    (∀ i, i < k → f i ≠ []) →
    (∀ i, i < k → SortedAsc less (f i)) →
    IsHeap (_nway_merge_less_comparer less) F P k f →
    SortedAsc less acc →
    (∀ a, a ∈ acc → ∀ i, i < k → ∀ b, b ∈ f i → less b a = false) →
    fuel = Multiset.card (remM k f) →
    SortedAsc less (_nwLoop (_nway_merge_less_comparer less) F P fuel k f acc) ∧
    ((_nwLoop (_nway_merge_less_comparer less) F P fuel k f acc : List α) : Multiset α) =
      (acc : Multiset α) + remM k f := by
  intro fuel
  induction fuel with
  | zero =>
    intro k f acc hk hkN hne hsort hheap hacc hbound hfuel
    exfalso
    have h1 : f 0 ≠ [] := hne 0 (by omega)
    have h2 : remM k f = ((f 0) : Multiset α) + remM (k - 1) (fun i => f (i + 1)) := by
      have hk1 : k = (k - 1) + 1 := by omega
      rw [hk1]
      exact remM_shift (k - 1) f
    have h3 : 1 ≤ Multiset.card ((f 0) : Multiset α) := by
      rw [Multiset.coe_card]
      cases he : f 0
      · exact absurd he h1
      · simp
    rw [h2, Multiset.card_add] at hfuel
    omega
  | succ fuel ih =>
    intro k f acc hk hkN hne hsort hheap hacc hbound hfuel
    have hswR : IsSWO (_nway_merge_less_comparer less) := nway_lessR_SWO hsw
    have hf00 : f 0 ≠ [] := hne 0 (by omega)
    have hf0 : (f 0).headI :: (f 0).tail = f 0 := headI_cons_tail hf00
    have hroot := heap_root_max hswR hheap
    have hm_dom : ∀ i, i < k → ∀ b, b ∈ f i → less b ((f 0).headI) = false := by
      intro i hi b hb
      have hhead : less b ((f i).headI) = false := sorted_head_min hsw (hsort i hi) b hb
      have hri : less ((f i).headI) ((f 0).headI) = false := hroot i hi
      exact hsw.negtrans _ _ _ hhead hri
    have hout_sorted : SortedAsc less (acc ++ [(f 0).headI]) :=
      sortedAsc_append_single hacc (fun a ha =>
        hbound a ha 0 (by omega) _ (by
          rw [← hf0]
          exact List.mem_cons_self _ _))
    have hout_coe : ((acc ++ [(f 0).headI] : List α) : Multiset α) =
        (acc : Multiset α) + {(f 0).headI} := by
      rw [← Multiset.coe_singleton]
      exact Multiset.coe_add _ _
    have he : _nwLoop (_nway_merge_less_comparer less) F P (fuel + 1) k f acc =
        (if ((f 0).tail).isEmpty then
          (if k - 1 = 0 then acc ++ [(f 0).headI]
           else _nwLoop (_nway_merge_less_comparer less) F P fuel (k - 1)
             (restore_heap_after_item_decrease (_nway_merge_less_comparer less) F P
               (k - 1) 0
               (upd (upd (upd f 0 (f 0).tail) 0 ((upd f 0 (f 0).tail) (k - 1))) (k - 1)
                 ((upd f 0 (f 0).tail) 0)))
             (acc ++ [(f 0).headI]))
         else _nwLoop (_nway_merge_less_comparer less) F P fuel k
           (restore_heap_after_item_decrease (_nway_merge_less_comparer less) F P k 0
             (upd f 0 (f 0).tail))
           (acc ++ [(f 0).headI])) := rfl
    rw [he]
    by_cases htail : (f 0).tail = []
    · rw [if_pos (by rw [htail]; rfl)]
      have hf0m : f 0 = [(f 0).headI] := by
        conv_lhs => rw [← hf0]
        rw [htail]
      by_cases hksub : k - 1 = 0
      · rw [if_pos hksub]
        refine ⟨hout_sorted, ?_⟩
        have hk1 : k = 1 := by omega
        rw [hout_coe, hk1, remM_succ]
        have h0 : remM 0 f = 0 := rfl
        have h6 : ((f 0) : Multiset α) = {(f 0).headI} := by
          conv_lhs => rw [hf0m]
          rw [Multiset.coe_singleton]
        rw [h0, add_zero, h6]
      · rw [if_neg hksub]
        have hf10 : (upd f 0 (f 0).tail) 0 = ([] : List α) := by
          rw [upd_same, htail]
        have hf1k : (upd f 0 (f 0).tail) (k - 1) = f (k - 1) :=
          upd_other _ _ _ _ hksub
        have hf2 : upd (upd (upd f 0 (f 0).tail) 0 ((upd f 0 (f 0).tail) (k - 1)))
            (k - 1) ((upd f 0 (f 0).tail) 0) =
            upd (upd f 0 (f (k - 1))) (k - 1) [] := by
          rw [hf10, hf1k, upd_upd_same]
        rw [hf2]
        have hg : ∀ u, u < k - 1 → upd (upd f 0 (f (k - 1))) (k - 1) ([] : List α) u =
            upd f 0 (f (k - 1)) u :=
          fun u hu => upd_other _ _ _ _ (by omega)
        have hpre : IsHeap (_nway_merge_less_comparer less) F P (k - 1)
            (upd (upd (upd f 0 (f (k - 1))) (k - 1) []) 0 (f 0)) := by
          refine IsHeap_congr ?_ (IsHeap_mono (show k - 1 ≤ k by omega) hheap)
          intro u hu
          by_cases hu0 : u = 0
          · rw [hu0, upd_same]
          · rw [upd_other _ _ _ _ hu0, upd_other _ _ _ _ (show u ≠ k - 1 by omega),
              upd_other _ _ _ _ hu0]
        have hdec : _nway_merge_less_comparer less (f 0)
            ((upd (upd f 0 (f (k - 1))) (k - 1) []) 0) = false := by
          rw [upd_other _ _ _ _ (Ne.symm hksub), upd_same]
          exact hroot (k - 1) (by omega)
        have hheap' := restore_dec_IsHeap_weak hswR hF hP hFP
          (show k - 1 ≤ SIZE_MAX by omega) 0 (upd (upd f 0 (f (k - 1))) (k - 1) [])
          (by omega) (f 0) hpre hdec
        have hmset := restore_dec_mset (_nway_merge_less_comparer less) hF hP hFP
          (show k - 1 ≤ SIZE_MAX by omega) 0 (by omega)
          (upd (upd f 0 (f (k - 1))) (k - 1) [])
        have hmem : ∀ i, i < k - 1 → ∃ w, w < k - 1 ∧
            upd (upd f 0 (f (k - 1))) (k - 1) ([] : List α) w =
            restore_heap_after_item_decrease (_nway_merge_less_comparer less) F P
              (k - 1) 0 (upd (upd f 0 (f (k - 1))) (k - 1) []) i := by
          intro i hi
          refine msetR_mem ?_
          rw [← hmset]
          exact mem_msetR _ hi
        have hval : ∀ w, w < k - 1 → ∃ j, j < k ∧
            upd (upd f 0 (f (k - 1))) (k - 1) ([] : List α) w = f j := by
          intro w hw
          rw [hg w hw]
          by_cases hw0 : w = 0
          · rw [hw0, upd_same]
            exact ⟨k - 1, by omega, rfl⟩
          · rw [upd_other _ _ _ _ hw0]
            exact ⟨w, by omega, rfl⟩
        have hne' : ∀ i, i < k - 1 →
            restore_heap_after_item_decrease (_nway_merge_less_comparer less) F P
              (k - 1) 0 (upd (upd f 0 (f (k - 1))) (k - 1) []) i ≠ [] := by
          intro i hi
          obtain ⟨w, hw, hwe⟩ := hmem i hi
          obtain ⟨j, hj, hje⟩ := hval w hw
          rw [← hwe, hje]
          exact hne j hj
        have hsort' : ∀ i, i < k - 1 →
            SortedAsc less (restore_heap_after_item_decrease
              (_nway_merge_less_comparer less) F P (k - 1) 0
              (upd (upd f 0 (f (k - 1))) (k - 1) []) i) := by
          intro i hi
          obtain ⟨w, hw, hwe⟩ := hmem i hi
          obtain ⟨j, hj, hje⟩ := hval w hw
          rw [← hwe, hje]
          exact hsort j hj
        have hbound' : ∀ a, a ∈ acc ++ [(f 0).headI] → ∀ i, i < k - 1 → ∀ b,
            b ∈ restore_heap_after_item_decrease (_nway_merge_less_comparer less) F P
              (k - 1) 0 (upd (upd f 0 (f (k - 1))) (k - 1) []) i →
            less b a = false := by
          intro a ha i hi b hb
          obtain ⟨w, hw, hwe⟩ := hmem i hi
          obtain ⟨j, hj, hje⟩ := hval w hw
          rw [← hwe, hje] at hb
          rcases List.mem_append.mp ha with h1 | h1
          · exact hbound a h1 j hj b hb
          · rw [List.mem_singleton.mp h1]
            exact hm_dom j hj b hb
        have hrem1 : remM (k - 1) (restore_heap_after_item_decrease
            (_nway_merge_less_comparer less) F P (k - 1) 0
            (upd (upd f 0 (f (k - 1))) (k - 1) [])) =
            remM (k - 1) (upd f 0 (f (k - 1))) := by
          rw [remM_eq_of_msetR hmset]
          exact remM_congr hg
        have hrem2 : remM (k - 1) (upd f 0 (f (k - 1))) + ((f 0) : Multiset α) =
            remM (k - 1) f + ((f (k - 1)) : Multiset α) :=
          remM_upd (by omega) f (f (k - 1))
        have hkey : {(f 0).headI} + remM (k - 1) (upd f 0 (f (k - 1))) = remM k f := by
          have hks : remM k f = ((f (k - 1)) : Multiset α) + remM (k - 1) f := by
            conv_lhs => rw [show k = (k - 1) + 1 by omega]
            exact remM_succ _ _
          have h6 : ((f 0) : Multiset α) = {(f 0).headI} := by
            conv_lhs => rw [hf0m]
            rw [Multiset.coe_singleton]
          rw [h6] at hrem2
          rw [hks, add_comm ({(f 0).headI}) _, hrem2]
          exact add_comm _ _
        have hfuel' : fuel = Multiset.card (remM (k - 1)
            (restore_heap_after_item_decrease (_nway_merge_less_comparer less) F P
              (k - 1) 0 (upd (upd f 0 (f (k - 1))) (k - 1) []))) := by
          rw [hrem1]
          have h8 := congrArg Multiset.card hkey
          rw [Multiset.card_add, Multiset.card_singleton] at h8
          omega
        obtain ⟨ihs, ihm⟩ := ih (k - 1) _ (acc ++ [(f 0).headI]) (by omega) (by omega)
          hne' hsort' hheap' hout_sorted hbound' hfuel'
        refine ⟨ihs, ?_⟩
        rw [ihm, hout_coe, hrem1, add_assoc, hkey]
    · rw [if_neg (by rw [isEmpty_false_of_ne htail]; simp)]
      have hpre : IsHeap (_nway_merge_less_comparer less) F P k
          (upd (upd f 0 (f 0).tail) 0 (f 0)) := by
        rw [upd_upd_same, upd_self]
        exact hheap
      have hdec : _nway_merge_less_comparer less (f 0) ((upd f 0 (f 0).tail) 0) =
          false := by
        rw [upd_same]
        show less ((f 0).tail.headI) ((f 0).headI) = false
        refine sorted_head_min hsw (hsort 0 (by omega)) _ ?_
        rw [← hf0]
        exact List.mem_cons_of_mem _ (headI_mem_self htail)
      have hheap' := restore_dec_IsHeap_weak hswR hF hP hFP hkN 0
        (upd f 0 (f 0).tail) (by omega) (f 0) hpre hdec
      have hmset := restore_dec_mset (_nway_merge_less_comparer less) hF hP hFP
        hkN 0 (by omega) (upd f 0 (f 0).tail)
      have hmem : ∀ i, i < k → ∃ w, w < k ∧ (upd f 0 (f 0).tail) w =
          restore_heap_after_item_decrease (_nway_merge_less_comparer less) F P k 0
            (upd f 0 (f 0).tail) i := by
        intro i hi
        refine msetR_mem ?_
        rw [← hmset]
        exact mem_msetR _ hi
      have hval : ∀ w, w < k → ∀ b, b ∈ (upd f 0 (f 0).tail) w →
          ∃ j, j < k ∧ b ∈ f j := by
        intro w hw b hb
        by_cases hw0 : w = 0
        · rw [hw0, upd_same] at hb
          refine ⟨0, by omega, ?_⟩
          rw [← hf0]
          exact List.mem_cons_of_mem _ hb
        · rw [upd_other _ _ _ _ hw0] at hb
          exact ⟨w, hw, hb⟩
      have hne' : ∀ i, i < k →
          restore_heap_after_item_decrease (_nway_merge_less_comparer less) F P k 0
            (upd f 0 (f 0).tail) i ≠ [] := by
        intro i hi
        obtain ⟨w, hw, hwe⟩ := hmem i hi
        rw [← hwe]
        by_cases hw0 : w = 0
        · rw [hw0, upd_same]
          exact htail
        · rw [upd_other _ _ _ _ hw0]
          exact hne w hw
      have hsort' : ∀ i, i < k →
          SortedAsc less (restore_heap_after_item_decrease
            (_nway_merge_less_comparer less) F P k 0 (upd f 0 (f 0).tail) i) := by
        intro i hi
        obtain ⟨w, hw, hwe⟩ := hmem i hi
        rw [← hwe]
        by_cases hw0 : w = 0
        · rw [hw0, upd_same]
          exact sortedAsc_tail (hsort 0 (by omega))
        · rw [upd_other _ _ _ _ hw0]
          exact hsort w hw
      have hbound' : ∀ a, a ∈ acc ++ [(f 0).headI] → ∀ i, i < k → ∀ b,
          b ∈ restore_heap_after_item_decrease (_nway_merge_less_comparer less) F P k 0
            (upd f 0 (f 0).tail) i → less b a = false := by
        intro a ha i hi b hb
        obtain ⟨w, hw, hwe⟩ := hmem i hi
        rw [← hwe] at hb
        obtain ⟨j, hj, hbj⟩ := hval w hw b hb
        rcases List.mem_append.mp ha with h1 | h1
        · exact hbound a h1 j hj b hbj
        · rw [List.mem_singleton.mp h1]
          exact hm_dom j hj b hbj
      have hrem1 : remM k (restore_heap_after_item_decrease
          (_nway_merge_less_comparer less) F P k 0 (upd f 0 (f 0).tail)) =
          remM k (upd f 0 (f 0).tail) := remM_eq_of_msetR hmset
      have hrem2 : remM k (upd f 0 (f 0).tail) + ((f 0) : Multiset α) =
          remM k f + (((f 0).tail) : Multiset α) :=
        remM_upd (by omega) f (f 0).tail
      have hcoe0 : ((f 0) : Multiset α) =
          {(f 0).headI} + (((f 0).tail) : Multiset α) := by
        conv_lhs => rw [← hf0]
        rw [Multiset.singleton_add]
        exact (Multiset.cons_coe _ _).symm
      have hkey : {(f 0).headI} + remM k (upd f 0 (f 0).tail) = remM k f := by
        rw [hcoe0] at hrem2
        have h6 : ({(f 0).headI} + remM k (upd f 0 (f 0).tail)) +
            (((f 0).tail) : Multiset α) =
            remM k f + (((f 0).tail) : Multiset α) := by
          rw [← hrem2]
          abel
        exact add_right_cancel h6
      have hfuel' : fuel = Multiset.card (remM k
          (restore_heap_after_item_decrease (_nway_merge_less_comparer less) F P k 0
            (upd f 0 (f 0).tail))) := by
        rw [hrem1]
        have h8 := congrArg Multiset.card hkey
        rw [Multiset.card_add, Multiset.card_singleton] at h8
        omega
      obtain ⟨ihs, ihm⟩ := ih k _ (acc ++ [(f 0).headI]) hk hkN
        hne' hsort' hheap' hout_sorted hbound' hfuel'
      refine ⟨ihs, ?_⟩
      rw [ihm, hout_coe, hrem1, add_assoc, hkey]

theorem length_join_eq {α : Type} : ∀ (rs : List (List α)),
    rs.join.length = (rs.map List.length).sum
  | [] => rfl
  | a :: l => by
    have h1 : (a :: l).join = a ++ l.join := rfl
    rw [h1, List.length_append, length_join_eq l, List.map_cons, List.sum_cons]

include hsw hF hP hFP in
/-- `nway_merge` of nonempty ascending ranges returns a sorted
permutation of the concatenation of the inputs. -/
theorem nway_merge_correct (rs : List (List α))
    (hk : 1 ≤ rs.length) (hkN : rs.length ≤ SIZE_MAX)
    (hne : ∀ r, r ∈ rs → r ≠ [])
    (hsort : ∀ r, r ∈ rs → SortedAsc less r) :
    SortedAsc less (nway_merge less F P rs) ∧
    List.Perm (nway_merge less F P rs) rs.join := by
  have hswR : IsSWO (_nway_merge_less_comparer less) := nway_lessR_SWO hsw
  have hf0mem : ∀ i, i < rs.length → rs.getD i [] ∈ rs := by
    intro i hi
    rw [List.getD_eq_get rs [] hi]
    exact List.get_mem _ _ _
  have hheap0 := make_heap_IsHeap hswR hF hP hFP hkN (fun i => rs.getD i [])
  have hmk := make_heap_mset (_nway_merge_less_comparer less) hF hP hFP hkN
    (fun i => rs.getD i [])
  have hmem : ∀ i, i < rs.length → ∃ w, w < rs.length ∧ rs.getD w [] =
      make_heap (_nway_merge_less_comparer less) F P rs.length
        (fun j => rs.getD j []) i := by
    intro i hi
    refine msetR_mem ?_
    rw [← hmk]
    exact mem_msetR _ hi
  have hne' : ∀ i, i < rs.length →
      make_heap (_nway_merge_less_comparer less) F P rs.length
        (fun j => rs.getD j []) i ≠ [] := by
    intro i hi
    obtain ⟨w, hw, hwe⟩ := hmem i hi
    rw [← hwe]
    exact hne _ (hf0mem w hw)
  have hsort' : ∀ i, i < rs.length →
      SortedAsc less (make_heap (_nway_merge_less_comparer less) F P rs.length
        (fun j => rs.getD j []) i) := by
    intro i hi
    obtain ⟨w, hw, hwe⟩ := hmem i hi
    rw [← hwe]
    exact hsort _ (hf0mem w hw)
  have hremmk : remM rs.length (make_heap (_nway_merge_less_comparer less) F P
      rs.length (fun j => rs.getD j [])) = ((rs.join : List α) : Multiset α) := by
    rw [remM_eq_of_msetR hmk]
    exact remM_ranges rs
  have hfuel : (rs.map List.length).sum = Multiset.card (remM rs.length
      (make_heap (_nway_merge_less_comparer less) F P rs.length
        (fun j => rs.getD j []))) := by
    rw [hremmk, Multiset.coe_card, length_join_eq]
  obtain ⟨hs, hm⟩ := nwLoop_master hsw hF hP hFP ((rs.map List.length).sum) rs.length
    (make_heap (_nway_merge_less_comparer less) F P rs.length (fun j => rs.getD j []))
    [] hk hkN hne' hsort' hheap0 List.Pairwise.nil
    (fun a ha => absurd ha (List.not_mem_nil a)) hfuel
  refine ⟨hs, ?_⟩
  rw [← Multiset.coe_eq_coe]
  rw [hremmk] at hm
  have h0 : (([] : List α) : Multiset α) = 0 := rfl
  rw [h0, zero_add] at hm
  exact hm

end Nway

/-! ### Removing everything from index 0 versus repeated pop -/

/-- Repeatedly `remove_from_heap` at index 0 on the shrinking range
(range sizes `n, n-1, …, 1`). -/
def removeAll {α : Type} (less : α → α → Bool) (F P : ℕ) : ℕ → (ℕ → α) → (ℕ → α)
  | 0, f => f
  | n + 1, f => removeAll less F P n (remove_from_heap less F P (n + 1) 0 f)

/-- Repeatedly `pop_heap` on the shrinking range (sizes `n, n-1, …, 1`). -/
def popAll {α : Type} (less : α → α → Bool) (F P : ℕ) : ℕ → (ℕ → α) → (ℕ → α)
  | 0, f => f
  | n + 1, f => popAll less F P n (pop_heap less F P (n + 1) f)

section RemoveAll

variable {α : Type} {less : α → α → Bool} {F P : ℕ}
variable (hsw : IsSWO less) (hF : 2 ≤ F) (hP : 1 ≤ P) (hFP : F * P ≤ SIZE_MAX)

include hF hP hFP in
/-- `remove_from_heap` at index 0 never writes at or above the range end. -/
theorem remove_untouched {i : ℕ} (hiN : i ≤ SIZE_MAX) (g : ℕ → α) :
    ∀ u, i ≤ u → remove_from_heap less F P i 0 g u = g u := by
  intro u hu
  unfold remove_from_heap
  simp only []
  by_cases hi2 : 2 ≤ i
  · rw [if_pos (show (0:ℕ) < i - 1 by omega)]
    have hup : upd g (i - 1) (g 0) (i - 1) = g 0 := upd_same _ _ _
    rw [hup]
    by_cases h2 : less (g (i - 1)) (g 0) = true
    · rw [if_pos h2]
      exact ((sift_down_mset less hF hP hFP (show i - 1 ≤ SIZE_MAX by omega) 0
        (g (i - 1)) (upd g (i - 1) (g 0)) (by omega)).2 u (by omega)).trans
        (upd_other _ _ _ _ (show u ≠ i - 1 by omega))
    · rw [if_neg h2]
      exact ((sift_up_mset less F P 0 (i - 1) 0 (upd g (i - 1) (g 0))
        (g (i - 1)) (by omega)).2 u (by omega)).trans
        (upd_other _ _ _ _ (show u ≠ i - 1 by omega))
  · rw [if_neg (show ¬((0:ℕ) < i - 1) by omega)]

include hsw hF hP hFP in
/-- `remove_from_heap` at index 0 on a heap of size at least 2 behaves
exactly like a pop as far as the heap invariant, the evicted slot and
the contents are concerned. -/
theorem remove_core {i : ℕ} (hiN : i ≤ SIZE_MAX) (hi2 : 2 ≤ i) (f : ℕ → α)
    (hheap : IsHeap less F P i f) :
    IsHeap less F P (i - 1) (remove_from_heap less F P i 0 f) ∧
    remove_from_heap less F P i 0 f (i - 1) = f 0 ∧
    (∀ u, i ≤ u → remove_from_heap less F P i 0 f u = f u) ∧
    msetR i (remove_from_heap less F P i 0 f) = msetR i f := by
  obtain ⟨c1, c2⟩ := remove_correct hsw hF hP hFP hiN 0 f (by omega) hheap
  exact ⟨c1, c2 (by omega), remove_untouched hF hP hFP hiN f,
    remove_mset less hF hP hFP hiN 0 f⟩

include hsw hF hP hFP in
/-- The `removeAll` loop invariant, mirroring the `sort_heap` one. -/
theorem rmLoop_sorted {n : ℕ} (hnN : n ≤ SIZE_MAX) :
    ∀ i, ∀ g : ℕ → α, i ≤ n →
    IsHeap less F P i g →
    (∀ u v, u < i → i ≤ v → v < n → less (g v) (g u) = false) →
    (∀ v, i ≤ v → v + 1 < n → less (g (v + 1)) (g v) = false) →
    ∀ v, v + 1 < n →
      less (removeAll less F P i g (v + 1)) (removeAll less F P i g v) = false := by
  intro i
  induction i using Nat.strong_induction_on with
  | _ i ih =>
    intro g hin hheap hdom hsuf
    match i with
    | 0 =>
      intro v hv
      exact hsuf v (by omega) hv
    | 1 =>
      intro v hv
      have he : removeAll less F P 1 g = remove_from_heap less F P 1 0 g := rfl
      have he2 : remove_from_heap less F P 1 0 g = g := by
        unfold remove_from_heap
        simp only []
        rw [if_neg (show ¬((0:ℕ) < 1 - 1) by omega)]
      rw [he, he2]
      match v with
      | 0 => exact hdom 0 1 (by omega) (by omega) hv
      | (v + 1) => exact hsuf (v + 1) (by omega) hv
    | (i + 2) =>
      have he : removeAll less F P (i + 2) g =
          removeAll less F P (i + 1) (remove_from_heap less F P (i + 2) 0 g) := rfl
      rw [he]
      obtain ⟨q1, q2, q3, m1⟩ := remove_core hsw hF hP hFP
        (show i + 2 ≤ SIZE_MAX by omega) (by omega) g hheap
      have h21 : i + 2 - 1 = i + 1 := rfl
      rw [h21] at q1 q2
      have hprev : ∀ u, u < i + 1 →
          ∃ w, w < i + 2 ∧ g w = remove_from_heap less F P (i + 2) 0 g u := by
        intro u hu
        refine msetR_mem ?_
        rw [← m1]
        exact mem_msetR _ (by omega)
      refine ih (i + 1) (by omega) _ (by omega) q1 ?_ ?_
      · intro u v hu hv hvn
        obtain ⟨w, hw, hgw⟩ := hprev u hu
        rw [← hgw]
        by_cases hvi : v = i + 1
        · rw [hvi, q2]
          exact heap_root_max hsw hheap w hw
        · rw [q3 v (by omega)]
          exact hdom w v hw (by omega) hvn
      · intro v hv hvn
        by_cases hvi : v = i + 1
        · rw [hvi, q2, q3 (i + 2) (by omega)]
          exact hdom 0 (i + 2) (by omega) (by omega) (by omega)
        · rw [q3 v (by omega), q3 (v + 1) (by omega)]
          exact hsuf v (by omega) hvn

include hsw hF hP hFP in
/-- `removeAll` on a heap sorts the range ascending (adjacent form). -/
theorem removeAll_sorted {n : ℕ} (hnN : n ≤ SIZE_MAX) (f : ℕ → α)
    (hheap : IsHeap less F P n f) :
    ∀ v, v + 1 < n →
      less (removeAll less F P n f (v + 1)) (removeAll less F P n f v) = false :=
  rmLoop_sorted hsw hF hP hFP hnN n f (le_refl n) hheap
    (fun _ v _ hv hvn => absurd hvn (by omega))
    (fun v hv hvn => absurd hvn (by omega))

include hF hP hFP in
/-- `removeAll` permutes the range `[0, n)`. -/
theorem removeAll_mset {n : ℕ} (hnN : n ≤ SIZE_MAX) :
    ∀ i, ∀ g : ℕ → α, i ≤ n → msetR n (removeAll less F P i g) = msetR n g := by
  intro i
  induction i with
  | zero =>
    intro g _
    rfl
  | succ i ihi =>
    intro g hin
    have he : removeAll less F P (i + 1) g =
        removeAll less F P i (remove_from_heap less F P (i + 1) 0 g) := rfl
    rw [he, ihi _ (by omega)]
    exact mset_extend (show i + 1 ≤ n by omega)
      (remove_untouched hF hP hFP (show i + 1 ≤ SIZE_MAX by omega) g)
      (remove_mset less hF hP hFP (show i + 1 ≤ SIZE_MAX by omega) 0 g)

theorem popAll_eq_shLoop : ∀ (i : ℕ) (g : ℕ → α),
    popAll less F P i g = _shLoop less F P i g := by
  intro i
  induction i using Nat.strong_induction_on with
  | _ i ih =>
    intro g
    match i with
    | 0 => rfl
    | 1 =>
      show pop_heap less F P 1 g = g
      unfold pop_heap
      rw [if_neg (by omega)]
    | (i + 2) =>
      have h2 : pop_heap less F P (i + 2) g = _pop_heap less F P (i + 2) g := by
        unfold pop_heap
        rw [if_pos (by omega)]
      show popAll less F P (i + 1) (pop_heap less F P (i + 2) g) =
        _shLoop less F P (i + 1) (_pop_heap less F P (i + 2) g)
      rw [h2, ih (i + 1) (by omega)]

include hsw hF hP hFP in
/-- `popAll` on a heap sorts the range ascending (adjacent form). -/
theorem popAll_sorted {n : ℕ} (hnN : n ≤ SIZE_MAX) (f : ℕ → α)
    (hheap : IsHeap less F P n f) :
    ∀ v, v + 1 < n →
      less (popAll less F P n f (v + 1)) (popAll less F P n f v) = false := by
  intro v hv
  rw [popAll_eq_shLoop]
  exact sort_heap_sorted hsw hF hP hFP hnN f hheap v hv

include hF hP hFP in
/-- `popAll` permutes the range `[0, n)`. -/
theorem popAll_mset {n : ℕ} (hnN : n ≤ SIZE_MAX) (f : ℕ → α) :
    msetR n (popAll less F P n f) = msetR n f := by
  rw [popAll_eq_shLoop]
  exact sort_heap_mset less hF hP hFP hnN f

include hsw hF hP hFP in
/-- Under an antisymmetric comparator, draining the heap by
`remove_from_heap` at index 0 coincides pointwise with draining it by
repeated `pop_heap`. -/
theorem removeAll_eq_popAll
    (hanti : ∀ a b : α, less a b = false → less b a = false → a = b)
    {n : ℕ} (hnN : n ≤ SIZE_MAX) (f : ℕ → α) (hheap : IsHeap less F P n f) :
    ∀ u, u < n → removeAll less F P n f u = popAll less F P n f u := by
  intro u hu
  have hs1 : SortedAsc less (asList n (removeAll less F P n f)) :=
    sortedAsc_of_adjacent hsw (removeAll_sorted hsw hF hP hFP hnN f hheap)
  have hs2 : SortedAsc less (asList n (popAll less F P n f)) :=
    sortedAsc_of_adjacent hsw (popAll_sorted hsw hF hP hFP hnN f hheap)
  have hperm : List.Perm (asList n (removeAll less F P n f))
      (asList n (popAll less F P n f)) := by
    refine perm_of_msetR_eq ?_
    rw [removeAll_mset hF hP hFP hnN n f (le_refl n), popAll_mset hF hP hFP hnN f]
  have hl1 : u < (asList n (removeAll less F P n f)).length := by
    rw [asList_length]
    exact hu
  have hl2 : u < (asList n (popAll less F P n f)).length := by
    rw [asList_length]
    exact hu
  obtain ⟨hp1, hp2⟩ := sorted_perm_pointwise hsw hperm hs1 hs2 u hl1 hl2
  rw [asList_get, asList_get] at hp1 hp2
  exact hanti _ _ hp1 hp2

end RemoveAll

/-! ### The spec-worded variant of the `remove_from_heap` branch (C4) -/

/-- Follows the specification's words for `remove_from_heap`'s branch
decision — sift the temporary down exactly when it ranks higher than the
value now at the tail slot — to be compared with `remove_from_heap`,
which is translated from the code (the code sifts down when the
temporary ranks lower). -/
def remove_from_heap_specC4 {α : Type} (less : α → α → Bool) (F P : ℕ)
    (n item : ℕ) (f : ℕ → α) : ℕ → α :=
  let nhs := n - 1
  if item < nhs then
    let tmp := f nhs
    let f1 := upd f nhs (f item)
    if less (f1 nhs) tmp then _sift_down less F P nhs item tmp f1
    else _sift_up less F P 0 item tmp f1
  else f

/-! ### Witness fixtures -/

def natl : ℕ → ℕ → Bool := fun a b => decide (a < b)

theorem natl_SWO : IsSWO natl := by
  constructor
  · intro a
    simp [natl]
  · intro a b c h1 h2
    simp [natl] at h1 h2 ⊢
    omega
  · intro a b c h1 h2
    simp [natl] at h1 h2 ⊢
    omega

theorem natl_anti : ∀ a b : ℕ, natl a b = false → natl b a = false → a = b := by
  intro a b h1 h2
  simp [natl] at h1 h2
  omega

def w3 : ℕ → ℕ := fun i => if i = 0 then 1 else if i = 1 then 3 else 2

def wh3 : ℕ → ℕ := fun i => if i = 0 then 3 else if i = 1 then 1 else 2

def w8 : ℕ → ℕ := fun i => if i = 1 then 5 else if i = 2 then 5 else 0

def w4 : ℕ → ℕ := fun i => if i = 0 then 5 else if i = 1 then 4 else 2

def pairFst : ℕ × ℕ → ℕ × ℕ → Bool := fun a b => decide (a.1 < b.1)

def pairF : ℕ → ℕ × ℕ := fun i => (5, i)

/-- One unfolding of `_sift_up` (its recursion is well-founded, so the
kernel cannot reduce it; concrete runs are evaluated through this
equation). -/
theorem sift_up_step {α : Type} (less : α → α → Bool) (F P root hole : ℕ)
    (item : α) (f : ℕ → α) :
    _sift_up less F P root hole item f =
      (if root < hole then
        (if less (f (get_parent_index F P hole)) item then
          _sift_up less F P root (get_parent_index F P hole) item
            (upd f hole (f (get_parent_index F P hole)))
        else upd f hole item)
      else upd f hole item) := by
  rw [_sift_up]
  by_cases h : root < hole
  · rw [dif_pos h, if_pos h]
  · rw [dif_neg h, if_neg h]

/-- `_sift_up` stops at once when the parent does not compare less than
the item. -/
theorem sift_up_stop {α : Type} (less : α → α → Bool) (F P root hole : ℕ)
    (item : α) (f : ℕ → α)
    (hcond : less (f (get_parent_index F P hole)) item = false) :
    _sift_up less F P root hole item f = upd f hole item := by
  rw [sift_up_step]
  by_cases h : root < hole
  · rw [if_pos h, if_neg (by rw [hcond]; simp)]
  · rw [if_neg h]

/-! ### The claims -/

/-- C1: for every Fanout ≥ 2 and PageChunks ≥ 1, every range and every
strict-weak-order comparator satisfying the operation's precondition,
each heap-mutating operation leaves `is_heap` true over the affected
range: the full range for `make_heap`, `push_heap` and
`restore_heap_after_item_decrease`, the range minus the last element for
`pop_heap` and `remove_from_heap`, and the range through `item` for
`restore_heap_after_item_increase`. -/
theorem C1_heap_invariants {α : Type} {less : α → α → Bool} {F P : ℕ}
    (hsw : IsSWO less) (hF : 2 ≤ F) (hP : 1 ≤ P) (hFP : F * P ≤ SIZE_MAX) :
    (∀ n (f : ℕ → α), n ≤ SIZE_MAX →
      is_heap less F P n (make_heap less F P n f) = true) ∧
    (∀ n (f : ℕ → α), n ≤ SIZE_MAX → is_heap less F P (n - 1) f = true →
      is_heap less F P n (push_heap less F P n f) = true) ∧
    (∀ n (f : ℕ → α), n ≤ SIZE_MAX → is_heap less F P n f = true →
      is_heap less F P (n - 1) (pop_heap less F P n f) = true) ∧
    (∀ h (f : ℕ → α), h + 1 ≤ SIZE_MAX → is_heap less F P h f = true →
      is_heap less F P (h + 1)
        (restore_heap_after_item_increase less F P h f) = true) ∧
    (∀ n h (f : ℕ → α) (o : α), n ≤ SIZE_MAX → h < n →
      is_heap less F P n (upd f h o) = true → less (f h) o = true →
      is_heap less F P n
        (restore_heap_after_item_decrease less F P n h f) = true) ∧
    (∀ n idx (f : ℕ → α), n ≤ SIZE_MAX → idx < n → is_heap less F P n f = true →
      is_heap less F P (n - 1) (remove_from_heap less F P n idx f) = true) := by
  refine ⟨?_, ?_, ?_, ?_, ?_, ?_⟩
  · intro n f hnN
    exact (is_heap_iff _ _ _ _ _).mpr (make_heap_IsHeap hsw hF hP hFP hnN f)
  · intro n f hnN hpre
    exact (is_heap_iff _ _ _ _ _).mpr
      (push_heap_IsHeap hsw f ((is_heap_iff _ _ _ _ _).mp hpre))
  · intro n f hnN hpre
    exact (is_heap_iff _ _ _ _ _).mpr
      (pop_heap_correct hsw hF hP hFP hnN f ((is_heap_iff _ _ _ _ _).mp hpre)).1
  · intro h f hnN hpre
    exact (is_heap_iff _ _ _ _ _).mpr
      (restore_inc_IsHeap hsw h f ((is_heap_iff _ _ _ _ _).mp hpre))
  · intro n h f o hnN hn hpre hdec
    exact (is_heap_iff _ _ _ _ _).mpr
      (restore_dec_IsHeap hsw hF hP hFP hnN h f hn o
        ((is_heap_iff _ _ _ _ _).mp hpre) hdec)
  · intro n idx f hnN hidx hpre
    exact (is_heap_iff _ _ _ _ _).mpr
      (remove_correct hsw hF hP hFP hnN idx f hidx
        ((is_heap_iff _ _ _ _ _).mp hpre)).1

theorem C1_witness :
    IsSWO natl ∧ is_heap natl 2 1 3 (make_heap natl 2 1 3 w3) = true :=
  ⟨natl_SWO,
   (@C1_heap_invariants ℕ natl 2 1 natl_SWO (by decide) (by decide)
     (by decide)).1 3 w3 (by decide)⟩

/-- C2: for every sequence and every strict-weak-order comparator,
`make_heap` then `sort_heap` yields an ascending range that is a
permutation of the reference insertion sort of the original sequence and
pointwise comparator-equivalent to it (the same ascending order). -/
theorem C2_sort_roundtrip {α : Type} {less : α → α → Bool} {F P n : ℕ}
    (hsw : IsSWO less) (hF : 2 ≤ F) (hP : 1 ≤ P) (hFP : F * P ≤ SIZE_MAX)
    (hnN : n ≤ SIZE_MAX) (f : ℕ → α) :
    SortedAsc less (asList n (sort_heap less F P n (make_heap less F P n f))) ∧
    List.Perm (asList n (sort_heap less F P n (make_heap less F P n f)))
      (insertionSort less (asList n f)) ∧
    (∀ i (h1 : i < (asList n (sort_heap less F P n (make_heap less F P n f))).length)
       (h2 : i < (insertionSort less (asList n f)).length),
      less ((asList n (sort_heap less F P n (make_heap less F P n f))).get ⟨i, h1⟩)
        ((insertionSort less (asList n f)).get ⟨i, h2⟩) = false ∧
      less ((insertionSort less (asList n f)).get ⟨i, h2⟩)
        ((asList n (sort_heap less F P n (make_heap less F P n f))).get ⟨i, h1⟩)
          = false) := by
  have hheap := make_heap_IsHeap hsw hF hP hFP hnN f
  have hs1 : SortedAsc less (asList n (sort_heap less F P n (make_heap less F P n f))) :=
    sortedAsc_of_adjacent hsw (sort_heap_sorted hsw hF hP hFP hnN _ hheap)
  have hm : msetR n (sort_heap less F P n (make_heap less F P n f)) = msetR n f := by
    rw [sort_heap_mset less hF hP hFP hnN, make_heap_mset less hF hP hFP hnN]
  have hperm : List.Perm (asList n (sort_heap less F P n (make_heap less F P n f)))
      (insertionSort less (asList n f)) :=
    (perm_of_msetR_eq hm).trans (insertionSort_perm less (asList n f)).symm
  have hs2 := insertionSort_sorted hsw (asList n f)
  exact ⟨hs1, hperm, fun i h1 h2 => sorted_perm_pointwise hsw hperm hs1 hs2 i h1 h2⟩

theorem C2_witness :
    IsSWO natl ∧
    SortedAsc natl (asList 3 (sort_heap natl 2 1 3 (make_heap natl 2 1 3 w3))) :=
  ⟨natl_SWO,
   (@C2_sort_roundtrip ℕ natl 2 1 3 natl_SWO (by decide) (by decide) (by decide)
     (by decide) w3).1⟩

/-- C3: for k ≥ 1 input ranges, each nonempty and ascending under the
comparator, `nway_merge` outputs an ascending sequence holding every
input element exactly once (a permutation of the concatenation),
pointwise comparator-equivalent to the reference sort of the
concatenation. -/
theorem C3_nway_merge {α : Type} [Inhabited α] {less : α → α → Bool} {F P : ℕ}
    (hsw : IsSWO less) (hF : 2 ≤ F) (hP : 1 ≤ P) (hFP : F * P ≤ SIZE_MAX)
    (rs : List (List α)) (hk : 1 ≤ rs.length) (hkN : rs.length ≤ SIZE_MAX)
    (hne : ∀ r, r ∈ rs → r ≠ []) (hsort : ∀ r, r ∈ rs → SortedAsc less r) :
    SortedAsc less (nway_merge less F P rs) ∧
    List.Perm (nway_merge less F P rs) rs.join ∧
    (∀ i (h1 : i < (nway_merge less F P rs).length)
       (h2 : i < (insertionSort less rs.join).length),
      less ((nway_merge less F P rs).get ⟨i, h1⟩)
        ((insertionSort less rs.join).get ⟨i, h2⟩) = false ∧
      less ((insertionSort less rs.join).get ⟨i, h2⟩)
        ((nway_merge less F P rs).get ⟨i, h1⟩) = false) := by
  obtain ⟨hs1, hp1⟩ := nway_merge_correct hsw hF hP hFP rs hk hkN hne hsort
  have hperm : List.Perm (nway_merge less F P rs) (insertionSort less rs.join) :=
    hp1.trans (insertionSort_perm less rs.join).symm
  have hs2 := insertionSort_sorted hsw rs.join
  exact ⟨hs1, hp1, fun i h1 h2 => sorted_perm_pointwise hsw hperm hs1 hs2 i h1 h2⟩

theorem C3_witness :
    IsSWO natl ∧
    List.Perm (nway_merge natl 2 1 [[1, 4, 7], [2, 3], [5, 6, 8, 9]])
      ([[1, 4, 7], [2, 3], [5, 6, 8, 9]] : List (List ℕ)).join :=
  ⟨natl_SWO,
   (@C3_nway_merge ℕ _ natl 2 1 natl_SWO (by decide) (by decide) (by decide)
     [[1, 4, 7], [2, 3], [5, 6, 8, 9]] (by decide) (by decide) (by decide)
     (by unfold SortedAsc; decide)).2.1⟩

/-- C4 (amended): in `remove_from_heap`, when the removed item is not at
the last position, the code moves the last element's value into a
temporary, relocates the removed item's value into the last slot, and
sifts the temporary down exactly when the temporary ranks LOWER under
the comparator than the value now at the tail slot (the code's
`less_comparer(tmp, first[new_heap_size])`), and otherwise sifts it up
toward the root — the opposite direction of the one the spec states. -/
theorem C4_remove_branch {α : Type} (less : α → α → Bool) (F P n idx : ℕ)
    (f : ℕ → α) (hidx : idx < n - 1) :
    remove_from_heap less F P n idx f =
      (if less (f (n - 1)) (f idx) = true then
        _sift_down less F P (n - 1) idx (f (n - 1)) (upd f (n - 1) (f idx))
      else _sift_up less F P 0 idx (f (n - 1)) (upd f (n - 1) (f idx))) := by
  unfold remove_from_heap
  simp only []
  rw [if_pos hidx]
  have hup : upd f (n - 1) (f idx) (n - 1) = f idx := upd_same _ _ _
  rw [hup]

theorem C4_witness :
    (0 : ℕ) < 3 - 1 ∧
    remove_from_heap natl 2 1 3 0 w4 =
      (if natl (w4 (3 - 1)) (w4 0) = true then
        _sift_down natl 2 1 (3 - 1) 0 (w4 (3 - 1)) (upd w4 (3 - 1) (w4 0))
      else _sift_up natl 2 1 0 0 (w4 (3 - 1)) (upd w4 (3 - 1) (w4 0))) :=
  ⟨by decide, C4_remove_branch natl 2 1 3 0 w4 (by decide)⟩

/-- C4 counterexample to the spec's wording: on the heap `[5, 4, 2]`
(Fanout 2, PageChunks 1) removing index 0, the code (which sifts down
when the temporary ranks lower than the tail value) yields front 4,
while the spec's inverted branch yields front 2 — a different sequence
(and not even a heap). -/
theorem C4_counterexample :
    is_heap natl 2 1 3 w4 = true ∧
    remove_from_heap natl 2 1 3 0 w4 0 = 4 ∧
    remove_from_heap_specC4 natl 2 1 3 0 w4 0 = 2 := by
  refine ⟨by decide, ?_, ?_⟩
  · have c1 : remove_from_heap natl 2 1 3 0 w4 =
        _sift_up natl 2 1 0 (_sdLoop natl 2 1 2 1 2 (upd w4 2 (w4 0)) 0).2 (w4 2)
          (_sdLoop natl 2 1 2 1 2 (upd w4 2 (w4 0)) 0).1 := by
      unfold remove_from_heap
      simp only []
      rw [if_pos (by decide : (0:ℕ) < 3 - 1), if_pos (by decide)]
      rfl
    rw [c1, sift_up_stop _ _ _ _ _ _ _ (by decide)]
    decide
  · have c2 : remove_from_heap_specC4 natl 2 1 3 0 w4 =
        _sift_up natl 2 1 0 0 (w4 2) (upd w4 2 (w4 0)) := by
      unfold remove_from_heap_specC4
      simp only []
      rw [if_pos (by decide : (0:ℕ) < 3 - 1), if_neg (by decide)]
    rw [c2, sift_up_stop _ _ _ _ _ _ _ (by decide)]
    decide

/-- C5: for a fixed Fanout ≥ 2 and PageChunks ≥ 1,
`get_parent_index (get_child_index u + k) = u` for every index
`u < SIZE_MAX` and every `k < Fanout`, whenever `get_child_index u` is
not the overflow sentinel and the addition does not wrap. -/
theorem C5_parent_child_roundtrip (F P : ℕ) (hF : 2 ≤ F) (hP : 1 ≤ P)
    (hFP : F * P ≤ SIZE_MAX) (u k : ℕ) (hu : u < SIZE_MAX) (hk : k < F)
    (hns : get_child_index F P u ≠ SIZE_MAX)
    (hnw : get_child_index F P u + k ≤ SIZE_MAX) :
    get_parent_index F P (get_child_index F P u + k) = u := by
  have heq := get_child_eq hF hP u hu hFP
  by_cases hs : SIZE_MAX ≤ childTrue F P u
  · rw [heq, if_pos hs] at hns
    exact absurd rfl hns
  · rw [heq, if_neg hs]
    exact par_child hF hP u k hk

theorem C5_witness :
    (2 : ℕ) ≤ 2 ∧ get_child_index 2 2 2 ≠ SIZE_MAX ∧
    get_parent_index 2 2 (get_child_index 2 2 2 + 1) = 2 :=
  ⟨by decide, by decide,
   C5_parent_child_roundtrip 2 2 (by decide) (by decide) (by decide) 2 1 (by decide)
     (by decide) (by decide) (by decide)⟩

/-- C6 (amended): for every parent index `u < SIZE_MAX` and layout with
Fanout ≥ 2, PageChunks ≥ 1 and page size at most `SIZE_MAX`,
`get_child_index` returns `SIZE_MAX` exactly when the true first-child
index is at least `SIZE_MAX` — i.e. also at the boundary where the true
child index equals `SIZE_MAX` itself, where the returned value collides
with the sentinel — and otherwise returns the true first-child index,
which is then below the sentinel. -/
theorem C6_child_sentinel (F P u : ℕ) (hF : 2 ≤ F) (hP : 1 ≤ P)
    (hFP : F * P ≤ SIZE_MAX) (hu : u < SIZE_MAX) :
    get_child_index F P u =
      (if SIZE_MAX ≤ childTrue F P u then SIZE_MAX else childTrue F P u) ∧
    (get_child_index F P u ≠ SIZE_MAX →
      get_child_index F P u = childTrue F P u ∧
      get_child_index F P u < SIZE_MAX) := by
  have heq := get_child_eq hF hP u hu hFP
  refine ⟨heq, ?_⟩
  intro hns
  by_cases hs : SIZE_MAX ≤ childTrue F P u
  · rw [heq, if_pos hs] at hns
    exact absurd rfl hns
  · rw [heq, if_neg hs]
    exact ⟨rfl, by omega⟩

theorem C6_witness :
    (1 : ℕ) < SIZE_MAX ∧
    get_child_index 2 1 1 =
      (if SIZE_MAX ≤ childTrue 2 1 1 then SIZE_MAX else childTrue 2 1 1) :=
  ⟨by decide,
   (C6_child_sentinel 2 1 1 (by decide) (by decide) (by decide) (by decide)).1⟩

/-- C6 counterexample to the spec's wording: with Fanout 2, PageChunks 1
and `u = 2^63 - 1`, the true first-child index is exactly `SIZE_MAX` —
it does not exceed the representable range — yet `get_child_index`
returns `SIZE_MAX`, indistinguishable from the sentinel. -/
theorem C6_counterexample :
    get_child_index 2 1 (2 ^ 63 - 1) = SIZE_MAX ∧
    childTrue 2 1 (2 ^ 63 - 1) = SIZE_MAX := by
  refine ⟨by decide, by decide⟩

/-- C7: popping a heap of size greater than 1 leaves a heap on the range
minus its last slot, the last slot receives the old root, and the old
root was a maximum of the original range. -/
theorem C7_pop_heap {α : Type} {less : α → α → Bool} {F P : ℕ}
    (hsw : IsSWO less) (hF : 2 ≤ F) (hP : 1 ≤ P) (hFP : F * P ≤ SIZE_MAX)
    {n : ℕ} (hnN : n ≤ SIZE_MAX) (f : ℕ → α)
    (hheap : is_heap less F P n f = true) (hn1 : 1 < n) :
    is_heap less F P (n - 1) (pop_heap less F P n f) = true ∧
    pop_heap less F P n f (n - 1) = f 0 ∧
    (∀ u, u < n → less (f 0) (f u) = false) := by
  obtain ⟨h1, h2⟩ := pop_heap_correct hsw hF hP hFP hnN f
    ((is_heap_iff _ _ _ _ _).mp hheap)
  obtain ⟨h3, h4⟩ := h2 hn1
  exact ⟨(is_heap_iff _ _ _ _ _).mpr h1, h3, h4⟩

theorem C7_witness :
    is_heap natl 2 1 3 wh3 = true ∧
    is_heap natl 2 1 2 (pop_heap natl 2 1 3 wh3) = true :=
  ⟨by decide,
   (@C7_pop_heap ℕ natl 2 1 natl_SWO (by decide) (by decide) (by decide) 3
     (by decide) wh3 (by decide) (by decide)).1⟩

/-- C8: the max-child scan of sift-down selects a child of the group
that no child beats, moves it into the hole, and every child after the
selected one is strictly smaller — so on equal rank the later-indexed
child wins, because the scan replaces the incumbent whenever a candidate
is not less than it. -/
theorem C8_max_child_tiebreak {α : Type} {less : α → α → Bool} (hsw : IsSWO less)
    (f : ℕ → α) (hole c count : ℕ) (hc : 1 ≤ count) :
    c ≤ (_move_up_max_child less f count hole c).2 ∧
    (_move_up_max_child less f count hole c).2 < c + count ∧
    (_move_up_max_child less f count hole c).1 =
      upd f hole (f (_move_up_max_child less f count hole c).2) ∧
    (∀ t, t < count →
      less (f (_move_up_max_child less f count hole c).2) (f (c + t)) = false) ∧
    (∀ t, (_move_up_max_child less f count hole c).2 < c + t → t < count →
      less (f (c + t)) (f (_move_up_max_child less f count hole c).2) = true) := by
  obtain ⟨hj, hmax, hstrict⟩ := mumc_j_spec less hsw f c count hc
  have h2 : (_move_up_max_child less f count hole c).2 =
      c + _mumc_j less f c count := rfl
  have h1 : (_move_up_max_child less f count hole c).1 =
      upd f hole (f (c + _mumc_j less f c count)) := rfl
  rw [h1, h2]
  exact ⟨by omega, by omega, rfl, hmax, fun t ht1 ht2 => hstrict t (by omega) ht2⟩

theorem C8_witness :
    IsSWO natl ∧ (1 : ℕ) ≤ 2 ∧ 1 ≤ (_move_up_max_child natl w8 2 0 1).2 :=
  ⟨natl_SWO, by decide, (C8_max_child_tiebreak natl_SWO w8 0 1 2 (by decide)).1⟩

/-- C9 (amended): for an antisymmetric strict-weak-order comparator,
draining a valid heap by `remove_from_heap` always at index 0 on the
shrinking range produces exactly the same sequence as repeated
`pop_heap` on the same shrinking range; without antisymmetry the two
drains can differ (see the counterexample). -/
theorem C9_remove_all_eq_pop_all {α : Type} {less : α → α → Bool} {F P : ℕ}
    (hsw : IsSWO less) (hF : 2 ≤ F) (hP : 1 ≤ P) (hFP : F * P ≤ SIZE_MAX)
    (hanti : ∀ a b : α, less a b = false → less b a = false → a = b)
    {n : ℕ} (hnN : n ≤ SIZE_MAX) (f : ℕ → α)
    (hheap : is_heap less F P n f = true) :
    ∀ u, u < n → removeAll less F P n f u = popAll less F P n f u :=
  removeAll_eq_popAll hsw hF hP hFP hanti hnN f ((is_heap_iff _ _ _ _ _).mp hheap)

theorem C9_witness :
    IsSWO natl ∧ removeAll natl 2 1 3 wh3 0 = popAll natl 2 1 3 wh3 0 :=
  ⟨natl_SWO,
   @C9_remove_all_eq_pop_all ℕ natl 2 1 natl_SWO (by decide) (by decide) (by decide)
     natl_anti 3 (by decide) wh3 (by decide) 0 (by decide)⟩

/-- Successive states of the two drains of the C9 counterexample. -/
def rg1 : ℕ → ℕ × ℕ := upd (upd pairF 2 (pairF 0)) 0 (pairF 2)

def rg2 : ℕ → ℕ × ℕ := upd (upd rg1 1 (rg1 0)) 0 (rg1 1)

def pA : ℕ → ℕ × ℕ :=
  upd (_sdLoop pairFst 2 1 2 1 2 (upd pairF 2 (pairF 0)) 0).1
    (_sdLoop pairFst 2 1 2 1 2 (upd pairF 2 (pairF 0)) 0).2 (pairF 2)

def pB : ℕ → ℕ × ℕ :=
  upd (_sdLoop pairFst 2 1 1 0 1 (upd pA 1 (pA 0)) 0).1
    (_sdLoop pairFst 2 1 1 0 1 (upd pA 1 (pA 0)) 0).2 (pA 1)

/-- C9 counterexample to the unconditional claim: with the strict weak
order on pairs comparing first components only, on the 3-element heap
`(5,0), (5,1), (5,2)` draining by `remove_from_heap` at index 0 and
draining by `pop_heap` produce different sequences. -/
theorem C9_counterexample :
    is_heap pairFst 2 1 3 pairF = true ∧
    removeAll pairFst 2 1 3 pairF 0 ≠ popAll pairFst 2 1 3 pairF 0 := by
  have s1 : remove_from_heap pairFst 2 1 3 0 pairF = rg1 := by
    unfold remove_from_heap
    simp only []
    rw [if_pos (by decide : (0:ℕ) < 3 - 1), if_neg (by decide), sift_up_stop]
    · rfl
    · decide
  have s2 : remove_from_heap pairFst 2 1 2 0 rg1 = rg2 := by
    unfold remove_from_heap
    simp only []
    rw [if_pos (by decide : (0:ℕ) < 2 - 1), if_neg (by decide), sift_up_stop]
    · rfl
    · decide
  have s3 : ∀ g : ℕ → ℕ × ℕ, removeAll pairFst 2 1 1 g = g := by
    intro g
    have u3 : removeAll pairFst 2 1 1 g =
        removeAll pairFst 2 1 0 (remove_from_heap pairFst 2 1 1 0 g) := rfl
    have u4 : remove_from_heap pairFst 2 1 1 0 g = g := by
      unfold remove_from_heap
      simp only []
      rw [if_neg (by decide : ¬((0:ℕ) < 1 - 1))]
    rw [u3, u4]
    rfl
  have hrm : removeAll pairFst 2 1 3 pairF 0 = (5, 1) := by
    have u1 : removeAll pairFst 2 1 3 pairF =
        removeAll pairFst 2 1 2 (remove_from_heap pairFst 2 1 3 0 pairF) := rfl
    have u2 : removeAll pairFst 2 1 2 rg1 =
        removeAll pairFst 2 1 1 (remove_from_heap pairFst 2 1 2 0 rg1) := rfl
    rw [u1, s1, u2, s2, s3]
    decide
  have p1 : pop_heap pairFst 2 1 3 pairF = pA := by
    have t1 : pop_heap pairFst 2 1 3 pairF =
        _sift_up pairFst 2 1 0 (_sdLoop pairFst 2 1 2 1 2 (upd pairF 2 (pairF 0)) 0).2
          (pairF 2) (_sdLoop pairFst 2 1 2 1 2 (upd pairF 2 (pairF 0)) 0).1 := rfl
    rw [t1, sift_up_stop]
    · rfl
    · decide
  have p2 : pop_heap pairFst 2 1 2 pA = pB := by
    have t2 : pop_heap pairFst 2 1 2 pA =
        _sift_up pairFst 2 1 0 (_sdLoop pairFst 2 1 1 0 1 (upd pA 1 (pA 0)) 0).2
          (pA 1) (_sdLoop pairFst 2 1 1 0 1 (upd pA 1 (pA 0)) 0).1 := rfl
    rw [t2, sift_up_stop]
    · rfl
    · decide
  have p3 : ∀ g : ℕ → ℕ × ℕ, popAll pairFst 2 1 1 g = g := by
    intro g
    have u : popAll pairFst 2 1 1 g =
        popAll pairFst 2 1 0 (pop_heap pairFst 2 1 1 g) := rfl
    have u2 : pop_heap pairFst 2 1 1 g = g := by
      unfold pop_heap
      rw [if_neg (by decide : ¬((1:ℕ) < 1))]
    rw [u, u2]
    rfl
  have hpp : popAll pairFst 2 1 3 pairF 0 = (5, 2) := by
    have u1 : popAll pairFst 2 1 3 pairF =
        popAll pairFst 2 1 2 (pop_heap pairFst 2 1 3 pairF) := rfl
    have u2 : popAll pairFst 2 1 2 pA =
        popAll pairFst 2 1 1 (pop_heap pairFst 2 1 2 pA) := rfl
    rw [u1, p1, u2, p2, p3]
    decide
  refine ⟨by decide, ?_⟩
  rw [hrm, hpp]
  decide

/-- C10: every mutating operation is a permutation of its range — the
multiset of values over the affected range is unchanged. -/
theorem C10_permutation {α : Type} {less : α → α → Bool} {F P : ℕ}
    (hF : 2 ≤ F) (hP : 1 ≤ P) (hFP : F * P ≤ SIZE_MAX) :
    (∀ n (f : ℕ → α), n ≤ SIZE_MAX →
      msetR n (make_heap less F P n f) = msetR n f) ∧
    (∀ n (f : ℕ → α), msetR n (push_heap less F P n f) = msetR n f) ∧
    (∀ n (f : ℕ → α), n ≤ SIZE_MAX →
      msetR n (pop_heap less F P n f) = msetR n f) ∧
    (∀ n (f : ℕ → α), n ≤ SIZE_MAX →
      msetR n (sort_heap less F P n f) = msetR n f) ∧
    (∀ h (f : ℕ → α),
      msetR (h + 1) (restore_heap_after_item_increase less F P h f) =
        msetR (h + 1) f) ∧
    (∀ n h (f : ℕ → α), n ≤ SIZE_MAX → h < n →
      msetR n (restore_heap_after_item_decrease less F P n h f) = msetR n f) ∧
    (∀ n idx (f : ℕ → α), n ≤ SIZE_MAX →
      msetR n (remove_from_heap less F P n idx f) = msetR n f) := by
  refine ⟨?_, ?_, ?_, ?_, ?_, ?_, ?_⟩
  · intro n f hnN
    exact make_heap_mset less hF hP hFP hnN f
  · intro n f
    exact push_heap_mset less f
  · intro n f hnN
    exact pop_heap_mset less hF hP hFP hnN f
  · intro n f hnN
    exact sort_heap_mset less hF hP hFP hnN f
  · intro h f
    exact restore_inc_mset less h f
  · intro n h f hnN hn
    exact restore_dec_mset less hF hP hFP hnN h hn f
  · intro n idx f hnN
    exact remove_mset less hF hP hFP hnN idx f

theorem C10_witness :
    (2 : ℕ) ≤ 2 ∧ msetR 3 (make_heap natl 2 1 3 w3) = msetR 3 w3 :=
  ⟨by decide,
   (@C10_permutation ℕ natl 2 1 (by decide) (by decide) (by decide)).1 3 w3
     (by decide)⟩

end Gheap
